import Mathlib

/-!
# Out-of-core terrain quadtree: index arithmetic, quadtree files, texture cache, view selection, map

A shallow embedding of the quadtree addressing functions (`qtree-util.hpp`,
`tqt.cpp`), of the texture quadtree reader (`tqt.cpp`), of the texture cache
(`texture-cache.cpp`, `texture-cache.hpp`), of the camera and the view frustum
(`camera.cpp`, `frustum.cpp`, `outcode.hpp`), of the map cells (`map-cell.cpp`,
`map-cell.hpp`) and of the map (`map.cpp`, `map.hpp`), with the properties that
hold of them.

Machine integers are natural numbers reduced modulo `2^32` where the C++
type is `uint32_t`.  Pointers to heap objects are indices into an explicit
heap.  Assertions are modelled by `Option`: `none` is a failed assertion.
-/

namespace Terrain

/-! ## 32-bit arithmetic -/

/-- Reduction of a natural number to the range of `uint32_t`. -/
def u32 (n : Nat) : Nat := n % 4294967296

/-- The 32-bit left shift `a << n`: the bits shifted beyond bit 31 are lost.
C++ defines the shift only for `n < 32`. -/
def shl32 (a n : Nat) : Nat := u32 (a <<< n)

/-- The 32-bit subtraction `a - b` of two 32-bit values, wrapping around below
zero. -/
def sub32 (a b : Nat) : Nat :=
  if u32 b ≤ u32 a then u32 a - u32 b else u32 a + 4294967296 - u32 b

/-! ## `tqt.cpp`: inline utility functions -/

/-- The number of nodes in a tree of the given depth (`tqt.cpp`, `fullSize`):
`((1 << (depth << 1)) - 1) & 0x55555555`. -/
def fullSize (depth : Nat) : Nat :=
  sub32 (shl32 1 (shl32 depth 1)) 1 &&& 0x55555555

/-- The node index of a node given by its level and its position on the level
(`tqt.cpp`, `nodeIndex`): `fullSize(level) + (row << level) + col`.  The two
assertions on `col` and `row` are checked first; `none` is a failed
assertion. -/
def nodeIndex (level row col : Nat) : Option Nat :=
  if col < shl32 1 level then
    if row < shl32 1 level then
      some (u32 (fullSize level + shl32 row level + col))
    else none
  else none

/-! ## `qtree-util.hpp` -/

namespace qtree

/-- The parent ID of a node; `parent(0) == 0`. -/
def parent (id : Nat) : Nat :=
  if id > 0 then (id - 1) >>> 2 else 0

/-- The child index of a node with respect to its parent. -/
def childIndex (id : Nat) : Nat :=
  if id > 0 then (id - 1) &&& 0x3 else 0

/-- The first (NW) child of a node: `(id << 2) + 1`. -/
def nwChild (id : Nat) : Nat := u32 (shl32 id 2 + 1)

/-- The second (NE) child of a node: `(id << 2) + 2`. -/
def neChild (id : Nat) : Nat := u32 (shl32 id 2 + 2)

/-- The third (SE) child of a node: `(id << 2) + 3`. -/
def seChild (id : Nat) : Nat := u32 (shl32 id 2 + 3)

/-- The fourth (SW) child of a node: `(id << 2) + 4`. -/
def swChild (id : Nat) : Nat := u32 (shl32 id 2 + 4)

/-- The number of nodes at a given level of a quadtree: `1 << (depth << 1)`. -/
def numNodesAt (depth : Nat) : Nat := shl32 1 (shl32 depth 1)

/-- The total number of nodes in a tree of the given depth
(`qtree-util.hpp`, `fullSize`): `((1 << (depth << 1)) - 1) & 0x55555555`. -/
def fullSize (depth : Nat) : Nat :=
  sub32 (shl32 1 (shl32 depth 1)) 1 &&& 0x55555555

end qtree

/-! ## `tqt.cpp`: the texture quadtree file -/

/-- Conversion of a `uint32_t` value to `int`. -/
def toInt32 (v : Nat) : Int :=
  if v % 4294967296 < 2147483648 then (v % 4294967296 : Nat) else (v % 4294967296 : Nat) - 4294967296

/-- Conversion of an `int` value to `uint32_t`. -/
def ofInt32 (x : Int) : Nat := (x % 4294967296).toNat

/-- Conversion of a `uint64_t` value to `std::streamoff` (a signed 64-bit integer). -/
def toStreamoff (v : Nat) : Int :=
  if v % 18446744073709551616 < 9223372036854775808 then (v % 18446744073709551616 : Nat)
  else (v % 18446744073709551616 : Nat) - 18446744073709551616

/-- An input file stream: the bytes of the file, the read position and the
fail bit. -/
structure IfStream where
  bytes : List Nat
  pos : Nat
  failed : Bool
  deriving DecidableEq, Repr

/-- The value of a little-endian byte sequence. -/
def leValue : List Nat → Nat
  | [] => 0
  | b :: bs => b % 256 + 256 * leValue bs

/-- The call `read(buf, n)` on a stream: when the stream has failed, or fewer than
`n` bytes remain, the read fails and the fail bit is set; otherwise the next `n`
bytes are delivered. -/
def IfStream.read (s : IfStream) (n : Nat) : Option (List Nat) × IfStream :=
  if s.failed then (none, s)
  else if s.pos + n ≤ s.bytes.length then
    (some ((s.bytes.drop s.pos).take n), { s with pos := s.pos + n })
  else (none, { s with pos := s.bytes.length, failed := true })

/-- Reads a `uint32_t` (`readUI32`); `none` is the result `false`. -/
def readUI32 (s : IfStream) : Option Nat × IfStream :=
  match s.read 4 with
  | (some bs, s1) => (some (leValue bs), s1)
  | (none, s1) => (none, s1)

/-- Reads a `uint64_t` (`readUI64`); `none` is the result `false`. -/
def readUI64 (s : IfStream) : Option Nat × IfStream :=
  match s.read 8 with
  | (some bs, s1) => (some (leValue bs), s1)
  | (none, s1) => (none, s1)

namespace tqt

/-- The file header. -/
structure Hdr where
  magic : Nat
  version : Nat
  depth : Nat
  tileSize : Nat
  deriving DecidableEq, Repr

/-- The magic number, "TQT\0" in little-endian order. -/
def TQT_MAGIC : Nat := 0x00545154

/-- The file format version. -/
def TQT_VERSION : Nat := 1

/-- Reads and checks the header (`readHeader`); `none` is the result `false`.
The four fields are read in order, and reading stops at the first failure. -/
def readHeader (s : IfStream) : Option Hdr × IfStream :=
  match readUI32 s with
  | (none, s1) => (none, s1)
  | (some magic, s1) =>
    match readUI32 s1 with
    | (none, s2) => (none, s2)
    | (some version, s2) =>
      match readUI32 s2 with
      | (none, s3) => (none, s3)
      | (some depth, s3) =>
        match readUI32 s3 with
        | (none, s4) => (none, s4)
        | (some tileSize, s4) =>
          if magic ≠ TQT_MAGIC ∨ version ≠ TQT_VERSION then (none, s4)
          else (some ⟨magic, version, depth, tileSize⟩, s4)

/-- A texture quadtree object. -/
structure TextureQTree where
  _toc : List Int
  _depth : Int
  _tileSize : Int
  _flip : Bool
  _sRGB : Bool
  _source : Option IfStream
  deriving DecidableEq, Repr

/-- The loop of the constructor that reads the table of contents: `n` offsets
are read in order; `none` when a read fails (the constructor then exits). -/
def readTOC : Nat → IfStream → Option (List Int × IfStream)
  | 0, s => some ([], s)
  | n + 1, s =>
    match readUI64 s with
    | (none, _) => none
    | (some offset, s1) =>
      match readTOC n s1 with
      | none => none
      | some (rest, s2) => some (toStreamoff offset :: rest, s2)

/-- The constructor `TextureQTree::TextureQTree`.  The argument `file` is the
content of the named file, `none` when it cannot be opened.  The result is `none`
where the constructor calls `exit`: the file cannot be opened, the header is
bogus, or the table of contents is cut short. -/
def TextureQTree.construct (file : Option (List Nat)) (flip sRGB : Bool) : Option TextureQTree :=
  match file with
  | none => none
  | some bytes =>
    match readHeader ⟨bytes, 0, false⟩ with
    | (none, _) => none
    | (some hdr, s1) =>
      let nTiles := toInt32 (fullSize hdr.depth)
      match readTOC nTiles.toNat s1 with
      | none => none
      | some (toc, s2) =>
        some ⟨toc, toInt32 hdr.depth, toInt32 hdr.tileSize, flip, sRGB, some s2⟩

/-- Is this a valid TQT? -/
def TextureQTree.isValid (t : TextureQTree) : Bool := t._source.isSome

/-- The first part of `TextureQTree::loadImage`, up to the call of `seekg`: the
result is `none` when an assertion fails, `some none` when the tree is not valid
(`loadImage` returns `nullptr`), and `some (some off)` when the stream is
positioned at offset `off`, which is `_toc[index]`. -/
def TextureQTree.loadImageSeek (t : TextureQTree) (level row col : Int) : Option (Option Int) :=
  if ¬ t.isValid then some none
  else if level < t._depth then
    match nodeIndex (ofInt32 level) (ofInt32 row) (ofInt32 col) with
    | none => none
    | some index =>
      if index < t._toc.length then
        match t._toc[index]? with
        | some off => some (some off)
        | none => none
      else none
  else none

/-- A decoded image: its size and its number of channels. -/
structure Image2D where
  width : Nat
  height : Nat
  channels : Nat
  deriving DecidableEq, Repr

/-- The channel count of an RGBA image. -/
def RGBA : Nat := 4

/-- The method `TextureQTree::loadImage`.  The image decoder, which is not part of
the texture quadtree, is the parameter `decode`: it is given the stream, the
offset the stream was positioned at, and the flags `flip` and `sRGB`.  The result
is `none` when an assertion fails and `some none` for `nullptr`. -/
def TextureQTree.loadImage (decode : IfStream → Int → Bool → Bool → Image2D)
    (t : TextureQTree) (level row col : Int) : Option (Option Image2D) :=
  match t.loadImageSeek level row col, t._source with
  | none, _ => none
  | some none, _ => some none
  | some (some _), none => some none
  | some (some off), some src =>
    let img := decode src off t._flip t._sRGB
    if (img.width : Int) ≠ t._tileSize ∨ (img.height : Int) ≠ t._tileSize ∨ img.channels ≠ RGBA
    then some none
    else some (some img)

end tqt

/-- A texture quadtree file of depth 2 with tiles of 256 pixels: the header and
the five offsets of the table of contents, without the image payloads. -/
def sampleFile : List Nat :=
  [0x54, 0x51, 0x54, 0x00,  1, 0, 0, 0,  2, 0, 0, 0,  0, 1, 0, 0,
   56, 0, 0, 0, 0, 0, 0, 0,  100, 0, 0, 0, 0, 0, 0, 0,  200, 0, 0, 0, 0, 0, 0, 0,
   44, 1, 0, 0, 0, 0, 0, 0,  144, 1, 0, 0, 0, 0, 0, 0]

/-- The texture quadtree that the constructor builds from `sampleFile`. -/
def sampleTree : tqt.TextureQTree :=
  ⟨[56, 100, 200, 300, 400], 2, 256, false, true, some ⟨sampleFile, 56, false⟩⟩

/-! ## `texture.cpp`: 2D textures

The macro `ERROR` is used in `texture.cpp` and is defined in none of the sources.
Whether control returns from it is the flag `errorReturns`; the uses of the macro
in `render.cpp` and `map-objects.cpp` are written for `errorReturns = false`, where
the program stops. -/

/-- A Vulkan texture (`cs237::Texture2D`), described by the image it was made
from. -/
structure Texture2D where
  tree : Nat
  level : Nat
  row : Nat
  col : Nat
  mipmaps : Bool
  deriving DecidableEq, Repr

/-- The constructor `Texture2D::Texture2D (app, img, mipmap)` reaches the statement
`ERROR("mipmap generation not supported yet")` when `mipmap` is set. -/
def Texture2D.reachesError (t : Texture2D) : Bool := t.mipmaps

/-- The constructor `Texture2D::Texture2D (app, img, mipmap)`, for the image `img`
of the tile `(level, row, col)` of the texture quadtree `tree`; `img = none` is
`nullptr`.  The result is `none` where the constructor does not return: it reads
the width of `img` through the pointer, and it reaches `ERROR` when `mipmap` is
set.  The Vulkan calls of `TextureBase` are taken to succeed. -/
def Texture2D.construct (errorReturns : Bool) (tree level row col : Nat)
    (img : Option tqt.Image2D) (mipmap : Bool) : Option Texture2D :=
  match img with
  | none => none
  | some _ =>
    if Texture2D.reachesError ⟨tree, level, row, col, mipmap⟩ = true ∧ errorReturns = false then none
    else some ⟨tree, level, row, col, mipmap⟩

/-! ## `texture-cache.hpp`, `texture-cache.cpp`: the texture cache

A `TileTexture *` is an index into `TextureCache.heap`, the list of the
`TileTexture` objects allocated by `make`, in the order of allocation.  A pointer
to a texture quadtree is a natural number. -/

/-- What `TileTexture::activate` uses and the cache does not hold: the texture
quadtree that a pointer `_tree` refers to (`none` for a pointer that refers to no
texture quadtree), the image decoder, and whether control returns from the macro
`ERROR`. -/
structure LoadEnv where
  trees : Nat → Option tqt.TextureQTree
  decode : IfStream → Int → Bool → Bool → tqt.Image2D
  errorReturns : Bool

/-- A texture for a tile (`class TileTexture`).  The field `_sampler` tells
whether a sampler has been created (`false` is `VK_NULL_HANDLE`); the field
`_cache` is left out, there being one cache. -/
structure TileTexture where
  _txt : Option Texture2D
  _sampler : Bool
  _tree : Nat
  _level : Nat
  _row : Nat
  _col : Nat
  _lastUsed : Nat
  _activeIdx : Int
  _active : Bool
  _mipmaps : Bool
  deriving DecidableEq, Repr

/-- The constructor `TileTexture::TileTexture`. -/
def TileTexture.construct (tree : Nat) (level row col : Int) (mipmaps : Bool) : TileTexture :=
  { _txt := none, _sampler := false, _tree := tree,
    _level := ofInt32 level, _row := ofInt32 row, _col := ofInt32 col,
    _lastUsed := 0, _activeIdx := -1, _active := false, _mipmaps := mipmaps }

/-- Is this texture active? -/
def TileTexture.isActive (t : TileTexture) : Bool := t._active

/-- Keys for hashing texture specifications (`TextureCache::Key`). -/
structure Key where
  _tree : Nat
  _level : Int
  _row : Int
  _col : Int
  deriving DecidableEq, Repr

/-- Hashing keys (`TextureCache::Hash`); the `int` arithmetic is taken to be
exact, and the sum is reduced to `std::size_t`. -/
def Hash (k : Key) : Nat :=
  (((k._tree : Int) + (k._level * 2 ^ 5) * 101 + (k._row * 2 ^ 10) * 101 + k._col)
    % 18446744073709551616).toNat

/-- Equality test on keys (`TextureCache::Equal`). -/
def Equal (k1 k2 : Key) : Bool :=
  k1._tree == k2._tree && k1._level == k2._level && k1._row == k2._row && k1._col == k2._col

/-- Soft upper bound on the number of GPU resident textures. -/
def kNumActiveLimit : Nat := 1024

/-- A cache of textures (`class TextureCache`), together with the heap of the
`TileTexture` objects it has allocated.  The table `_textureTbl` is the list of
its entries; a key is looked up with `Equal`. -/
structure TextureCache where
  heap : List TileTexture
  _numActive : Nat
  _clock : Nat
  _textureTbl : List (Key × Nat)
  _active : List Nat
  _inactive : List Nat
  deriving DecidableEq, Repr

/-- The constructor `TextureCache::TextureCache (app, mipmap)`.  The flag `mipmap`
is an argument that the constructor does not store. -/
def TextureCache.construct (_mipmap : Bool) : TextureCache :=
  { heap := [], _numActive := 0, _clock := 0, _textureTbl := [], _active := [], _inactive := [] }

/-- The update `p->field = v` of the object that `p` points to. -/
def heapModify (heap : List TileTexture) (p : Nat) (f : TileTexture → TileTexture) :
    List TileTexture :=
  match heap[p]? with
  | some o => heap.set p (f o)
  | none => heap

/-- The method `TextureCache::make`: the handle that is returned, and the cache
after the call. -/
def TextureCache.make (c : TextureCache) (tree : Nat) (level row col : Int) :
    Nat × TextureCache :=
  match c._textureTbl.find? (fun e => Equal e.1 ⟨tree, level, row, col⟩) with
  | none =>
    (c.heap.length,
      { c with
        heap := c.heap ++ [TileTexture.construct tree level row col true],
        _textureTbl := (⟨tree, level, row, col⟩, c.heap.length) :: c._textureTbl })
  | some got => (got.2, c)

/-- The method `TextureCache::newFrame`: `_clock++` on a `uint64_t`. -/
def TextureCache.newFrame (c : TextureCache) : TextureCache :=
  { c with _clock := (c._clock + 1) % 18446744073709551616 }

/-- The element `v[i]` of a vector for an `int` index; `none` when the index is
out of range. -/
def vecAt (v : List Nat) (i : Int) : Option Nat :=
  if i < 0 then none else v[i.toNat]?

/-- The method `TextureCache::_makeActive`; `none` is a failed assertion or an
access out of range.  The sizes of the vectors are taken to fit in an `int`. -/
def TextureCache._makeActive (c : TextureCache) (txt : Nat) : Option TextureCache :=
  match c.heap[txt]? with
  | none => none
  | some t =>
    if t._active then none
    else if t._activeIdx ≥ 0 then
      if vecAt c._inactive t._activeIdx = some txt then
        match c._inactive.getLast? with
        | none => none
        | some last =>
          let heap1 := heapModify c.heap last (fun o => { o with _activeIdx := t._activeIdx })
          let heap2 := heapModify heap1 txt (fun o => { o with _activeIdx := c._active.length })
          some { c with
            heap := heap2,
            _inactive := (c._inactive.set t._activeIdx.toNat last).dropLast,
            _active := c._active ++ [txt] }
      else none
    else
      some { c with
        heap := heapModify c.heap txt (fun o => { o with _activeIdx := c._active.length }),
        _active := c._active ++ [txt] }

/-- The method `TextureCache::_release`; `none` is a failed assertion or an
access out of range.  The sizes of the vectors are taken to fit in an `int`. -/
def TextureCache._release (c : TextureCache) (txt : Nat) : Option TextureCache :=
  match c.heap[txt]? with
  | none => none
  | some t =>
    if t._active then
      if vecAt c._active t._activeIdx = some txt then
        match c._active.getLast? with
        | none => none
        | some last =>
          let heap1 := heapModify c.heap last (fun o => { o with _activeIdx := t._activeIdx })
          let heap2 := heapModify heap1 txt (fun o => { o with _activeIdx := c._inactive.length })
          some { c with
            heap := heap2,
            _active := (c._active.set t._activeIdx.toNat last).dropLast,
            _inactive := c._inactive ++ [txt] }
      else none
    else none

/-- The first statements of `TileTexture::activate`, which load the image of the
tile from the texture quadtree and create the texture for it: the call of
`loadImage` on the object that `_tree` points to, and the call of the constructor
of `Texture2D` with the image and the flag `_mipmaps`.  The result is `none` where
control does not come back: `_tree` refers to no texture quadtree, an assertion of
`loadImage` fails, or the constructor does not return. -/
def TileTexture.loadTexture (env : LoadEnv) (t : TileTexture) : Option Texture2D :=
  match env.trees t._tree with
  | none => none
  | some tree =>
    match tree.loadImage env.decode (toInt32 t._level) (toInt32 t._row) (toInt32 t._col) with
    | none => none
    | some img =>
      Texture2D.construct env.errorReturns t._tree t._level t._row t._col img t._mipmaps

/-- The method `TileTexture::activate` of the object that `self` points to; `none`
is a failed assertion, or a load step that does not come back.  Creating the
sampler is taken to succeed. -/
def TileTexture.activate (env : LoadEnv) (c : TextureCache) (self : Nat) :
    Option TextureCache :=
  match c.heap[self]? with
  | none => none
  | some t =>
    if t._active then none
    else
      let loaded : Option (List TileTexture) :=
        if t._txt = none then
          match t.loadTexture env with
          | none => none
          | some txt =>
            some (heapModify c.heap self (fun o => { o with _txt := some txt, _sampler := true }))
        else some c.heap
      match loaded with
      | none => none
      | some heap1 =>
        match TextureCache._makeActive { c with heap := heap1 } self with
        | none => none
        | some c1 =>
          some { c1 with heap := heapModify c1.heap self (fun o => { o with _active := true }) }

/-- The method `TileTexture::release` of the object that `self` points to; `none`
is a failed assertion. -/
def TileTexture.release (c : TextureCache) (self : Nat) : Option TextureCache :=
  match c.heap[self]? with
  | none => none
  | some t =>
    if t._active then
      match TextureCache._release c self with
      | none => none
      | some c1 =>
        some { c1 with heap := heapModify c1.heap self (fun o => { o with _active := false }) }
    else none

/-- The cache states that are reached from a new cache by calls of `make`,
`activate`, `release` and `newFrame` that come back: no assertion fails in them,
and no load step stops the program. -/
inductive Reachable (env : LoadEnv) : TextureCache → Prop where
  | construct (mipmap : Bool) : Reachable env (TextureCache.construct mipmap)
  | make (c : TextureCache) (tree : Nat) (level row col : Int) :
      Reachable env c → Reachable env (c.make tree level row col).2
  | activate (c c1 : TextureCache) (h : Nat) :
      Reachable env c → TileTexture.activate env c h = some c1 → Reachable env c1
  | release (c c1 : TextureCache) (h : Nat) :
      Reachable env c → TileTexture.release c h = some c1 → Reachable env c1
  | newFrame (c : TextureCache) : Reachable env c → Reachable env c.newFrame

/-- Does the handle hold a resident texture? -/
def TextureCache.isLoaded (c : TextureCache) (h : Nat) : Bool :=
  match c.heap[h]? with
  | some o => o._txt.isSome
  | none => false

/-- The number of handles that hold a resident texture. -/
def TextureCache.numLoaded (c : TextureCache) : Nat :=
  ((List.range c.heap.length).filter (fun h => c.isLoaded h)).length

/-! ## The texture cache: consistency of a cache state -/

/-- Every entry of the vector `l` is a handle that holds a texture, has the flag
`_active = flag`, and records its own position in `_activeIdx`. -/
def ListOK (heap : List TileTexture) (l : List Nat) (flag : Bool) : Prop :=
  ∀ (i h : Nat), l[i]? = some h →
    ∃ o : TileTexture,
      heap[h]? = some o ∧ o._active = flag ∧ o._activeIdx = (i : Int) ∧ o._txt ≠ none

/-- Every handle that holds a texture and has the flag `_active = flag` is the
entry of the vector `l` at the position `_activeIdx`. -/
def ObjOK (heap : List TileTexture) (l : List Nat) (flag : Bool) : Prop :=
  ∀ (h : Nat) (o : TileTexture),
    heap[h]? = some o → o._txt ≠ none → o._active = flag → vecAt l o._activeIdx = some h

/-- Every handle that holds no texture is not active and has `_activeIdx = -1`. -/
def UnloadedOK (heap : List TileTexture) : Prop :=
  ∀ (h : Nat) (o : TileTexture),
    heap[h]? = some o → o._txt = none → o._active = false ∧ o._activeIdx = -1

/-- The steps that `activate` (on a handle in `_inactive`) and `release` have in
common: the handle `txt` at position `idx` of the vector `src` is replaced by the
last entry of `src`, which gets the position `idx`; `txt` is appended to `dst`
and gets the position at the end of `dst`; then the flag of `txt` is set. -/
def moveHandle (heap : List TileTexture) (src dst : List Nat) (txt : Nat) (idx : Int)
    (last : Nat) (flag : Bool) : List TileTexture × List Nat × List Nat :=
  (heapModify
    (heapModify (heapModify heap last (fun o => { o with _activeIdx := idx })) txt
      (fun o => { o with _activeIdx := dst.length }))
    txt (fun o => { o with _active := flag }),
   (src.set idx.toNat last).dropLast,
   dst ++ [txt])

/-- The consistency of a cache state: the two vectors and the handles agree, and
the table holds each key and each handle once, every handle being allocated. -/
structure WF (c : TextureCache) : Prop where
  act : ListOK c.heap c._active true
  inact : ListOK c.heap c._inactive false
  objAct : ObjOK c.heap c._active true
  objInact : ObjOK c.heap c._inactive false
  unloaded : UnloadedOK c.heap
  tblLt : ∀ e ∈ c._textureTbl, e.2 < c.heap.length
  tblInj : c._textureTbl.Pairwise (fun a b => a.1 ≠ b.1 ∧ a.2 ≠ b.2)

/-- What a call of `activate` or `release` on the handle `h` leaves unchanged:
the table, the clock, the size of the heap, and the texture and the time stamp of
every handle that holds a texture. -/
def Preserved (c c1 : TextureCache) : Prop :=
  c1._clock = c._clock ∧ c1._textureTbl = c._textureTbl ∧ c1.heap.length = c.heap.length ∧
  c1._numActive = c._numActive ∧
  ∀ (g : Nat) (og : TileTexture), c.heap[g]? = some og →
    ∃ og1 : TileTexture, c1.heap[g]? = some og1 ∧ og1._lastUsed = og._lastUsed ∧
      (og._txt ≠ none → og1._txt = og._txt)

/-- An environment in which the pointer 7 refers to `sampleTree`, the decoder
yields an RGBA image of 256 by 256 pixels, and control returns from `ERROR`. -/
def sampleEnv : LoadEnv :=
  { trees := fun p => if p = 7 then some sampleTree else none
    decode := fun _ _ _ _ => ⟨256, 256, 4⟩
    errorReturns := true }

/-- The environment `sampleEnv` with an `ERROR` from which control does not
return. -/
def stoppingEnv : LoadEnv := { sampleEnv with errorReturns := false }

/-- The cache after `make` of one handle. -/
def cacheMade : TextureCache := ((TextureCache.construct false).make 7 1 0 0).2

/-- The cache after the activation of the handle of `cacheMade`. -/
def cacheActive : TextureCache :=
  { heap := [{ _txt := some ⟨7, 1, 0, 0, true⟩, _sampler := true, _tree := 7, _level := 1,
               _row := 0, _col := 0, _lastUsed := 0, _activeIdx := 0, _active := true,
               _mipmaps := true }],
    _numActive := 0, _clock := 0, _textureTbl := [(⟨7, 1, 0, 0⟩, 0)],
    _active := [0], _inactive := [] }

/-- One frame is started, a handle is made and activated. -/
def stampScenario (env : LoadEnv) : Option TextureCache :=
  TileTexture.activate env ((TextureCache.construct false).newFrame.make 7 1 0 0).2
    ((TextureCache.construct false).newFrame.make 7 1 0 0).1

/-- The handles A, B, C are made and activated in this order, with `newFrame`
between them; then A is released, then B. -/
def scenarioD (env : LoadEnv) : Option TextureCache :=
  let ma := (TextureCache.construct false).make 7 1 0 0
  (TileTexture.activate env ma.2 ma.1).bind fun c2 =>
  let mb := c2.newFrame.make 7 1 0 1
  (TileTexture.activate env mb.2 mb.1).bind fun c5 =>
  let mc := c5.newFrame.make 7 1 1 0
  (TileTexture.activate env mc.2 mc.1).bind fun c8 =>
  (TileTexture.release c8 ma.1).bind fun c9 =>
  TileTexture.release c9 mb.1

/-! ## `camera.hpp`, `camera.cpp`: the camera

The `float` and `double` values are elements of a linearly ordered field `F`; the
library functions `tanf` and `glm::radians` are parameters. -/

/-- The camera (`class Camera`), without its position, direction and up vector. -/
structure Camera (F : Type) where
  _nearZ : F
  _farZ : F
  _aspect : F
  _halfFOV : F
  _errorFactor : F
  _wid : Int

/-- The constructor `Camera::Camera`: the error factor is invalid, the other fields
are not initialised and keep the values of `uninit`. -/
def Camera.construct {F : Type} [LinearOrderedField F] (uninit : Camera F) : Camera F :=
  { uninit with _errorFactor := -1 }

/-- The method `Camera::setViewport`. -/
def Camera.setViewport {F : Type} [LinearOrderedField F] (cam : Camera F) (wid ht : Int) :
    Camera F :=
  { cam with _errorFactor := -1, _aspect := (ht : F) / (wid : F), _wid := wid }

/-- The method `Camera::setFOV`: the half angle in radians is stored. -/
def Camera.setFOV {F : Type} [LinearOrderedField F] (radians : F → F) (cam : Camera F)
    (angle : F) : Camera F :=
  { cam with _errorFactor := -1, _halfFOV := radians (1 / 2 * angle) }

/-- The method `Camera::screenError`: the result and the camera afterwards (the
error factor is a `mutable` field). -/
def Camera.screenError {F : Type} [LinearOrderedField F] (tan : F → F) (cam : Camera F)
    (dist err : F) : F × Camera F :=
  if cam._errorFactor < 0 then
    ((cam._wid : F) / (2 * tan cam._halfFOV) * (err / dist),
      { cam with _errorFactor := (cam._wid : F) / (2 * tan cam._halfFOV) })
  else (cam._errorFactor * (err / dist), cam)

/-- A call of one of the methods `setViewport`, `setFOV` and `screenError`. -/
inductive CameraCall (F : Type) where
  | setViewport (wid ht : Int) : CameraCall F
  | setFOV (angle : F) : CameraCall F
  | screenError (dist err : F) : CameraCall F

/-- The camera after one call. -/
def Camera.step {F : Type} [LinearOrderedField F] (radians tan : F → F) (cam : Camera F) :
    CameraCall F → Camera F
  | .setViewport wid ht => cam.setViewport wid ht
  | .setFOV angle => cam.setFOV radians angle
  | .screenError dist err => (cam.screenError tan dist err).2

/-- The camera after a sequence of calls. -/
def Camera.run {F : Type} [LinearOrderedField F] (radians tan : F → F) (cam : Camera F) :
    List (CameraCall F) → Camera F
  | [] => cam
  | c :: cs => Camera.run radians tan (cam.step radians tan c) cs

/-- The width that a call sets, when it is a call of `setViewport`. -/
def CameraCall.width {F : Type} : CameraCall F → Option Int
  | .setViewport wid _ => some wid
  | _ => none

/-- The angle that a call sets, when it is a call of `setFOV`. -/
def CameraCall.angle {F : Type} : CameraCall F → Option F
  | .setFOV angle => some angle
  | _ => none

/-- The width given to the last call of `setViewport` in a sequence of calls. -/
def lastViewport {F : Type} : List (CameraCall F) → Option Int
  | [] => none
  | c :: cs => (lastViewport cs).orElse (fun _ => c.width)

/-- The angle given to the last call of `setFOV` in a sequence of calls. -/
def lastFOV {F : Type} : List (CameraCall F) → Option F
  | [] => none
  | c :: cs => (lastFOV cs).orElse (fun _ => c.angle)

/-- The cached error factor is invalid or is the one of the current viewport width
and field of view. -/
def Camera.Coherent {F : Type} [LinearOrderedField F] (tan : F → F) (cam : Camera F) : Prop :=
  cam._errorFactor < 0 ∨ cam._errorFactor = (cam._wid : F) / (2 * tan cam._halfFOV)

/-- A sequence of calls in which the viewport and the field of view are set twice,
with a call of `screenError` in between. -/
def sampleCalls : List (CameraCall ℚ) :=
  [.setViewport 800 600, .setFOV 60, .screenError 10 1, .setViewport 1000 500, .setFOV 90]

/-! ## `outcode.hpp`, `cs237-plane.hpp`, `frustum.hpp`, `frustum.cpp`: view-frustum culling

The `double` values are elements of a linearly ordered ring `F`.  A bounding box
is given by its eight corners `bb.corner(0)` to `bb.corner(7)`. -/

/-- An outcode (`struct Outcode`); `_planes` is a `uint8_t`. -/
structure Outcode where
  _culled : Bool
  _planes : Nat
  deriving DecidableEq, Repr

/-- The constructor `Outcode()` with its default arguments: the initial outcode. -/
def Outcode.construct : Outcode := ⟨false, 0x3f⟩

/-- Is the object culled? -/
def Outcode.culled (c : Outcode) : Bool := c._culled

/-- Is the object completely inside the planes? -/
def Outcode.allIn (c : Outcode) : Bool := c._planes == 0

/-- Is the object completely inside the given plane?  `(_planes & (1 << p)) == 0`. -/
def Outcode.notCulledBy (c : Outcode) (p : Nat) : Bool := (c._planes &&& (1 <<< p)) == 0

/-- Clear the bit for the plane: `_planes &= ~(1 << p)`, the complement being taken
on 32 bits and the result stored in 8 bits. -/
def Outcode.clearPlane (c : Outcode) (p : Nat) : Outcode :=
  { c with _planes := (c._planes &&& (4294967295 ^^^ (1 <<< p))) % 256 }

/-- A point in space (`glm::dvec3`). -/
structure Vec3 (F : Type) where
  x : F
  y : F
  z : F
  deriving DecidableEq

/-- An oriented plane (`cs237::Plane`): the normal vector and the signed distance
from the origin, the four components of `_nd`. -/
structure Plane (F : Type) where
  nx : F
  ny : F
  nz : F
  d : F
  deriving DecidableEq

/-- The signed distance from a point to the plane: `dot(_nd, dvec4(p, 1.0))`. -/
def Plane.distanceToPt {F : Type} [LinearOrderedRing F] (pl : Plane F) (p : Vec3 F) : F :=
  pl.nx * p.x + pl.ny * p.y + pl.nz * p.z + pl.d * 1

/-- A view frustum (`struct Frustum`): its six planes. -/
structure Frustum (F : Type) where
  _sides : Fin 6 → Plane F

/-- The index of the near plane in `_sides` (`LEFT, RIGHT, BOTTOM, TOP, NEAR, FAR`). -/
def Frustum.NEAR : Fin 6 := 4

/-- The inner loop of `Frustum::intersectBox`: the number of the eight corners at
a distance `>= 0` from the plane. -/
def nCornersIn {F : Type} [LinearOrderedRing F] (pl : Plane F) (corner : Fin 8 → Vec3 F) :
    Nat :=
  (List.finRange 8).countP (fun j => decide (pl.distanceToPt (corner j) ≥ 0))

/-- The outer loop of `Frustum::intersectBox` over the planes that remain to be
visited. -/
def Frustum.planeLoop {F : Type} [LinearOrderedRing F] (f : Frustum F)
    (corner : Fin 8 → Vec3 F) : List (Fin 6) → Outcode → Outcode
  | [], code => code
  | i :: rest, code =>
    if code.notCulledBy i.val then f.planeLoop corner rest code
    else if nCornersIn (f._sides i) corner = 0 then ⟨true, 0⟩
    else if nCornersIn (f._sides i) corner = 8 then
      if (code.clearPlane i.val).allIn then code.clearPlane i.val
      else f.planeLoop corner rest (code.clearPlane i.val)
    else f.planeLoop corner rest code

/-- The method `Frustum::intersectBox (bb, parent)`; `none` is a failed assertion. -/
def Frustum.intersectBox {F : Type} [LinearOrderedRing F] (f : Frustum F)
    (corner : Fin 8 → Vec3 F) (parent : Outcode) : Option Outcode :=
  if (! parent.culled) && (! parent.allIn) then
    some (f.planeLoop corner (List.finRange 6) parent)
  else none

/-- The method `Frustum::intersectBox (bb)`, which starts from the initial
outcode. -/
def Frustum.intersectBoxInit {F : Type} [LinearOrderedRing F] (f : Frustum F)
    (corner : Fin 8 → Vec3 F) : Option Outcode :=
  f.intersectBox corner Outcode.construct

/-- A frustum over the integers: the six half-spaces that bound the cube from -2
to 2, in the order left, right, bottom, top, near, far. -/
def sampleFrustum : Frustum ℤ :=
  ⟨fun i =>
    match i with
    | 0 => ⟨1, 0, 0, 2⟩
    | 1 => ⟨-1, 0, 0, 2⟩
    | 2 => ⟨0, 1, 0, 2⟩
    | 3 => ⟨0, -1, 0, 2⟩
    | 4 => ⟨0, 0, 1, 2⟩
    | 5 => ⟨0, 0, -1, 2⟩⟩

/-- The corners of the axis-aligned box from `lo` to `hi`. -/
def boxCorners (lo hi : Vec3 ℤ) : Fin 8 → Vec3 ℤ := fun j =>
  ⟨if j.val % 2 = 0 then lo.x else hi.x,
   if (j.val / 2) % 2 = 0 then lo.y else hi.y,
   if (j.val / 4) % 2 = 0 then lo.z else hi.z⟩

/-- A box in front of the near plane of `sampleFrustum`, inside the other five
planes. -/
def boxBeyondNear : Fin 8 → Vec3 ℤ := boxCorners ⟨-1, -1, -6⟩ ⟨1, 1, -4⟩

/-- A box that straddles the left plane of `sampleFrustum`. -/
def boxAcrossLeft : Fin 8 → Vec3 ℤ := boxCorners ⟨-3, -1, -1⟩ ⟨1, 1, 1⟩

/-- The frustum `sampleFrustum` with another near plane. -/
def sampleFrustum2 : Frustum ℤ :=
  ⟨fun i => if i = Frustum.NEAR then ⟨0, 0, 1, -50⟩ else sampleFrustum._sides i⟩

/-! ## `map-cell.hpp`, `map-cell.cpp`: map cells

A `Tile *` into the array `_tiles` of a cell is an index into the list of tiles.
The arrays of a chunk are kept as the bytes of their storage.  The field
`_cellSize` of the map that contains the cell is the parameter `mapCellSize`.
The bounding box of a tile is not a field of the tile here: it is the value of
`Cell.tileBBox`. -/

/-- A sized array (`vk::ArrayProxy`): the number of entries and the bytes of the
storage that the pointer refers to (no bytes for `nullptr`). -/
structure ArrayProxy where
  count : Nat
  data : List Nat
  deriving DecidableEq, Repr

/-- The size of a packed vertex (`sizeof(HFVertex)`): four 16-bit integers. -/
def sizeofHFVertex : Nat := 8

/-- The size of an index (`sizeof(uint16_t)`). -/
def sizeofIndex : Nat := 2

/-- An LOD mesh chunk (`struct Chunk`); `maxError` is kept as the four bytes of the
`float`. -/
structure Chunk where
  maxError : Nat
  minY : Int
  maxY : Int
  vertices : ArrayProxy
  indices : ArrayProxy
  deriving DecidableEq, Repr

/-- The number of vertices in the chunk: `this->vertices.size()`. -/
def Chunk.nVertices (c : Chunk) : Nat := u32 c.vertices.count

/-- The number of indices in the chunk, as the source computes it:
`this->vertices.size()`. -/
def Chunk.nIndices (c : Chunk) : Nat := u32 c.vertices.count

/-- The size of the vertex array in bytes. -/
def Chunk.vSize (c : Chunk) : Nat := c.nVertices * sizeofHFVertex

/-- The size of the index array in bytes. -/
def Chunk.iSize (c : Chunk) : Nat := c.nIndices * sizeofIndex

/-- A node of the LOD quadtree (`class Tile`), without the pointer to its cell and
without its bounding box (see `Cell.tileBBox`). -/
structure Tile where
  _id : Nat
  _row : Nat
  _col : Nat
  _lod : Int
  _chunk : Chunk
  deriving DecidableEq, Repr

/-- The constructor `Tile::Tile`: the two arrays of the chunk are null, the other
fields are not initialised and keep the values of `uninit`. -/
def Tile.construct (uninit : Tile) : Tile :=
  { uninit with _chunk := { uninit._chunk with vertices := ⟨0, []⟩, indices := ⟨0, []⟩ } }

/-- A map cell (`class Cell`), without its map, its path and its textures. -/
structure Cell where
  _row : Nat
  _col : Nat
  _nLODs : Nat
  _nTiles : Nat
  _tiles : Option (List Tile)
  deriving DecidableEq, Repr

/-- The constructor `Cell::Cell`. -/
def Cell.construct (r c : Nat) : Cell :=
  { _row := r, _col := c, _nLODs := 0, _nTiles := 0, _tiles := none }

/-- The magic number of a cell file, 'cell'. -/
def Cell.kMagic : Nat := 0x63656C6C

/-- The minimum number of LODs in a map. -/
def Cell.kMinLODs : Nat := 1

/-- The maximum number of LODs in a map. -/
def Cell.kMaxLODs : Nat := 9

/-- Has the cell data been loaded? -/
def Cell.isLoaded (c : Cell) : Bool := c._tiles.isSome

/-- The number of levels of detail of the cell, as an `int`. -/
def Cell.depth (c : Cell) : Int := toInt32 c._nLODs

/-- The width of the cell, `_map->cellWidth()`, as an `int`. -/
def Cell.width (mapCellSize : Nat) : Int := toInt32 mapCellSize

/-- The method `Cell::tile`: the index of the tile in the array; `none` is a
failed assertion.  In `id < _nTiles` the `int` is compared as an unsigned
number. -/
def Cell.tile (c : Cell) (id : Int) : Option Nat :=
  if c.isLoaded then
    if 0 ≤ id ∧ ofInt32 id < c._nTiles then some id.toNat else none
  else none

/-- The method `Tile::child` of the tile `t` of the cell `c`: `none` is a failed
assertion, `some none` is `nullptr`, `some (some k)` is the tile at index `k`. -/
def Tile.child (c : Cell) (t : Tile) (i : Int) : Option (Option Nat) :=
  if 0 ≤ i ∧ i < 4 then
    if t._lod + 1 < c.depth then
      match c.tile (toInt32 (u32 (qtree.nwChild t._id + ofInt32 i))) with
      | some k => some (some k)
      | none => none
    else some none
  else none

/-- The method `Tile::numChildren` of the tile `t` of the cell `c`. -/
def Tile.numChildren (c : Cell) (t : Tile) : Int :=
  if t._lod + 1 < c.depth then 4 else 0

/-- The update of the tile at index `k` of the array of the cell; `none` when
there is no such tile. -/
def Cell.setTile (c : Cell) (k : Nat) (f : Tile → Tile) : Option Cell :=
  match c._tiles with
  | none => none
  | some tiles =>
    match tiles[k]? with
    | none => none
    | some t => some { c with _tiles := some (tiles.set k (f t)) }

/-- The tile at index `k` of the array of the cell. -/
def Cell.getTile (c : Cell) (k : Nat) : Option Tile :=
  match c._tiles with
  | none => none
  | some tiles => tiles[k]?

/-- One turn of the loop over the four children in `Tile::_init`:
`this->child(i)->_init (cell, kidId+i, row+dr, col+dc, lod+1)`, where `this` is the
tile at index `self` and `init` is the recursive call; `none` is a failed
assertion or a call through `nullptr`. -/
def Tile.initKid (init : Cell → Nat → Nat → Nat → Nat → Nat → Option Cell)
    (self : Nat) (kidId : Int) (row col lod : Nat) (cur : Cell) (i : Int) (dr dc : Nat) :
    Option Cell :=
  match cur.getTile self with
  | none => none
  | some t =>
    match Tile.child cur t i with
    | some (some k) =>
      init cur k (ofInt32 (kidId + i)) (u32 (row + dr)) (u32 (col + dc)) (u32 (lod + 1))
    | _ => none

/-- The method `Tile::_init` on the tile at index `self` of the cell `c`.  The
first argument bounds the depth of the recursion; `none` is a failed assertion, a
call through `nullptr`, or a recursion deeper than the bound. -/
def Tile._init (mapCellSize : Nat) :
    Nat → Cell → Nat → Nat → Nat → Nat → Nat → Option Cell
  | 0, _, _, _, _, _, _ => none
  | fuel + 1, c, self, id, row, col, lod =>
    match c.setTile self (fun t =>
        { t with _id := id, _row := row, _col := col, _lod := toInt32 lod }) with
    | none => none
    | some c1 =>
      if u32 (lod + 1) < ofInt32 c1.depth then
        let halfWid := ofInt32 (Cell.width mapCellSize >>> u32 (lod + 1))
        let kidId := toInt32 (qtree.nwChild id)
        (Tile.initKid (Tile._init mapCellSize fuel) self kidId row col lod c1 0 0 0).bind
          fun c2 =>
        (Tile.initKid (Tile._init mapCellSize fuel) self kidId row col lod c2 1 0 halfWid).bind
          fun c3 =>
        (Tile.initKid (Tile._init mapCellSize fuel) self kidId row col lod c3 2 halfWid
          halfWid).bind fun c4 =>
        Tile.initKid (Tile._init mapCellSize fuel) self kidId row col lod c4 3 halfWid 0
      else some c1

/-- The helper `readVal<T>` of `map-cell.cpp` for a value of `n` bytes: the value
(little-endian) and the stream afterwards; `none` where the program exits. -/
def readVal (s : IfStream) (n : Nat) : Option (Nat × IfStream) :=
  match s.read n with
  | (some bs, s1) => some (leValue bs, s1)
  | (none, _) => none

/-- Conversion of a 16-bit pattern to `int16_t`. -/
def toInt16 (v : Nat) : Int :=
  if v % 65536 < 32768 then (v % 65536 : Nat) else (v % 65536 : Nat) - 65536

/-- The call `seekg(off)`: a negative offset sets the fail bit. -/
def IfStream.seekg (s : IfStream) (off : Int) : IfStream :=
  if s.failed then s
  else if off < 0 then { s with failed := true }
  else { s with pos := off.toNat }

/-- The call `read(buf, n)` into an array whose storage holds the bytes `buf`: the
storage afterwards and the stream afterwards; `none` where the read fails (the
program then exits) or where it writes beyond the end of the storage. -/
def readInto (s : IfStream) (buf : List Nat) (n : Nat) : Option (List Nat × IfStream) :=
  match s.read n with
  | (some bs, s1) => if n ≤ buf.length then some (bs ++ buf.drop n, s1) else none
  | (none, _) => none

/-- The bytes of a newly allocated array of `n` bytes, which is not initialised. -/
def newArray (junk : Nat → Nat) (n : Nat) : List Nat := (List.range n).map junk

/-- One turn of the loop of `Cell::load` that loads the tile mesh data: the chunk
`cp` of a tile is filled from the record at offset `off`.  The statements are
taken in the order of the source. -/
def loadChunk (junk : Nat → Nat) (s : IfStream) (off : Int) (cp : Chunk) :
    Option (Chunk × IfStream) :=
  (readVal (s.seekg off) 4).bind fun (maxError, s1) =>
  (readVal s1 4).bind fun (nVerts, s2) =>
  (readVal s2 4).bind fun (nIndices, s3) =>
  (readVal s3 2).bind fun (minY, s4) =>
  (readVal s4 2).bind fun (maxY, s5) =>
  let cp1 := { cp with maxError := maxError, minY := toInt16 minY, maxY := toInt16 maxY }
  let verts := newArray junk (nVerts * sizeofHFVertex)
  let idxs := newArray junk (nIndices * sizeofIndex)
  (readInto s5 verts cp1.vSize).bind fun (verts1, s6) =>
  let cp2 := { cp1 with vertices := ⟨nVerts, verts1⟩ }
  (readInto s6 idxs cp2.iSize).bind fun (idxs1, s7) =>
  some ({ cp2 with indices := ⟨nIndices, idxs1⟩ }, s7)

/-- The loop of `Cell::load` that loads the tile mesh data, for the tiles from
index `id` on; `toc` holds the offsets of these tiles. -/
def loadChunks (junk : Nat → Nat) : IfStream → List Int → List Tile → Option (List Tile)
  | _, _, [] => some []
  | _, [], _ :: _ => none
  | s, off :: toc, t :: ts =>
    match loadChunk junk s off t._chunk with
    | none => none
    | some (cp, s1) =>
      match loadChunks junk s1 toc ts with
      | none => none
      | some rest => some ({ t with _chunk := cp } :: rest)

/-- The loop of `Cell::load` that reads the table of contents. -/
def Cell.readTOC : Nat → IfStream → Option (List Int × IfStream)
  | 0, s => some ([], s)
  | n + 1, s =>
    match readVal s 8 with
    | none => none
    | some (offset, s1) =>
      match Cell.readTOC n s1 with
      | none => none
      | some (rest, s2) => some (toStreamoff offset :: rest, s2)

/-- The method `Cell::load`.  The argument `file` is the content of the file
"hf.cell", `none` when it cannot be opened; `uninit k` holds the values of the
fields that the constructor of the tile at index `k` does not initialise.  The
result is `none` where the program exits or an assertion fails. -/
def Cell.load (mapCellSize : Nat) (uninit : Nat → Tile) (junk : Nat → Nat)
    (file : Option (List Nat)) (c : Cell) : Option Cell :=
  if c.isLoaded then some c
  else
    match file with
    | none => none
    | some bytes =>
      (readVal ⟨bytes, 0, false⟩ 4).bind fun (magic, s1) =>
      (readVal s1 4).bind fun (compressed, s2) =>
      (readVal s2 4).bind fun (size, s3) =>
      (readVal s3 4).bind fun (nLODs, s4) =>
      if magic ≠ Cell.kMagic then none
      else if mapCellSize ≠ size then none
      else if nLODs < Cell.kMinLODs ∨ Cell.kMaxLODs < nLODs then none
      else if compressed ≠ 0 then none
      else
        (Cell.readTOC (qtree.fullSize nLODs) s4).bind fun (toc, s5) =>
        (Tile._init mapCellSize nLODs
            { c with _nLODs := nLODs, _nTiles := qtree.fullSize nLODs,
                     _tiles := some ((List.range (qtree.fullSize nLODs)).map
                       (fun k => Tile.construct (uninit k))) }
            0 0 0 0 0).bind fun c1 =>
        match c1._tiles with
        | none => none
        | some tiles =>
          (loadChunks junk s5 toc tiles).bind fun tiles1 =>
          some { c1 with _tiles := some tiles1 }

/-- A tile whose fields are all zero. -/
def zeroTile : Tile := ⟨0, 0, 0, 0, ⟨0, 0, 0, ⟨0, []⟩, ⟨0, []⟩⟩⟩

/-- A chunk record with 2 vertices and 3 indices: the header, 16 bytes of vertex
data (1 to 16) and 6 bytes of index data (101 to 106). -/
def sampleRecord : List Nat :=
  [0, 0, 128, 63,  2, 0, 0, 0,  3, 0, 0, 0,  5, 0,  9, 0,
   1, 2, 3, 4, 5, 6, 7, 8, 9, 10, 11, 12, 13, 14, 15, 16,
   101, 102, 103, 104, 105, 106]

/-- A cell file of depth 2 for cells of width 256, the five chunks being empty. -/
def sampleCellFile : List Nat :=
  [0x6C, 0x6C, 0x65, 0x63,  0, 0, 0, 0,  0, 1, 0, 0,  2, 0, 0, 0,
   56, 0, 0, 0, 0, 0, 0, 0,  72, 0, 0, 0, 0, 0, 0, 0,  88, 0, 0, 0, 0, 0, 0, 0,
   104, 0, 0, 0, 0, 0, 0, 0,  120, 0, 0, 0, 0, 0, 0, 0,
   0, 0, 0, 0,  0, 0, 0, 0,  0, 0, 0, 0,  0, 0,  0, 0,
   0, 0, 0, 0,  0, 0, 0, 0,  0, 0, 0, 0,  0, 0,  0, 0,
   0, 0, 0, 0,  0, 0, 0, 0,  0, 0, 0, 0,  0, 0,  0, 0,
   0, 0, 0, 0,  0, 0, 0, 0,  0, 0, 0, 0,  0, 0,  0, 0,
   0, 0, 0, 0,  0, 0, 0, 0,  0, 0, 0, 0,  0, 0,  0, 0]

/-- The chunk of a tile that has just been constructed. -/
def emptyChunk : Chunk := (Tile.construct zeroTile)._chunk

/-- A chunk with 2 vertices and 3 indices. -/
def sampleChunk : Chunk :=
  { maxError := 0, minY := 5, maxY := 9,
    vertices := ⟨2, [1, 2, 3, 4, 5, 6, 7, 8, 9, 10, 11, 12, 13, 14, 15, 16]⟩,
    indices := ⟨3, [101, 102, 103, 104, 105, 106]⟩ }

/-- The cell that `Cell::load` builds from `sampleCellFile`. -/
def sampleCell : Cell :=
  { _row := 0, _col := 0, _nLODs := 2, _nTiles := 5,
    _tiles := some
      [{ zeroTile with _id := 0, _row := 0, _col := 0, _lod := 0 },
       { zeroTile with _id := 1, _row := 0, _col := 0, _lod := 1 },
       { zeroTile with _id := 2, _row := 0, _col := 128, _lod := 1 },
       { zeroTile with _id := 3, _row := 128, _col := 128, _lod := 1 },
       { zeroTile with _id := 4, _row := 128, _col := 0, _lod := 1 }] }

/-- The cell has depth `d` and an array of `fullSize d` tiles. -/
def CellOK (d : Nat) (c : Cell) : Prop :=
  c._nLODs = d ∧ 1 ≤ d ∧ d ≤ 9 ∧ c._nTiles = fullSize d ∧
    ∃ tiles : List Tile, c._tiles = some tiles ∧ tiles.length = fullSize d

/-- The tile `t` is initialised as the tile at index `k`: its `_id` is `k`, and its
`_lod` is the level `L` below `d` with `fullSize L ≤ k < fullSize (L + 1)`. -/
def GoodTile (d : Nat) (t : Tile) (k : Nat) : Prop :=
  t._id = k ∧ ∃ L : Nat, t._lod = (L : Int) ∧ L < d ∧ fullSize L ≤ k ∧ k < fullSize (L + 1)

/-- The tile at index `k` of the cell is initialised. -/
def GoodAt (d : Nat) (c : Cell) (k : Nat) : Prop :=
  ∃ t : Tile, c.getTile k = some t ∧ GoodTile d t k

/-- The node `k` is a descendant of the node `id` in the quadtree, `n` levels
below it (`Desc id n k`). -/
inductive Desc : Nat → Nat → Nat → Prop where
  | self (id : Nat) : Desc id 0 id
  | kid (id n k i : Nat) : i < 4 → Desc (4 * id + 1 + i) n k → Desc id (n + 1) k

/-! ## `tqt.cpp`: the probe `isTQTFile`; `map.cpp`: the function `ilog2` -/

/-- The static method `TextureQTree::isTQTFile`.  The argument `file` is the
content of the named file, `none` when it cannot be opened. -/
def tqt.TextureQTree.isTQTFile (file : Option (List Nat)) : Bool :=
  match file with
  | none => false
  | some bytes => (tqt.readHeader ⟨bytes, 0, false⟩).1.isSome

/-- The function `ilog2` of `map.cpp` after `fuel` turns of its loop, with the
current values of `k` and `two_k`; `none` when the loop has not ended after `fuel`
turns.  The `int` product `two_k * 2` is taken to wrap around, and `two_k` is
compared with `n` as an unsigned number. -/
def ilog2Loop (n : Nat) : Nat → Int → Int → Option Int
  | 0, _, _ => none
  | fuel + 1, k, two_k =>
    if ofInt32 two_k < n then
      if ofInt32 (toInt32 (ofInt32 (two_k * 2))) = n then some (k + 1)
      else ilog2Loop n fuel (k + 1) (toInt32 (ofInt32 (two_k * 2)))
    else some (-1)

/-- The function `ilog2` of `map.cpp`, with a bound on the number of turns of its
loop. -/
def ilog2 (fuel : Nat) (n : Nat) : Option Int := ilog2Loop n fuel 0 1

/-! ## The texture cache: the flag and the texture of a handle -/

/-- The flag `_mipmaps` of the handle `h`. -/
def TextureCache.mipmapsOf (c : TextureCache) (h : Nat) : Option Bool :=
  (c.heap[h]?).map (fun o => o._mipmaps)

/-- The texture of the handle `h`, when it holds one. -/
def TextureCache.textureOf (c : TextureCache) (h : Nat) : Option Texture2D :=
  (c.heap[h]?).bind (fun o => o._txt)

/-! ## `map.hpp`, `map.cpp`: the map

The `float` and `double` values are elements of a linearly ordered field `F`.
The JSON library is not among the sources: the object that is read from
"map.json" is given by the results of the accessor calls that `Map::load` makes on
it. -/

/-- The helper `getThreeFloats (arr, out)` of `map.cpp`: the value returned and the
array `out` afterwards.  The array `arr` is `none` for `nullptr`, and is given by
the results of `asNumber()` on its entries otherwise (`none` for `nullptr`, a
number by its value as a `float`); the outer `none` in the result is an access
beyond the end of `arr`. -/
def getThreeFloatsLoop {F : Type} (arr : List (Option F)) :
    List (Fin 3) → (Fin 3 → F) → Option (Bool × (Fin 3 → F))
  | [], out => some (false, out)
  | i :: rest, out =>
    match arr[i.val]? with
    | none => none
    | some none => some (false, out)
    | some (some num) => getThreeFloatsLoop arr rest (Function.update out i num)

/-- The helper `getThreeFloats (arr, out)` of `map.cpp`, see `getThreeFloatsLoop`. -/
def getThreeFloats {F : Type} (arr : Option (List (Option F))) (out : Fin 3 → F) :
    Option (Bool × (Fin 3 → F)) :=
  match arr with
  | none => some (true, out)
  | some l =>
    if l.length ≠ 3 then some (true, out)
    else getThreeFloatsLoop l (List.finRange 3) out

/-- The results of the accessor calls of `Map::load` on the root object of
"map.json".  For `fieldAsString`, `fieldAsNumber`, `fieldAsInteger` and
`fieldAsArray` the value `none` is `nullptr`; a number is given by its value as a
`float`, an integer by `intVal()`, an array by the results of `asNumber()` (for
"grid": of `asString()`) on its entries.  For `(*root)[...]` the value `none` is
`nullptr`, and `some none` is a value on which `asNumber()`, `asBool()` or
`asString()` returns `nullptr`. -/
structure MapObject (F : Type) where
  name : Option String
  hScale : Option F
  vScale : Option F
  baseElev : Option (Option F)
  minElev : Option F
  maxElev : Option F
  minSky : Option F
  maxSky : Option F
  width : Option Int
  height : Option Int
  cellSize : Option Int
  colorMap : Option (Option Bool)
  normalMap : Option (Option Bool)
  waterMap : Option (Option Bool)
  sunDir : Option (List (Option F))
  sunIntensity : Option (List (Option F))
  ambient : Option (List (Option F))
  hasFogColor : Bool
  fogColor : Option (List (Option F))
  fogDensity : Option F
  assetsDir : Option (Option String)
  grid : Option (List (Option String))

/-- Information about a heightfield map (`class Map`), without the application
pointer and the graphical assets.  An entry of `_grid` is `none` while the pointer
is not initialised; a cell is kept with its `_stem`. -/
structure Map (F : Type) where
  _path : String
  _name : String
  _hScale : F
  _vScale : F
  _baseElev : F
  _minElev : F
  _maxElev : F
  _minSky : F
  _maxSky : F
  _width : Nat
  _height : Nat
  _cellSize : Nat
  _nRows : Nat
  _nCols : Nat
  _grid : Option (List (Option (String × Cell)))
  _hasColor : Bool
  _hasNormals : Bool
  _hasWater : Bool
  _sunDir : Vec3 F
  _sunI : Vec3 F
  _ambI : Vec3 F
  _hasFog : Bool
  _fogColor : Vec3 F
  _fogDensity : F
  _assetsDir : String

/-- The constructor `Map::Map`: `_grid` is `nullptr` and the strings are empty,
the other fields are not initialised and keep the values of `uninit`. -/
def Map.construct {F : Type} (uninit : Map F) : Map F :=
  { uninit with _path := "", _name := "", _assetsDir := "", _grid := none }

/-- The minimum cell width. -/
def Map.kMinCellSize : Nat := 1 <<< 8

/-- The maximum cell width. -/
def Map.kMaxCellSize : Nat := 1 <<< 14

namespace Map

variable {F : Type}

/-- The number of rows in the grid of cells. -/
def nRows (m : Map F) : Nat := m._nRows

/-- The number of columns in the grid of cells. -/
def nCols (m : Map F) : Nat := m._nCols

/-- The width of a cell in hScale units. -/
def cellWidth (m : Map F) : Nat := m._cellSize

/-- The map width in hScale units. -/
def width (m : Map F) : Nat := m._width

/-- The map height in hScale units. -/
def height (m : Map F) : Nat := m._height

/-- The map horizontal scale. -/
def hScale (m : Map F) : F := m._hScale

/-- The map vertical scale. -/
def vScale (m : Map F) : F := m._vScale

/-- The number of cells in the map, a `uint32_t` product. -/
def _nCells (m : Map F) : Nat := u32 (m._nRows * m._nCols)

/-- The index of the cell at the given row and column, in `uint32_t` arithmetic. -/
def _cellIdx (m : Map F) (row col : Nat) : Nat := u32 (u32 (m._nCols * row) + col)

end Map

/-- How a part of the body of `Map::load` ends: the function goes on with the
map in the given state, or it returns a value, or the program does not go on (it
exits, or its behaviour is not defined). -/
inductive Step (F : Type) where
  | next : Map F → Step F
  | ret : Bool → Map F → Step F
  | stop : Step F

/-- The sequence of two parts of a function body. -/
def Step.andThen {F : Type} (r : Step F) (f : Map F → Step F) : Step F :=
  match r with
  | Step.next m => f m
  | Step.ret b m => Step.ret b m
  | Step.stop => Step.stop

/-- What the caller of the function sees: the value returned and the map
afterwards, `none` where the program does not go on. -/
def Step.result {F : Type} : Step F → Option (Bool × Map F)
  | Step.next m => some (true, m)
  | Step.ret b m => some (b, m)
  | Step.stop => none

/-- The array of three `float` values as a vector. -/
def vec3Of {F : Type} (a : Fin 3 → F) : Vec3 F := ⟨a 0, a 1, a 2⟩

namespace Map

variable {F : Type} [LinearOrderedField F]

/-- The part of `Map::load` that gets a mandatory number field. -/
def getNumber (num : Option F) (m : Map F) (set : Map F → F → Map F) : Step F :=
  match num with
  | none => Step.ret false m
  | some v => Step.next (set m v)

/-- The part of `Map::load` from "get map name" to "get top of skybox". -/
def loadScales (root : MapObject F) (m : Map F) : Step F :=
  (match root.name with
   | none => Step.ret false m
   | some name => Step.next { m with _name := name }).andThen fun m =>
  (getNumber root.hScale m fun m v => { m with _hScale := v }).andThen fun m =>
  (getNumber root.vScale m fun m v => { m with _vScale := v }).andThen fun m =>
  (match root.baseElev with
   | some none => Step.ret false m
   | some (some v) => Step.next { m with _baseElev := v }
   | none => Step.next { m with _baseElev := 0 }).andThen fun m =>
  (getNumber root.minElev m fun m v => { m with _minElev := v }).andThen fun m =>
  (getNumber root.maxElev m fun m v => { m with _maxElev := v }).andThen fun m =>
  (getNumber root.minSky m fun m v => { m with _minSky := v }).andThen fun m =>
  getNumber root.maxSky m fun m v => { m with _maxSky := v }

/-- The part of `Map::load` from "get map width" to "get cell size"; the value of
`intVal()` is converted by `static_cast<uint32_t>`. -/
def loadSizes (root : MapObject F) (m : Map F) : Step F :=
  (match root.width with
   | none => Step.ret false m
   | some v => if v < 1 then Step.ret false m
               else Step.next { m with _width := ofInt32 v }).andThen fun m =>
  (match root.height with
   | none => Step.ret false m
   | some v => if v < 1 then Step.ret false m
               else Step.next { m with _height := ofInt32 v }).andThen fun m =>
  match root.cellSize with
  | none => Step.ret false m
  | some v =>
    if v < (Map.kMinCellSize : Int) ∨ (Map.kMaxCellSize : Int) < v then Step.ret false m
    else Step.next { m with _cellSize := ofInt32 v }

/-- The part of `Map::load` that gets an optional flag. -/
def getFlag (v : Option (Option Bool)) (m : Map F) (set : Map F → Bool → Map F) : Step F :=
  match v with
  | some none => Step.ret false m
  | some (some b) => Step.next (set m b)
  | none => Step.next (set m false)

/-- The part "check properties" of `Map::load`. -/
def loadProperties (root : MapObject F) (m : Map F) : Step F :=
  (getFlag root.colorMap m fun m b => { m with _hasColor := b }).andThen fun m =>
  (getFlag root.normalMap m fun m b => { m with _hasNormals := b }).andThen fun m =>
  getFlag root.waterMap m fun m b => { m with _hasWater := b }

/-- The part "lighting info (optional)" of `Map::load`; `normalize` is the function
of that name of the GLM library. -/
def loadLighting (normalize : Vec3 F → Vec3 F) (root : MapObject F) (m : Map F) : Step F :=
  match getThreeFloats root.sunDir (fun i => if i = 1 then 1 else 0) with
  | none => Step.stop
  | some (true, _) => Step.ret false m
  | some (false, sunDir) =>
    match getThreeFloats root.sunIntensity (fun _ => 9 / 10) with
    | none => Step.stop
    | some (true, _) => Step.ret false m
    | some (false, sunI) =>
      match getThreeFloats root.ambient (fun _ => 1 / 10) with
      | none => Step.stop
      | some (true, _) => Step.ret false m
      | some (false, ambI) =>
        Step.next { m with _sunDir := normalize (vec3Of sunDir), _sunI := vec3Of sunI,
                           _ambI := vec3Of ambI }

/-- The part "fog (optional)" of `Map::load`; the array `fogColor` of the source
is not initialised and holds the values `junk`. -/
def loadFog (junk : Fin 3 → F) (root : MapObject F) (m : Map F) : Step F :=
  if root.hasFogColor then
    match getThreeFloats root.fogColor junk with
    | none => Step.stop
    | some (true, _) => Step.ret false { m with _hasFog := true }
    | some (false, fogColor) =>
      match root.fogDensity with
      | none => Step.ret false { m with _hasFog := true, _fogColor := vec3Of fogColor }
      | some v =>
        Step.next { m with _hasFog := true, _fogColor := vec3Of fogColor, _fogDensity := v }
  else Step.next { m with _hasFog := false, _fogColor := ⟨0, 0, 0⟩, _fogDensity := 0 }

/-- The part "get assets-dir (optional)" of `Map::load`; the test that the
directory exists only prints a message. -/
def loadAssets (root : MapObject F) (m : Map F) : Step F :=
  match root.assetsDir with
  | some none => Step.ret false m
  | some (some assets) => Step.next { m with _assetsDir := m._path ++ assets }
  | none => Step.next { m with _assetsDir := "" }

/-- The part "compute and check other map info" of `Map::load`; the loop of
`ilog2` is given 64 turns. -/
def checkInfo (m : Map F) : Step F :=
  match ilog2 64 m._cellSize with
  | none => Step.stop
  | some cellShft =>
    if cellShft < 0 ∨ m._cellSize < Map.kMinCellSize ∨ Map.kMaxCellSize < m._cellSize then
      Step.ret false m
    else
      let m1 := { m with _nRows := m._height >>> cellShft.toNat,
                         _nCols := m._width >>> cellShft.toNat }
      if shl32 m1._nRows cellShft.toNat ≠ m1._height then Step.ret false m1
      else if shl32 m1._nCols cellShft.toNat ≠ m1._width then Step.ret false m1
      else Step.next m1

/-- The loop of `Map::load` that creates the cells, for the rows and columns that
remain: `_grid[i] = new Cell(this, r, c, _path + s->value())`; `none` is a call
through `nullptr` or an access beyond the end of an array. -/
def makeCells (m : Map F) (grid : List (Option String)) :
    List (Nat × Nat) → List (Option (String × Cell)) → Option (List (Option (String × Cell)))
  | [], cells => some cells
  | (r, c) :: rest, cells =>
    match grid[m._cellIdx r c]? with
    | some (some s) =>
      if m._cellIdx r c < cells.length then
        makeCells m grid rest (cells.set (m._cellIdx r c) (some (m._path ++ s, Cell.construct r c)))
      else none
    | _ => none

/-- The method `Map::cell`: the index in `_grid` of the cell at grid cell
`(row, col)`, `none` for `nullptr`. -/
def cell (m : Map F) (row col : Nat) : Option Nat :=
  if row < m._nRows ∧ col < m._nCols then some (m._cellIdx row col) else none

/-- The loop of `Map::load` that loads the cells, for the rows and columns that
remain: `this->cell(r, c)->load()`.  The content of the file named `p` is
`files p`. -/
def loadCells (uninit : Nat → Tile) (junk : Nat → Nat) (files : String → Option (List Nat))
    (m : Map F) :
    List (Nat × Nat) → List (Option (String × Cell)) → Option (List (Option (String × Cell)))
  | [], cells => some cells
  | (r, c) :: rest, cells =>
    match m.cell r c with
    | none => none
    | some i =>
      match cells[i]? with
      | some (some (stem, cl)) =>
        match Cell.load m._cellSize uninit junk (files (stem ++ "/hf.cell")) cl with
        | none => none
        | some cl1 => loadCells uninit junk files m rest (cells.set i (some (stem, cl1)))
      | _ => none

/-- The pairs `(r, c)` in the order of the two nested loops over the rows and the
columns. -/
def gridOrder (nRows nCols : Nat) : List (Nat × Nat) :=
  (List.range nRows).flatMap fun r => (List.range nCols).map fun c => (r, c)

/-- The part of `Map::load` from "get array of grid filenames" to the end.  The
test `num == nullptr` of the source is on a pointer that is not null here. -/
def loadGrid (uninit : Nat → Tile) (junk : Nat → Nat) (files : String → Option (List Nat))
    (root : MapObject F) (m : Map F) : Step F :=
  match root.grid with
  | none => Step.stop
  | some grid =>
    if grid.length ≠ m._nCells then Step.ret false m
    else
      match makeCells m grid (gridOrder m._nRows m._nCols)
          (List.replicate m._nCells none) with
      | none => Step.stop
      | some cells =>
        match loadCells uninit junk files { m with _grid := some cells }
            (gridOrder m._nRows m._nCols) cells with
        | none => Step.stop
        | some cells1 => Step.ret true { m with _grid := some cells1 }

/-- The method `Map::load`: the value returned and the map afterwards, `none`
where the program exits or its behaviour is not defined.  The argument `root` is
the root object of "map.json", `none` when the file does not hold an object. -/
def load (normalize : Vec3 F → Vec3 F) (junkF : Fin 3 → F) (uninit : Nat → Tile)
    (junk : Nat → Nat) (files : String → Option (List Nat))
    (root : Option (MapObject F)) (mapName : String) (m : Map F) : Option (Bool × Map F) :=
  if m._grid.isSome then some (false, m)
  else
    match root with
    | none => some (false, { m with _path := mapName ++ "/" })
    | some root =>
      (((((((((Step.next { m with _path := mapName ++ "/" }).andThen
        (loadScales root)).andThen
        (loadSizes root)).andThen
        (loadProperties root)).andThen
        (loadLighting normalize root)).andThen
        (loadFog junkF root)).andThen
        (loadAssets root)).andThen
        checkInfo).andThen
        (loadGrid uninit junk files root)).result

end Map

/-- What `getThreeFloats` answers, with the array `out` as a list. -/
def threeFloatsAnswer (arr : Option (List (Option Int))) (out : Fin 3 → Int) :
    Option (Bool × List Int) :=
  (getThreeFloats arr out).map fun r => (r.1, List.ofFn r.2)

/-- What holds of the result of a part of `Map::load` that neither stops the
program nor returns `true`: the state in which the function goes on has the
property `P`. -/
def Step.Post {F : Type} (P : Map F → Prop) : Step F → Prop
  | Step.next m => P m
  | Step.ret b _ => b = false
  | Step.stop => False

/-- The sizes of the map are those of the root object: the fields "width",
"height" and "cell-size" hold integers `w`, `h` and `cs` in the ranges that
`Map::load` admits, and the map holds them as 32-bit numbers. -/
def Map.Sizes {F : Type} (root : MapObject F) (m : Map F) : Prop :=
  ∃ w h cs : Int, root.width = some w ∧ root.height = some h ∧ root.cellSize = some cs ∧
    1 ≤ w ∧ 1 ≤ h ∧ 256 ≤ cs ∧ cs ≤ 16384 ∧
    m._width = ofInt32 w ∧ m._height = ofInt32 h ∧ m._cellSize = ofInt32 cs

/-- The sizes of the map have passed the checks of `Map::load`: the cell size is
a power of two from 2^8 to 2^14, and the width and the height are the numbers of
columns and of rows times the cell size. -/
def Map.Checked {F : Type} (root : MapObject F) (m : Map F) : Prop :=
  Map.Sizes root m ∧ ∃ k : Nat, 8 ≤ k ∧ k ≤ 14 ∧ m._cellSize = 2 ^ k ∧
    m._height = m._nRows * 2 ^ k ∧ m._width = m._nCols * 2 ^ k

/-- A root object with the mandatory fields, a width of 2^32, a height of 256,
cells of size 256 and an empty grid. -/
def wideRoot : MapObject ℚ :=
  { name := some "wide", hScale := some 1, vScale := some 1, baseElev := none,
    minElev := some 0, maxElev := some 1, minSky := some 0, maxSky := some 1,
    width := some 4294967296, height := some 256, cellSize := some 256,
    colorMap := none, normalMap := none, waterMap := none,
    sunDir := some [some 0, some 1, some 0], sunIntensity := some [some 1, some 1, some 1],
    ambient := some [some 0, some 0, some 0],
    hasFogColor := false, fogColor := none, fogDensity := none,
    assetsDir := none, grid := some [] }

/-- A map whose fields are all zero. -/
def zeroMap : Map ℚ :=
  { _path := "", _name := "", _hScale := 0, _vScale := 0, _baseElev := 0, _minElev := 0,
    _maxElev := 0, _minSky := 0, _maxSky := 0, _width := 0, _height := 0, _cellSize := 0,
    _nRows := 0, _nCols := 0, _grid := none, _hasColor := false, _hasNormals := false,
    _hasWater := false, _sunDir := ⟨0, 0, 0⟩, _sunI := ⟨0, 0, 0⟩, _ambI := ⟨0, 0, 0⟩,
    _hasFog := false, _fogColor := ⟨0, 0, 0⟩, _fogDensity := 0, _assetsDir := "" }

/-- The value that `Map::load` returns and the numbers of rows and columns, the
width and the height of the map afterwards. -/
def loadSummary (r : Option (Bool × Map ℚ)) : Option (Bool × Nat × Nat × Nat × Nat) :=
  r.map fun p => (p.1, p.2.nRows, p.2.nCols, p.2.width, p.2.height)

/-- The conversion `static_cast<uint32_t>` of a `double`: the value is truncated
toward zero; `none` where the truncated value is not in the range of `uint32_t`
(the behaviour is then not defined). -/
def castU32 {F : Type} [LinearOrderedField F] [FloorRing F] (v : F) : Option Nat :=
  if 0 ≤ (if 0 ≤ v then ⌊v⌋ else ⌈v⌉) ∧ (if 0 ≤ v then ⌊v⌋ else ⌈v⌉) < 4294967296 then
    some (if 0 ≤ v then ⌊v⌋ else ⌈v⌉).toNat
  else none

namespace Map

variable {F : Type} [LinearOrderedField F]

/-- The method `Map::cellAt`: the index in `_grid` of the cell that is returned,
`some none` for `nullptr`; `none` where the behaviour is not defined (a division by
zero, or a quotient that is not in the range of `uint32_t`). -/
def cellAt [FloorRing F] (m : Map F) (x z : F) : Option (Option Nat) :=
  if x < 0 ∨ z < 0 then some none
  else if m._hScale = 0 then none
  else
    match castU32 (z / m._hScale), castU32 (x / m._hScale) with
    | some row, some col => some (m.cell row col)
    | _, _ => none

/-- The method `Map::nwCellCorner`; `none` is a failed assertion. -/
def nwCellCorner (m : Map F) (row col : Nat) : Option (Vec3 F) :=
  if row < m._nRows ∧ col < m._nCols then
    some ⟨m._hScale * (m._cellSize : F) * (col : F), 0, m._hScale * (m._cellSize : F) * (row : F)⟩
  else none

/-- The method `Map::cellSize`. -/
def cellSize (m : Map F) : Vec3 F :=
  ⟨m._hScale * (m._cellSize : F), 0, m._hScale * (m._cellSize : F)⟩

/-- The north side of the map. -/
def north (_m : Map F) : F := 0

/-- The east side of the map. -/
def east (m : Map F) : F := m._hScale * (m._width : F)

/-- The south side of the map. -/
def south (m : Map F) : F := m._hScale * (m._height : F)

/-- The west side of the map. -/
def west (_m : Map F) : F := 0

end Map

/-- A root object for a map of one row and two columns of cells of size 256, with
a horizontal scale of 1. -/
def twoCellRoot : MapObject ℚ :=
  { name := some "two", hScale := some 1, vScale := some 1, baseElev := none,
    minElev := some 0, maxElev := some 1, minSky := some 0, maxSky := some 1,
    width := some 512, height := some 256, cellSize := some 256,
    colorMap := none, normalMap := none, waterMap := none,
    sunDir := some [some 0, some 1, some 0], sunIntensity := some [some 1, some 1, some 1],
    ambient := some [some 0, some 0, some 0],
    hasFogColor := false, fogColor := none, fogDensity := none,
    assetsDir := none, grid := some [some "c0", some "c1"] }

/-- The map that `Map::load` builds from `twoCellRoot` when the two cell files
hold `sampleCellFile`. -/
def twoCellMap : Map ℚ :=
  { _path := "two/", _name := "two", _hScale := 1, _vScale := 1, _baseElev := 0,
    _minElev := 0, _maxElev := 1, _minSky := 0, _maxSky := 1, _width := 512, _height := 256,
    _cellSize := 256, _nRows := 1, _nCols := 2,
    _grid := some [some ("two/c0", sampleCell), some ("two/c1", { sampleCell with _col := 1 })],
    _hasColor := false, _hasNormals := false, _hasWater := false,
    _sunDir := ⟨0, 1, 0⟩, _sunI := ⟨1, 1, 1⟩, _ambI := ⟨0, 0, 0⟩,
    _hasFog := false, _fogColor := ⟨0, 0, 0⟩, _fogDensity := 0, _assetsDir := "" }

/-- The value that `Map::load` returns, with the sizes and the grid of the map
afterwards. -/
structure MapSummary where
  value : Bool
  nRows : Nat
  nCols : Nat
  width : Nat
  height : Nat
  cellSize : Nat
  grid : Option (List (Option (String × Cell)))
  deriving DecidableEq

/-- The summary of a result of `Map::load`. -/
def mapSummary (r : Option (Bool × Map ℚ)) : Option MapSummary :=
  r.map fun p =>
    ⟨p.1, p.2._nRows, p.2._nCols, p.2._width, p.2._height, p.2._cellSize, p.2._grid⟩



/-! ## Axis-aligned bounding boxes -/

/-- Modelled from the spec: the class `cs237::AABBd_t` of axis-aligned bounding
boxes is not among the sources.  A box is given by its two corners with the
smallest and the largest coordinates. -/
structure AABB (F : Type) where
  _min : Vec3 F
  _max : Vec3 F

/-- Modelled from the spec: the corner `corner(i)` of the box, for `i` from 0 to 7;
the three bits of `i` choose between the smallest and the largest value of the three
coordinates. -/
def AABB.corner {F : Type} (b : AABB F) (i : Fin 8) : Vec3 F :=
  ⟨if i.val % 2 = 0 then b._min.x else b._max.x,
   if (i.val / 2) % 2 = 0 then b._min.y else b._max.y,
   if (i.val / 4) % 2 = 0 then b._min.z else b._max.z⟩

/-- The point `p` lies in the box. -/
def AABB.contains {F : Type} [LinearOrderedRing F] (b : AABB F) (p : Vec3 F) : Prop :=
  b._min.x ≤ p.x ∧ p.x ≤ b._max.x ∧ b._min.y ≤ p.y ∧ p.y ≤ b._max.y ∧
  b._min.z ≤ p.z ∧ p.z ≤ b._max.z

/-- The point `p` lies inside the six half-spaces of the frustum. -/
def Frustum.inside {F : Type} [LinearOrderedRing F] (f : Frustum F) (p : Vec3 F) : Prop :=
  ∀ i : Fin 6, 0 ≤ (f._sides i).distanceToPt p

/-- The box from (-1, -1, -6) to (1, 1, -4), in front of the near plane of
`sampleFrustum`. -/
def sampleBox : AABB ℤ := ⟨⟨-1, -1, -6⟩, ⟨1, 1, -4⟩⟩

/-- The box from (-1, -1, -1) to (1, 1, 1), inside `sampleFrustum`. -/
def innerBox : AABB ℤ := ⟨⟨-1, -1, -1⟩, ⟨1, 1, 1⟩⟩

/-! ## `map-cell.cpp`: the calls of `Tile::_init` -/

/-- One turn of the loop over the four children in `Tile::_init`, with the record
of the calls (see `Tile._initLog`). -/
def Tile.initKidLog
    (init : Cell × List Nat → Nat → Nat → Nat → Nat → Nat → Option (Cell × List Nat))
    (self : Nat) (kidId : Int) (row col lod : Nat) (cur : Cell × List Nat) (i : Int)
    (dr dc : Nat) : Option (Cell × List Nat) :=
  match cur.1.getTile self with
  | none => none
  | some t =>
    match Tile.child cur.1 t i with
    | some (some k) =>
      init cur k (ofInt32 (kidId + i)) (u32 (row + dr)) (u32 (col + dc)) (u32 (lod + 1))
    | _ => none

/-- The method `Tile::_init` together with a record of its calls: the state is the
cell and the list of the indices of the tiles on which `_init` has run so far, in
the order of the calls; each call adds the index of its tile to the list when it
has set the fields of the tile. -/
def Tile._initLog (mapCellSize : Nat) :
    Nat → Cell × List Nat → Nat → Nat → Nat → Nat → Nat → Option (Cell × List Nat)
  | 0, _, _, _, _, _, _ => none
  | fuel + 1, st, self, id, row, col, lod =>
    match st.1.setTile self (fun t =>
        { t with _id := id, _row := row, _col := col, _lod := toInt32 lod }) with
    | none => none
    | some c1 =>
      if u32 (lod + 1) < ofInt32 c1.depth then
        let halfWid := ofInt32 (Cell.width mapCellSize >>> u32 (lod + 1))
        let kidId := toInt32 (qtree.nwChild id)
        (Tile.initKidLog (Tile._initLog mapCellSize fuel) self kidId row col lod
          (c1, st.2 ++ [self]) 0 0 0).bind fun s2 =>
        (Tile.initKidLog (Tile._initLog mapCellSize fuel) self kidId row col lod s2 1 0
          halfWid).bind fun s3 =>
        (Tile.initKidLog (Tile._initLog mapCellSize fuel) self kidId row col lod s3 2 halfWid
          halfWid).bind fun s4 =>
        Tile.initKidLog (Tile._initLog mapCellSize fuel) self kidId row col lod s4 3 halfWid 0
      else some (c1, st.2 ++ [self])

/-- A cell of depth 2 whose five tiles have been constructed and not yet
initialised. -/
def rawCell : Cell :=
  { _row := 0, _col := 0, _nLODs := 2, _nTiles := 5,
    _tiles := some (List.replicate 5 (Tile.construct zeroTile)) }

/-! ## `map-cell.hpp`: the square of a tile -/

/-- The row of the NW vertex of the tile in its cell. -/
def Tile.nwRow (t : Tile) : Nat := t._row

/-- The column of the NW vertex of the tile in its cell. -/
def Tile.nwCol (t : Tile) : Nat := t._col

/-- The width of the tile in hScale units: `_cell->width() >> _lod`, an `int` that
is returned as a `uint32_t`. -/
def Tile.width (mapCellSize : Nat) (t : Tile) : Nat :=
  ofInt32 (Cell.width mapCellSize >>> t._lod.toNat)

/-- The clockwise ordering of the quadtree quadrants: north-west. -/
def qtree.NW : Int := 0

/-- The clockwise ordering of the quadtree quadrants: north-east. -/
def qtree.NE : Int := 1

/-- The clockwise ordering of the quadtree quadrants: south-east. -/
def qtree.SE : Int := 2

/-- The clockwise ordering of the quadtree quadrants: south-west. -/
def qtree.SW : Int := 3

/-- The unit square with the NW vertex `(r, q)` lies in the square of the tile. -/
def Tile.covers (mapCellSize : Nat) (t : Tile) (r q : Nat) : Prop :=
  t.nwRow ≤ r ∧ r < t.nwRow + t.width mapCellSize ∧
  t.nwCol ≤ q ∧ q < t.nwCol + t.width mapCellSize

/-- The row of the NW vertex that the node `k` of the level `L` is to have in a
cell of width `W`: the row of its parent, and half the width of the parent more
for the two southern quadrants. -/
def nwRowOf (W : Nat) : Nat → Nat → Nat
  | 0, _ => 0
  | L + 1, k =>
    nwRowOf W L ((k - 1) / 4) + (if (k - 1) % 4 = 2 ∨ (k - 1) % 4 = 3 then W >>> (L + 1) else 0)

/-- The column of the NW vertex that the node `k` of the level `L` is to have in a
cell of width `W`: the column of its parent, and half the width of the parent more
for the two eastern quadrants. -/
def nwColOf (W : Nat) : Nat → Nat → Nat
  | 0, _ => 0
  | L + 1, k =>
    nwColOf W L ((k - 1) / 4) + (if (k - 1) % 4 = 1 ∨ (k - 1) % 4 = 2 then W >>> (L + 1) else 0)

/-- The tile `t` is initialised as the tile at index `k`, with its NW vertex in
place. -/
def GeoTile (W d : Nat) (t : Tile) (k : Nat) : Prop :=
  t._id = k ∧ ∃ L : Nat, t._lod = (L : Int) ∧ L < d ∧ fullSize L ≤ k ∧ k < fullSize (L + 1) ∧
    t._row = nwRowOf W L k ∧ t._col = nwColOf W L k

/-- The tile at index `k` of the cell is initialised, with its NW vertex in
place. -/
def GeoAt (W d : Nat) (c : Cell) (k : Nat) : Prop :=
  ∃ t : Tile, c.getTile k = some t ∧ GeoTile W d t k

/-! ## `map-cell.cpp`: the bounding box of a tile -/

/-- A call on the texture cache: `make`, `activate` on a handle, or `release` on a
handle. -/
inductive CacheOp where
  | make (tree : Nat) (level row col : Int) : CacheOp
  | activate (h : Nat) : CacheOp
  | release (h : Nat) : CacheOp
  deriving DecidableEq, Repr

/-- The cache after the call; `none` is a call that does not come back. -/
def CacheOp.run (env : LoadEnv) (c : TextureCache) : CacheOp → Option TextureCache
  | CacheOp.make tree level row col => some (c.make tree level row col).2
  | CacheOp.activate h => TileTexture.activate env c h
  | CacheOp.release h => TileTexture.release c h

/-- The cache after a sequence of calls; `none` when a call does not come back. -/
def runOps (env : LoadEnv) : List CacheOp → TextureCache → Option TextureCache
  | [], c => some c
  | op :: ops, c => (op.run env c).bind (runOps env ops)

/-- Is `activate` called on the handle `h` in the sequence of calls? -/
def wasActivated (ops : List CacheOp) (h : Nat) : Bool :=
  ops.any fun op => decide (op = CacheOp.activate h)

/-- The state of the cache after the calls `ops` is consistent, and the handles
that hold a texture are those on which `activate` has been called. -/
def CacheInv (ops : List CacheOp) (c : TextureCache) : Prop :=
  WF c ∧ ∀ h, wasActivated ops h = true ↔ c.isLoaded h = true

/-- Two handles are made and activated, and the first is released. -/
def indexOps : List CacheOp :=
  [CacheOp.make 7 1 0 0, CacheOp.make 7 1 0 1, CacheOp.activate 0, CacheOp.activate 1,
   CacheOp.release 0]

/-- The cache after the calls `indexOps` on a new cache. -/
def indexScenario : TextureCache :=
  { heap := [{ _txt := some ⟨7, 1, 0, 0, true⟩, _sampler := true, _tree := 7, _level := 1,
               _row := 0, _col := 0, _lastUsed := 0, _activeIdx := 0, _active := false,
               _mipmaps := true },
             { _txt := some ⟨7, 1, 0, 1, true⟩, _sampler := true, _tree := 7, _level := 1,
               _row := 0, _col := 1, _lastUsed := 0, _activeIdx := 0, _active := true,
               _mipmaps := true }],
    _numActive := 0, _clock := 0,
    _textureTbl := [(⟨7, 1, 0, 1⟩, 1), (⟨7, 1, 0, 0⟩, 0)],
    _active := [1], _inactive := [0] }

/-! ## Index arithmetic: auxiliary facts -/

theorem fullSize_closed (d : Nat) (hd : d ≤ 15) : fullSize d = (4 ^ d - 1) / 3 := by
  interval_cases d <;> decide

theorem fullSize_succ (l : Nat) (hl : l < 15) :
    fullSize (l + 1) = fullSize l + 2 ^ l * 2 ^ l := by
  interval_cases l <;> decide

theorem fullSize_lt_u32 (d : Nat) (hd : d ≤ 15) : fullSize d < 4294967296 := by
  interval_cases d <;> decide

theorem shl32_one (l : Nat) (hl : l < 32) : shl32 1 l = 2 ^ l := by
  interval_cases l <;> decide

/-- Every level lies wholly below the later ones. -/
theorem fullSize_level_le (l m : Nat) (h : l < m) (hm : m ≤ 15) :
    fullSize l + 2 ^ l * 2 ^ l ≤ fullSize m := by
  induction m with
  | zero => omega
  | succ n ih =>
    rcases Nat.lt_or_ge l n with hln | hln
    · have h1 := ih hln (by omega)
      have h2 := fullSize_succ n (by omega)
      omega
    · have hl : l = n := by omega
      subst hl
      have h2 := fullSize_succ l (by omega)
      omega

theorem fullSize_mono (l m : Nat) (h : l ≤ m) (hm : m ≤ 15) : fullSize l ≤ fullSize m := by
  rcases Nat.lt_or_ge l m with hlt | hge
  · have := fullSize_level_le l m hlt hm
    omega
  · have : l = m := by omega
    subst this
    exact Nat.le_refl _

/-- The position of a node on its level is below the size of the level. -/
theorem pos_lt_level (l row col : Nat) (hr : row < 2 ^ l) (hc : col < 2 ^ l) :
    row * 2 ^ l + col < 2 ^ l * 2 ^ l := by
  have h1 : (row + 1) * 2 ^ l ≤ 2 ^ l * 2 ^ l := Nat.mul_le_mul_right _ hr
  have h2 : (row + 1) * 2 ^ l = row * 2 ^ l + 2 ^ l := by ring
  omega

/-- On a valid node of a tree of depth at most 15 the assertions of `nodeIndex`
hold and the 32-bit sum does not wrap. -/
theorem nodeIndex_eq (l row col : Nat) (hl : l < 15) (hr : row < 2 ^ l) (hc : col < 2 ^ l) :
    nodeIndex l row col = some (fullSize l + row * 2 ^ l + col) := by
  have hs : shl32 1 l = 2 ^ l := shl32_one l (by omega)
  have hp := pos_lt_level l row col hr hc
  have hf := fullSize_level_le l 15 hl (Nat.le_refl _)
  have h15 := fullSize_lt_u32 15 (Nat.le_refl _)
  have hrow : shl32 row l = row * 2 ^ l := by
    unfold shl32 u32
    rw [Nat.shiftLeft_eq]
    apply Nat.mod_eq_of_lt
    omega
  unfold nodeIndex
  rw [hs, if_pos hc, if_pos hr, hrow]
  unfold u32
  rw [Nat.mod_eq_of_lt (by omega)]

/-! ## Index arithmetic: the properties -/

/-- C1: for a tree of depth `d` with `1 ≤ d ≤ 15`, `nodeIndex` sends the root to
index 0, computes `fullSize(level) + row * 2^level + col` on every node
`(level, row, col)` of the tree (`level < d`, `row, col < 2^level`), and is a
bijection from these nodes onto the interval `[0, fullSize(d))`: every value lies
in the interval, distinct nodes have distinct indices, and every index of the
interval is the index of a node. -/
theorem nodeIndex_bijection (d : Nat) (hd1 : 1 ≤ d) (hd : d ≤ 15) :
    nodeIndex 0 0 0 = some 0 ∧
    (∀ level row col, level < d → row < 2 ^ level → col < 2 ^ level →
      nodeIndex level row col = some (fullSize level + row * 2 ^ level + col) ∧
      fullSize level + row * 2 ^ level + col < fullSize d) ∧
    (∀ l1 r1 c1 l2 r2 c2, l1 < d → r1 < 2 ^ l1 → c1 < 2 ^ l1 →
      l2 < d → r2 < 2 ^ l2 → c2 < 2 ^ l2 →
      nodeIndex l1 r1 c1 = nodeIndex l2 r2 c2 → l1 = l2 ∧ r1 = r2 ∧ c1 = c2) ∧
    (∀ i, i < fullSize d → ∃ level row col, level < d ∧ row < 2 ^ level ∧
      col < 2 ^ level ∧ nodeIndex level row col = some i) := by
  refine ⟨by decide, ?_, ?_, ?_⟩
  · intro l r c hl hr hc
    refine ⟨nodeIndex_eq l r c (by omega) hr hc, ?_⟩
    have hp := pos_lt_level l r c hr hc
    have hf := fullSize_level_le l d hl hd
    omega
  · intro l1 r1 c1 l2 r2 c2 hl1 hr1 hc1 hl2 hr2 hc2 h
    rw [nodeIndex_eq l1 r1 c1 (by omega) hr1 hc1,
      nodeIndex_eq l2 r2 c2 (by omega) hr2 hc2] at h
    have h := Option.some.inj h
    have hp1 := pos_lt_level l1 r1 c1 hr1 hc1
    have hp2 := pos_lt_level l2 r2 c2 hr2 hc2
    have hl : l1 = l2 := by
      rcases Nat.lt_trichotomy l1 l2 with hlt | heq | hgt
      · have := fullSize_level_le l1 l2 hlt (by omega)
        omega
      · exact heq
      · have := fullSize_level_le l2 l1 hgt (by omega)
        omega
    subst hl
    have hpos : 0 < 2 ^ l1 := Nat.two_pow_pos l1
    have e : r1 * 2 ^ l1 + c1 = r2 * 2 ^ l1 + c2 := by omega
    have hq1 : (r1 * 2 ^ l1 + c1) / 2 ^ l1 = r1 := by
      rw [Nat.add_comm, Nat.add_mul_div_right _ _ hpos, Nat.div_eq_of_lt hc1, Nat.zero_add]
    have hq2 : (r2 * 2 ^ l1 + c2) / 2 ^ l1 = r2 := by
      rw [Nat.add_comm, Nat.add_mul_div_right _ _ hpos, Nat.div_eq_of_lt hc2, Nat.zero_add]
    have hr : r1 = r2 := by rw [← hq1, ← hq2, e]
    subst hr
    exact ⟨rfl, rfl, by omega⟩
  · clear hd1
    induction d with
    | zero =>
      intro i hi
      have : fullSize 0 = 0 := by decide
      omega
    | succ n ih =>
      intro i hi
      rcases Nat.lt_or_ge i (fullSize n) with hlt | hge
      · obtain ⟨l, r, c, hl, hr, hc, e⟩ := ih (by omega) i hlt
        exact ⟨l, r, c, by omega, hr, hc, e⟩
      · have hs := fullSize_succ n (by omega)
        have hpos : 0 < 2 ^ n := Nat.two_pow_pos n
        have hj : i - fullSize n < 2 ^ n * 2 ^ n := by omega
        refine ⟨n, (i - fullSize n) / 2 ^ n, (i - fullSize n) % 2 ^ n, by omega, ?_, ?_, ?_⟩
        · exact Nat.div_lt_of_lt_mul hj
        · exact Nat.mod_lt _ hpos
        · rw [nodeIndex_eq n _ _ (by omega) (Nat.div_lt_of_lt_mul hj) (Nat.mod_lt _ hpos)]
          have := Nat.div_add_mod (i - fullSize n) (2 ^ n)
          have hm : (i - fullSize n) / 2 ^ n * 2 ^ n = 2 ^ n * ((i - fullSize n) / 2 ^ n) :=
            Nat.mul_comm _ _
          congr 1
          omega

/-- C1, at depth 2: the five nodes of the tree have the indices 0 to 4. -/
theorem nodeIndex_bijection_witness :
    nodeIndex 0 0 0 = some 0 ∧
    (∀ level row col, level < 2 → row < 2 ^ level → col < 2 ^ level →
      nodeIndex level row col = some (fullSize level + row * 2 ^ level + col) ∧
      fullSize level + row * 2 ^ level + col < fullSize 2) ∧
    (∀ l1 r1 c1 l2 r2 c2, l1 < 2 → r1 < 2 ^ l1 → c1 < 2 ^ l1 →
      l2 < 2 → r2 < 2 ^ l2 → c2 < 2 ^ l2 →
      nodeIndex l1 r1 c1 = nodeIndex l2 r2 c2 → l1 = l2 ∧ r1 = r2 ∧ c1 = c2) ∧
    (∀ i, i < fullSize 2 → ∃ level row col, level < 2 ∧ row < 2 ^ level ∧
      col < 2 ^ level ∧ nodeIndex level row col = some i) :=
  nodeIndex_bijection 2 (by decide) (by decide)

/-- C2: for every depth from 0 to 15 both copies of the bit trick
`((1 << 2*depth) - 1) & 0x55555555` (the one of `tqt.cpp` and the one of
`qtree-util.hpp`) equal `(4^depth - 1) / 3`, which is the sum of `4^level` over
the levels below `depth`. -/
theorem fullSize_closed_form (depth : Nat) (hd : depth ≤ 15) :
    fullSize depth = (4 ^ depth - 1) / 3 ∧
    qtree.fullSize depth = (4 ^ depth - 1) / 3 ∧
    (4 ^ depth - 1) / 3 = ∑ level in Finset.range depth, 4 ^ level := by
  interval_cases depth <;> exact ⟨by decide, by decide, by decide⟩

/-- C2, at depth 15, the largest supported depth. -/
theorem fullSize_closed_form_witness :
    fullSize 15 = (4 ^ 15 - 1) / 3 ∧
    qtree.fullSize 15 = (4 ^ 15 - 1) / 3 ∧
    (4 ^ 15 - 1) / 3 = ∑ level in Finset.range 15, 4 ^ level :=
  fullSize_closed_form 15 (by decide)

/-- The shift `id << 2` does not lose bits when `4*id + 4` fits in 32 bits. -/
theorem shl32_two (id : Nat) (h : 4 * id + 4 < 4294967296) : shl32 id 2 = 4 * id := by
  unfold shl32 u32
  rw [Nat.shiftLeft_eq]
  omega

/-- C3: for every node id with `4*id + 4 < 2^32` and every `k` in 0..3,
`parent(nwChild(id) + k) = id` and `childIndex(nwChild(id) + k) = k`, and
`nwChild(id) + 1`, `+ 2`, `+ 3` are `neChild(id)`, `seChild(id)`, `swChild(id)`. -/
theorem parent_childIndex_nwChild (id k : Nat) (h : 4 * id + 4 < 2 ^ 32) (hk : k < 4) :
    qtree.parent (qtree.nwChild id + k) = id ∧
    qtree.childIndex (qtree.nwChild id + k) = k ∧
    qtree.nwChild id + 1 = qtree.neChild id ∧
    qtree.nwChild id + 2 = qtree.seChild id ∧
    qtree.nwChild id + 3 = qtree.swChild id := by
  have h2 : 4 * id + 4 < 4294967296 := by norm_num at h; exact h
  have hs := shl32_two id h2
  have hnw : qtree.nwChild id = 4 * id + 1 := by
    unfold qtree.nwChild u32; rw [hs]; exact Nat.mod_eq_of_lt (by omega)
  have hne : qtree.neChild id = 4 * id + 2 := by
    unfold qtree.neChild u32; rw [hs]; exact Nat.mod_eq_of_lt (by omega)
  have hse : qtree.seChild id = 4 * id + 3 := by
    unfold qtree.seChild u32; rw [hs]; exact Nat.mod_eq_of_lt (by omega)
  have hsw : qtree.swChild id = 4 * id + 4 := by
    unfold qtree.swChild u32; rw [hs]; exact Nat.mod_eq_of_lt (by omega)
  have hpos : 4 * id + 1 + k > 0 := by omega
  refine ⟨?_, ?_, by omega, by omega, by omega⟩
  · unfold qtree.parent
    rw [hnw, if_pos hpos, Nat.shiftRight_eq_div_pow]
    omega
  · unfold qtree.childIndex
    rw [hnw, if_pos hpos]
    have : (4 * id + 1 + k - 1) &&& 0x3 = (4 * id + 1 + k - 1) % 2 ^ 2 :=
      Nat.and_pow_two_sub_one_eq_mod _ 2
    rw [this]
    omega

/-- C3, at the root and its SE child. -/
theorem parent_childIndex_nwChild_witness :
    qtree.parent (qtree.nwChild 0 + 2) = 0 ∧
    qtree.childIndex (qtree.nwChild 0 + 2) = 2 ∧
    qtree.nwChild 0 + 1 = qtree.neChild 0 ∧
    qtree.nwChild 0 + 2 = qtree.seChild 0 ∧
    qtree.nwChild 0 + 3 = qtree.swChild 0 :=
  parent_childIndex_nwChild 0 2 (by decide) (by decide)

/-! ## The texture quadtree file: auxiliary facts -/

theorem heapModify_length (heap : List TileTexture) (p : Nat) (f : TileTexture → TileTexture) :
    (heapModify heap p f).length = heap.length := by
  unfold heapModify
  split
  · exact List.length_set _ _ _
  · rfl

theorem heapModify_get (heap : List TileTexture) (p q : Nat) (f : TileTexture → TileTexture) :
    (heapModify heap p f)[q]? = if q = p then (heap[p]?).map f else heap[q]? := by
  unfold heapModify
  split
  · rename_i o ho
    rw [List.getElem?_set]
    have hp : p < heap.length := (List.getElem?_eq_some.mp ho).1
    by_cases hqp : q = p
    · subst hqp
      simp [ho, hp]
    · have : ¬ p = q := fun e => hqp e.symm
      simp [hqp, this]
  · rename_i hnone
    by_cases hqp : q = p
    · subst hqp
      simp [hnone]
    · simp [hqp]

theorem heapModify_get_self (heap : List TileTexture) (p : Nat) (f : TileTexture → TileTexture)
    (o : TileTexture) (ho : heap[p]? = some o) : (heapModify heap p f)[p]? = some (f o) := by
  rw [heapModify_get, if_pos rfl, ho]
  rfl

theorem heapModify_get_ne (heap : List TileTexture) (p q : Nat) (f : TileTexture → TileTexture)
    (hne : q ≠ p) : (heapModify heap p f)[q]? = heap[q]? := by
  rw [heapModify_get, if_neg hne]

/-- The entries of a vector after the removal of the entry at `idx` by moving the
last entry to its place. -/
theorem swapRemove_get (l : List Nat) (idx last i : Nat) (hidx : idx < l.length) :
    ((l.set idx last).dropLast)[i]? =
      if i + 1 < l.length then (if i = idx then some last else l[i]?) else none := by
  rw [List.dropLast_eq_take, List.length_set, List.getElem?_take, List.getElem?_set]
  by_cases h1 : i + 1 < l.length
  · have h2 : i < l.length - 1 := by omega
    rw [if_pos h2, if_pos h1]
    by_cases h3 : i = idx
    · subst h3
      simp [hidx]
    · have : ¬ idx = i := fun e => h3 e.symm
      simp [h3, this]
  · have h2 : ¬ i < l.length - 1 := by omega
    rw [if_neg h2, if_neg h1]

theorem vecAt_eq_some (v : List Nat) (i : Int) (h : Nat) :
    vecAt v i = some h ↔ 0 ≤ i ∧ v[i.toNat]? = some h := by
  unfold vecAt
  by_cases hi : i < 0
  · simp [hi]
  · simp [hi]
    omega

theorem vecAt_natCast (v : List Nat) (i : Nat) : vecAt v (i : Int) = v[i]? := by
  unfold vecAt
  simp

theorem moveHandle_get_txt (heap : List TileTexture) (src dst : List Nat) (txt : Nat) (idx : Int)
    (last : Nat) (flag : Bool) (o : TileTexture) (ho : heap[txt]? = some o) :
    (moveHandle heap src dst txt idx last flag).1[txt]? =
      some { o with _activeIdx := (dst.length : Int), _active := flag } := by
  unfold moveHandle
  simp only
  by_cases hl : txt = last
  · subst hl
    rw [heapModify_get_self _ _ _ _ (heapModify_get_self _ _ _ _ (heapModify_get_self _ _ _ _ ho))]
  · rw [heapModify_get_self _ _ _ _ (heapModify_get_self _ _ _ o
      (by rw [heapModify_get_ne _ _ _ _ hl]; exact ho))]

theorem moveHandle_get_last (heap : List TileTexture) (src dst : List Nat) (txt : Nat) (idx : Int)
    (last : Nat) (flag : Bool) (ol : TileTexture) (hol : heap[last]? = some ol)
    (hne : last ≠ txt) :
    (moveHandle heap src dst txt idx last flag).1[last]? = some { ol with _activeIdx := idx } := by
  unfold moveHandle
  simp only
  rw [heapModify_get_ne _ _ _ _ hne, heapModify_get_ne _ _ _ _ hne,
    heapModify_get_self _ _ _ _ hol]

theorem moveHandle_get_other (heap : List TileTexture) (src dst : List Nat) (txt : Nat) (idx : Int)
    (last : Nat) (flag : Bool) (g : Nat) (h1 : g ≠ txt) (h2 : g ≠ last) :
    (moveHandle heap src dst txt idx last flag).1[g]? = heap[g]? := by
  unfold moveHandle
  simp only
  rw [heapModify_get_ne _ _ _ _ h1, heapModify_get_ne _ _ _ _ h1, heapModify_get_ne _ _ _ _ h2]

/-- Moving a loaded handle from the vector it is in to the other vector keeps the
vectors and the handles consistent. -/
theorem moveHandle_inv (heap : List TileTexture) (src dst : List Nat) (txt last : Nat)
    (f : Bool) (o : TileTexture)
    (hsrc : ListOK heap src f) (hdst : ListOK heap dst (!f))
    (hosrc : ObjOK heap src f) (hodst : ObjOK heap dst (!f)) (hun : UnloadedOK heap)
    (ho : heap[txt]? = some o) (hld : o._txt ≠ none) (hf : o._active = f)
    (hlast : src.getLast? = some last) :
    ListOK (moveHandle heap src dst txt o._activeIdx last (!f)).1
      (moveHandle heap src dst txt o._activeIdx last (!f)).2.1 f ∧
    ListOK (moveHandle heap src dst txt o._activeIdx last (!f)).1
      (moveHandle heap src dst txt o._activeIdx last (!f)).2.2 (!f) ∧
    ObjOK (moveHandle heap src dst txt o._activeIdx last (!f)).1
      (moveHandle heap src dst txt o._activeIdx last (!f)).2.1 f ∧
    ObjOK (moveHandle heap src dst txt o._activeIdx last (!f)).1
      (moveHandle heap src dst txt o._activeIdx last (!f)).2.2 (!f) ∧
    UnloadedOK (moveHandle heap src dst txt o._activeIdx last (!f)).1 := by
  -- the position of `txt` in `src`
  have hat := hosrc txt o ho hld hf
  rw [vecAt_eq_some] at hat
  obtain ⟨hidx0, hk⟩ := hat
  have hkL : o._activeIdx.toNat < src.length := (List.getElem?_eq_some.mp hk).1
  have hidx : o._activeIdx = (o._activeIdx.toNat : Int) := by omega
  -- the last entry of `src`
  rw [List.getLast?_eq_getElem?] at hlast
  obtain ⟨ol, hol, holf, holi, holl⟩ := hsrc _ _ hlast
  -- `last = txt` exactly when `txt` is in the last position
  have hlt : last = txt ↔ o._activeIdx.toNat = src.length - 1 := by
    constructor
    · intro e
      subst e
      rw [ho] at hol
      have := Option.some.inj hol
      subst this
      omega
    · intro e
      rw [e, hlast] at hk
      exact Option.some.inj hk
  have hnf : (!f) ≠ f := by cases f <;> simp
  have hsrc2 : ∀ i, (moveHandle heap src dst txt o._activeIdx last (!f)).2.1[i]? =
      if i + 1 < src.length then (if i = o._activeIdx.toNat then some last else src[i]?)
      else none := fun i => swapRemove_get src _ last i hkL
  have hdst2 : (moveHandle heap src dst txt o._activeIdx last (!f)).2.2 = dst ++ [txt] := rfl
  refine ⟨?_, ?_, ?_, ?_, ?_⟩
  · -- the entries of the new source vector
    intro i g hg
    rw [hsrc2] at hg
    split at hg
    · rename_i hiL
      split at hg
      · rename_i hik
        have hgl := Option.some.inj hg
        subst hgl
        have hne : last ≠ txt := fun e => by have := hlt.mp e; omega
        refine ⟨_, moveHandle_get_last _ _ _ _ _ _ _ _ hol hne, holf, ?_, holl⟩
        show o._activeIdx = (i : Int)
        omega
      · rename_i hik
        obtain ⟨og, hog, hogf, hogi, hogl⟩ := hsrc _ _ hg
        have h1 : g ≠ txt := by
          intro e
          subst e
          rw [ho] at hog
          have := Option.some.inj hog
          subst this
          omega
        have h2 : g ≠ last := by
          intro e
          subst e
          rw [hol] at hog
          have := Option.some.inj hog
          subst this
          omega
        exact ⟨og, by rw [moveHandle_get_other _ _ _ _ _ _ _ _ h1 h2]; exact hog,
          hogf, hogi, hogl⟩
    · simp at hg
  · -- the entries of the new destination vector
    intro i g hg
    rw [hdst2, List.getElem?_append] at hg
    split at hg
    · obtain ⟨og, hog, hogf, hogi, hogl⟩ := hdst _ _ hg
      have h1 : g ≠ txt := by
        intro e
        subst e
        rw [ho] at hog
        have := Option.some.inj hog
        subst this
        exact hnf (hogf.symm.trans hf)
      have h2 : g ≠ last := by
        intro e
        subst e
        rw [hol] at hog
        have := Option.some.inj hog
        subst this
        exact hnf (hogf.symm.trans holf)
      exact ⟨og, by rw [moveHandle_get_other _ _ _ _ _ _ _ _ h1 h2]; exact hog,
        hogf, hogi, hogl⟩
    · rename_i hiL
      have hi : i = dst.length := by
        have := (List.getElem?_eq_some.mp hg).1
        simp at this
        omega
      subst hi
      simp at hg
      subst hg
      exact ⟨_, moveHandle_get_txt _ _ _ _ _ _ _ _ ho, rfl, rfl, hld⟩
  · -- the loaded handles with flag `f`
    intro g og hog hogl hogf
    by_cases h1 : g = txt
    · subst h1
      rw [moveHandle_get_txt _ _ _ _ _ _ _ _ ho] at hog
      have := Option.some.inj hog
      subst this
      exact absurd hogf hnf
    · by_cases h2 : g = last
      · subst h2
        rw [moveHandle_get_last _ _ _ _ _ _ _ _ hol h1] at hog
        have := Option.some.inj hog
        subst this
        rw [vecAt_eq_some]
        refine ⟨hidx0, ?_⟩
        show (moveHandle heap src dst txt o._activeIdx g (!f)).2.1[o._activeIdx.toNat]? = some g
        rw [hsrc2]
        have : ¬ o._activeIdx.toNat = src.length - 1 := fun e => h1 (hlt.mpr e)
        rw [if_pos (by omega), if_pos rfl]
      · rw [moveHandle_get_other _ _ _ _ _ _ _ _ h1 h2] at hog
        have hv := hosrc g og hog hogl hogf
        rw [vecAt_eq_some] at hv ⊢
        obtain ⟨hv0, hvj⟩ := hv
        refine ⟨hv0, ?_⟩
        rw [hsrc2]
        have hjL := (List.getElem?_eq_some.mp hvj).1
        have hjk : og._activeIdx.toNat ≠ o._activeIdx.toNat := by
          intro e
          rw [e, hk] at hvj
          exact h1 (Option.some.inj hvj).symm
        have hjl : og._activeIdx.toNat ≠ src.length - 1 := by
          intro e
          rw [e, hlast] at hvj
          exact h2 (Option.some.inj hvj).symm
        rw [if_pos (by omega), if_neg hjk]
        exact hvj
  · -- the loaded handles with flag `!f`
    intro g og hog hogl hogf
    rw [hdst2]
    by_cases h1 : g = txt
    · subst h1
      rw [moveHandle_get_txt _ _ _ _ _ _ _ _ ho] at hog
      have := Option.some.inj hog
      subst this
      show vecAt (dst ++ [g]) (dst.length : Int) = some g
      rw [vecAt_natCast]
      exact List.getElem?_concat_length dst g
    · by_cases h2 : g = last
      · subst h2
        rw [moveHandle_get_last _ _ _ _ _ _ _ _ hol h1] at hog
        have := Option.some.inj hog
        subst this
        exact absurd (hogf.symm.trans holf) hnf
      · rw [moveHandle_get_other _ _ _ _ _ _ _ _ h1 h2] at hog
        have hv := hodst g og hog hogl hogf
        rw [vecAt_eq_some] at hv ⊢
        obtain ⟨hv0, hvj⟩ := hv
        refine ⟨hv0, ?_⟩
        have hjL := (List.getElem?_eq_some.mp hvj).1
        rw [List.getElem?_append_left hjL]
        exact hvj
  · -- the unloaded handles
    intro g og hog hogl
    by_cases h1 : g = txt
    · subst h1
      rw [moveHandle_get_txt _ _ _ _ _ _ _ _ ho] at hog
      have := Option.some.inj hog
      subst this
      exact absurd hogl hld
    · by_cases h2 : g = last
      · subst h2
        rw [moveHandle_get_last _ _ _ _ _ _ _ _ hol h1] at hog
        have := Option.some.inj hog
        subst this
        exact absurd hogl holl
      · rw [moveHandle_get_other _ _ _ _ _ _ _ _ h1 h2] at hog
        exact hun g og hog hogl

theorem moveHandle_length (heap : List TileTexture) (src dst : List Nat) (txt : Nat) (idx : Int)
    (last : Nat) (flag : Bool) :
    (moveHandle heap src dst txt idx last flag).1.length = heap.length := by
  unfold moveHandle
  simp only [heapModify_length]

/-- Moving a handle changes no texture and no time stamp, and the flag of no
other handle. -/
theorem moveHandle_fields (heap : List TileTexture) (src dst : List Nat) (txt : Nat) (idx : Int)
    (last : Nat) (flag : Bool) (g : Nat) (og : TileTexture) (hog : heap[g]? = some og) :
    ∃ og1 : TileTexture, (moveHandle heap src dst txt idx last flag).1[g]? = some og1 ∧
      og1._txt = og._txt ∧ og1._lastUsed = og._lastUsed ∧ (g ≠ txt → og1._active = og._active) := by
  by_cases h1 : g = txt
  · subst h1
    exact ⟨_, moveHandle_get_txt _ _ _ _ _ _ _ _ hog, rfl, rfl, fun h => absurd rfl h⟩
  · by_cases h2 : g = last
    · subst h2
      exact ⟨_, moveHandle_get_last _ _ _ _ _ _ _ _ hog h1, rfl, rfl, fun _ => rfl⟩
    · exact ⟨og, by rw [moveHandle_get_other _ _ _ _ _ _ _ _ h1 h2]; exact hog, rfl, rfl,
        fun _ => rfl⟩

/-- Moving a loaded handle removes it, and nothing else, from the vector it is
in, and adds it, and nothing else, to the other vector. -/
theorem moveHandle_frame (heap : List TileTexture) (src dst : List Nat) (txt last : Nat)
    (f : Bool) (o : TileTexture)
    (hsrc : ListOK heap src f) (hosrc : ObjOK heap src f)
    (ho : heap[txt]? = some o) (hld : o._txt ≠ none) (hf : o._active = f)
    (hlast : src.getLast? = some last) :
    txt ∉ (moveHandle heap src dst txt o._activeIdx last (!f)).2.1 ∧
    (∀ g, g ≠ txt → (g ∈ (moveHandle heap src dst txt o._activeIdx last (!f)).2.1 ↔ g ∈ src)) ∧
    (∀ g, g ∈ (moveHandle heap src dst txt o._activeIdx last (!f)).2.2 ↔ g ∈ dst ∨ g = txt) := by
  have hat := hosrc txt o ho hld hf
  rw [vecAt_eq_some] at hat
  obtain ⟨hidx0, hk⟩ := hat
  have hkL : o._activeIdx.toNat < src.length := (List.getElem?_eq_some.mp hk).1
  rw [List.getLast?_eq_getElem?] at hlast
  have hsrc2 : ∀ i, (moveHandle heap src dst txt o._activeIdx last (!f)).2.1[i]? =
      if i + 1 < src.length then (if i = o._activeIdx.toNat then some last else src[i]?)
      else none := fun i => swapRemove_get src _ last i hkL
  -- an entry of `src` that holds `txt` is at the position of `txt`
  have huniq : ∀ j, src[j]? = some txt → j = o._activeIdx.toNat := by
    intro j hj
    obtain ⟨oj, hoj, _, hoji, _⟩ := hsrc _ _ hj
    rw [ho] at hoj
    have := Option.some.inj hoj
    subst this
    omega
  refine ⟨?_, ?_, ?_⟩
  · intro hmem
    obtain ⟨i, hi⟩ := List.mem_iff_getElem?.mp hmem
    rw [hsrc2] at hi
    split at hi
    · rename_i hiL
      split at hi
      · rename_i hik
        have e := Option.some.inj hi
        subst e
        have := huniq _ hlast
        omega
      · rename_i hik
        exact hik (huniq _ hi)
    · simp at hi
  · intro g hg
    constructor
    · intro hmem
      obtain ⟨i, hi⟩ := List.mem_iff_getElem?.mp hmem
      rw [hsrc2] at hi
      split at hi
      · split at hi
        · have e := Option.some.inj hi
          subst e
          exact List.mem_iff_getElem?.mpr ⟨_, hlast⟩
        · exact List.mem_iff_getElem?.mpr ⟨_, hi⟩
      · simp at hi
    · intro hmem
      obtain ⟨j, hj⟩ := List.mem_iff_getElem?.mp hmem
      have hjL := (List.getElem?_eq_some.mp hj).1
      have hjk : j ≠ o._activeIdx.toNat := by
        intro e
        rw [e, hk] at hj
        exact hg (Option.some.inj hj).symm
      by_cases hjl : j = src.length - 1
      · rw [hjl, hlast] at hj
        have e := Option.some.inj hj
        subst e
        apply List.mem_iff_getElem?.mpr
        refine ⟨o._activeIdx.toNat, ?_⟩
        rw [hsrc2, if_pos (by omega), if_pos rfl]
      · apply List.mem_iff_getElem?.mpr
        refine ⟨j, ?_⟩
        rw [hsrc2, if_pos (by omega), if_neg hjk]
        exact hj
  · intro g
    show g ∈ dst ++ [txt] ↔ g ∈ dst ∨ g = txt
    simp

theorem getLast?_of_get (l : List Nat) (k x : Nat) (hk : l[k]? = some x) :
    ∃ last, l.getLast? = some last := by
  have hkL := (List.getElem?_eq_some.mp hk).1
  rw [List.getLast?_eq_getElem?]
  exact ⟨l[l.length - 1], List.getElem?_eq_getElem (by omega)⟩

/-- Activation of a handle that holds a texture and is not active is the move of
the handle from `_inactive` to `_active`. -/
theorem activate_loaded_eq (env : LoadEnv) (c : TextureCache) (h : Nat) (o : TileTexture)
    (hobj : ObjOK c.heap c._inactive false)
    (ho : c.heap[h]? = some o) (hna : o._active = false) (hld : o._txt ≠ none) :
    ∃ last, c._inactive.getLast? = some last ∧
      TileTexture.activate env c h = some { c with
        heap := (moveHandle c.heap c._inactive c._active h o._activeIdx last true).1,
        _inactive := (moveHandle c.heap c._inactive c._active h o._activeIdx last true).2.1,
        _active := (moveHandle c.heap c._inactive c._active h o._activeIdx last true).2.2 } := by
  have hat := hobj h o ho hld hna
  have hat2 := (vecAt_eq_some _ _ _).mp hat
  obtain ⟨last, hlast⟩ := getLast?_of_get _ _ _ hat2.2
  refine ⟨last, hlast, ?_⟩
  unfold TileTexture.activate
  rw [ho]
  simp only [hna, hld, Bool.false_eq_true, if_false]
  unfold TextureCache._makeActive
  simp only [ho, hna, Bool.false_eq_true, if_false, ge_iff_le, hat2.1, if_true, hat, hlast]
  rfl

/-- Release of an active handle is the move of the handle from `_active` to
`_inactive`. -/
theorem release_eq (c : TextureCache) (h : Nat) (o : TileTexture)
    (hobj : ObjOK c.heap c._active true) (hun : UnloadedOK c.heap)
    (ho : c.heap[h]? = some o) (ha : o._active = true) :
    ∃ last, c._active.getLast? = some last ∧
      TileTexture.release c h = some { c with
        heap := (moveHandle c.heap c._active c._inactive h o._activeIdx last false).1,
        _active := (moveHandle c.heap c._active c._inactive h o._activeIdx last false).2.1,
        _inactive := (moveHandle c.heap c._active c._inactive h o._activeIdx last false).2.2 } := by
  have hld : o._txt ≠ none := by
    intro e
    have := (hun h o ho e).1
    rw [ha] at this
    exact absurd this (by simp)
  have hat := hobj h o ho hld ha
  have hat2 := (vecAt_eq_some _ _ _).mp hat
  obtain ⟨last, hlast⟩ := getLast?_of_get _ _ _ hat2.2
  refine ⟨last, hlast, ?_⟩
  unfold TileTexture.release
  rw [ho]
  simp only [ha, if_true]
  unfold TextureCache._release
  simp only [ho, ha, if_true, hat, hlast]
  rfl

/-- Activation of a handle that holds no texture, when the load step yields the
texture `txt`, stores the texture and adds the handle to `_active`. -/
theorem activate_unloaded_eq (env : LoadEnv) (c : TextureCache) (h : Nat) (o : TileTexture)
    (txt : Texture2D) (hun : UnloadedOK c.heap)
    (ho : c.heap[h]? = some o) (hld : o._txt = none) (hload : o.loadTexture env = some txt) :
    TileTexture.activate env c h = some { c with
      heap := heapModify c.heap h (fun _ =>
        { o with _txt := some txt,
                 _sampler := true, _activeIdx := c._active.length, _active := true }),
      _active := c._active ++ [h] } := by
  obtain ⟨hna, hidx⟩ := hun h o ho hld
  unfold TileTexture.activate
  rw [ho]
  simp only [hna, hld, hload, Bool.false_eq_true, if_false, if_true]
  unfold TextureCache._makeActive
  simp only [heapModify_get_self _ _ _ _ ho, hna, hidx, Bool.false_eq_true, if_false]
  have hneg : ¬ ((-1 : Int) ≥ 0) := by decide
  simp only [hneg, if_false, Option.some.injEq]
  congr 1
  apply List.ext_getElem?
  intro q
  simp only [heapModify_get]
  by_cases hq : q = h
  · subst hq
    simp [ho]
  · simp [hq]

theorem activate_unloaded_spec (env : LoadEnv) (c : TextureCache) (hwf : WF c) (h : Nat)
    (o : TileTexture) (txt : Texture2D)
    (ho : c.heap[h]? = some o) (hld : o._txt = none) (hload : o.loadTexture env = some txt) :
    ∃ c1, TileTexture.activate env c h = some c1 ∧ WF c1 ∧ Preserved c c1 ∧
      (∃ o1 : TileTexture, c1.heap[h]? = some o1 ∧ o1._active = true ∧ o1._txt ≠ none) ∧
      h ∈ c1._active ∧ h ∉ c1._inactive ∧
      (∀ g, g ≠ h → ((g ∈ c1._active ↔ g ∈ c._active) ∧ (g ∈ c1._inactive ↔ g ∈ c._inactive))) := by
  refine ⟨_, activate_unloaded_eq env c h o txt hwf.unloaded ho hld hload, ?_, ?_, ?_, ?_, ?_, ?_⟩
  · -- the invariant
    have hget : ∀ g, g ≠ h → (heapModify c.heap h (fun _ =>
        { o with _txt := some txt,
                 _sampler := true, _activeIdx := c._active.length, _active := true }))[g]? =
        c.heap[g]? := fun g hg => heapModify_get_ne _ _ _ _ hg
    have hne : ∀ (g : Nat) (og : TileTexture), c.heap[g]? = some og → og._txt ≠ none → g ≠ h := by
      intro g og hog hogl e
      subst e
      rw [ho] at hog
      have := Option.some.inj hog
      subst this
      exact hogl hld
    constructor
    · intro i g hg
      show ∃ o1 : TileTexture, (heapModify _ _ _)[g]? = some o1 ∧ _
      change (c._active ++ [h])[i]? = some g at hg
      rw [List.getElem?_append] at hg
      split at hg
      · obtain ⟨og, hog, hogf, hogi, hogl⟩ := hwf.act _ _ hg
        exact ⟨og, by rw [hget g (hne g og hog hogl)]; exact hog, hogf, hogi, hogl⟩
      · rename_i hiL
        have hi : i = c._active.length := by
          have := (List.getElem?_eq_some.mp hg).1
          simp at this
          omega
        subst hi
        simp at hg
        subst hg
        exact ⟨_, heapModify_get_self _ _ _ _ ho, rfl, rfl, by simp⟩
    · intro i g hg
      show ∃ o1 : TileTexture, (heapModify _ _ _)[g]? = some o1 ∧ _
      change c._inactive[i]? = some g at hg
      obtain ⟨og, hog, hogf, hogi, hogl⟩ := hwf.inact _ _ hg
      exact ⟨og, by rw [hget g (hne g og hog hogl)]; exact hog, hogf, hogi, hogl⟩
    · intro g og hog hogl hogf
      change (heapModify _ _ _)[g]? = some og at hog
      show vecAt (c._active ++ [h]) og._activeIdx = some g
      by_cases hg : g = h
      · subst hg
        rw [heapModify_get_self _ _ _ _ ho] at hog
        have := Option.some.inj hog
        subst this
        show vecAt (c._active ++ [g]) (c._active.length : Int) = some g
        rw [vecAt_natCast]
        exact List.getElem?_concat_length _ _
      · rw [hget g hg] at hog
        have hv := hwf.objAct g og hog hogl hogf
        rw [vecAt_eq_some] at hv ⊢
        refine ⟨hv.1, ?_⟩
        rw [List.getElem?_append_left (List.getElem?_eq_some.mp hv.2).1]
        exact hv.2
    · intro g og hog hogl hogf
      change (heapModify _ _ _)[g]? = some og at hog
      show vecAt c._inactive og._activeIdx = some g
      by_cases hg : g = h
      · subst hg
        rw [heapModify_get_self _ _ _ _ ho] at hog
        have := Option.some.inj hog
        subst this
        simp at hogf
      · rw [hget g hg] at hog
        exact hwf.objInact g og hog hogl hogf
    · intro g og hog hogl
      change (heapModify _ _ _)[g]? = some og at hog
      by_cases hg : g = h
      · subst hg
        rw [heapModify_get_self _ _ _ _ ho] at hog
        have := Option.some.inj hog
        subst this
        simp at hogl
      · rw [hget g hg] at hog
        exact hwf.unloaded g og hog hogl
    · intro e he
      show e.2 < (heapModify _ _ _).length
      rw [heapModify_length]
      exact hwf.tblLt e he
    · exact hwf.tblInj
  · refine ⟨rfl, rfl, heapModify_length _ _ _, rfl, ?_⟩
    intro g og hog
    show ∃ og1 : TileTexture, (heapModify _ _ _)[g]? = some og1 ∧ _
    by_cases hg : g = h
    · subst hg
      rw [ho] at hog
      have := Option.some.inj hog
      subst this
      exact ⟨_, heapModify_get_self _ _ _ _ ho, rfl, fun hn => absurd hld hn⟩
    · exact ⟨og, by rw [heapModify_get_ne _ _ _ _ hg]; exact hog, rfl, fun _ => rfl⟩
  · exact ⟨_, heapModify_get_self _ _ _ _ ho, rfl, by simp⟩
  · show h ∈ c._active ++ [h]
    simp
  · show h ∉ c._inactive
    intro hmem
    obtain ⟨i, hi⟩ := List.mem_iff_getElem?.mp hmem
    obtain ⟨og, hog, _, _, hogl⟩ := hwf.inact _ _ hi
    rw [ho] at hog
    have := Option.some.inj hog
    subst this
    exact hogl hld
  · intro g hg
    constructor
    · show g ∈ c._active ++ [h] ↔ g ∈ c._active
      simp [hg]
    · exact Iff.rfl

theorem activate_loaded_spec (env : LoadEnv) (c : TextureCache) (hwf : WF c) (h : Nat)
    (o : TileTexture)
    (ho : c.heap[h]? = some o) (hna : o._active = false) (hld : o._txt ≠ none) :
    ∃ c1, TileTexture.activate env c h = some c1 ∧ WF c1 ∧ Preserved c c1 ∧
      (∃ o1 : TileTexture, c1.heap[h]? = some o1 ∧ o1._active = true ∧ o1._txt ≠ none) ∧
      h ∈ c1._active ∧ h ∉ c1._inactive ∧
      (∀ g, g ≠ h → ((g ∈ c1._active ↔ g ∈ c._active) ∧ (g ∈ c1._inactive ↔ g ∈ c._inactive))) := by
  obtain ⟨last, hlast, heq⟩ := activate_loaded_eq env c h o hwf.objInact ho hna hld
  obtain ⟨i1, i2, i3, i4, i5⟩ := moveHandle_inv c.heap c._inactive c._active h last false o
    hwf.inact hwf.act hwf.objInact hwf.objAct hwf.unloaded ho hld hna hlast
  obtain ⟨f1, f2, f3⟩ := moveHandle_frame c.heap c._inactive c._active h last false o
    hwf.inact hwf.objInact ho hld hna hlast
  refine ⟨_, heq, ?_, ?_, ?_, ?_, ?_, ?_⟩
  · refine ⟨i2, i1, i4, i3, i5, ?_, hwf.tblInj⟩
    intro e he
    have hl := moveHandle_length c.heap c._inactive c._active h o._activeIdx last true
    have := hwf.tblLt e he
    show e.2 < (moveHandle c.heap c._inactive c._active h o._activeIdx last true).1.length
    omega
  · refine ⟨rfl, rfl,
      moveHandle_length c.heap c._inactive c._active h o._activeIdx last true, rfl, ?_⟩
    intro g og hog
    obtain ⟨og1, h1, h2, h3, _⟩ := moveHandle_fields c.heap c._inactive c._active h o._activeIdx
      last true g og hog
    exact ⟨og1, h1, h3, fun _ => h2⟩
  · exact ⟨_, moveHandle_get_txt c.heap c._inactive c._active h o._activeIdx last true o ho,
      rfl, hld⟩
  · exact (f3 h).mpr (Or.inr rfl)
  · exact f1
  · intro g hg
    constructor
    · exact (f3 g).trans (by simp [hg])
    · exact f2 g hg

/-- In a consistent cache, `activate` on a handle that is not active comes back
when the handle holds a texture or the load step yields one. -/
theorem activate_spec (env : LoadEnv) (c : TextureCache) (hwf : WF c) (h : Nat)
    (o : TileTexture) (ho : c.heap[h]? = some o) (hna : o._active = false)
    (hload : o._txt = none → ∃ txt, o.loadTexture env = some txt) :
    ∃ c1, TileTexture.activate env c h = some c1 ∧ WF c1 ∧ Preserved c c1 ∧
      (∃ o1 : TileTexture, c1.heap[h]? = some o1 ∧ o1._active = true ∧ o1._txt ≠ none) ∧
      h ∈ c1._active ∧ h ∉ c1._inactive ∧
      (∀ g, g ≠ h → ((g ∈ c1._active ↔ g ∈ c._active) ∧ (g ∈ c1._inactive ↔ g ∈ c._inactive))) := by
  by_cases hld : o._txt = none
  · obtain ⟨txt, htxt⟩ := hload hld
    exact activate_unloaded_spec env c hwf h o txt ho hld htxt
  · exact activate_loaded_spec env c hwf h o ho hna hld

theorem release_spec (c : TextureCache) (hwf : WF c) (h : Nat) (o : TileTexture)
    (ho : c.heap[h]? = some o) (ha : o._active = true) :
    ∃ c1, TileTexture.release c h = some c1 ∧ WF c1 ∧ Preserved c c1 ∧
      (∃ o1 : TileTexture, c1.heap[h]? = some o1 ∧ o1._active = false ∧ o1._txt = o._txt ∧
        o1._txt ≠ none) ∧
      h ∈ c1._inactive ∧ h ∉ c1._active ∧
      (∀ g, g ≠ h → ((g ∈ c1._active ↔ g ∈ c._active) ∧ (g ∈ c1._inactive ↔ g ∈ c._inactive))) := by
  have hld : o._txt ≠ none := by
    intro e
    have := (hwf.unloaded h o ho e).1
    rw [ha] at this
    exact absurd this (by simp)
  obtain ⟨last, hlast, heq⟩ := release_eq c h o hwf.objAct hwf.unloaded ho ha
  obtain ⟨i1, i2, i3, i4, i5⟩ := moveHandle_inv c.heap c._active c._inactive h last true o
    hwf.act hwf.inact hwf.objAct hwf.objInact hwf.unloaded ho hld ha hlast
  obtain ⟨f1, f2, f3⟩ := moveHandle_frame c.heap c._active c._inactive h last true o
    hwf.act hwf.objAct ho hld ha hlast
  refine ⟨_, heq, ?_, ?_, ?_, ?_, ?_, ?_⟩
  · refine ⟨i1, i2, i3, i4, i5, ?_, hwf.tblInj⟩
    intro e he
    have hl := moveHandle_length c.heap c._active c._inactive h o._activeIdx last false
    have := hwf.tblLt e he
    show e.2 < (moveHandle c.heap c._active c._inactive h o._activeIdx last false).1.length
    omega
  · refine ⟨rfl, rfl,
      moveHandle_length c.heap c._active c._inactive h o._activeIdx last false, rfl, ?_⟩
    intro g og hog
    obtain ⟨og1, h1, h2, h3, _⟩ := moveHandle_fields c.heap c._active c._inactive h o._activeIdx
      last false g og hog
    exact ⟨og1, h1, h3, fun _ => h2⟩
  · exact ⟨_, moveHandle_get_txt c.heap c._active c._inactive h o._activeIdx last false o ho,
      rfl, rfl, hld⟩
  · exact (f3 h).mpr (Or.inr rfl)
  · exact f1
  · intro g hg
    constructor
    · exact f2 g hg
    · exact (f3 g).trans (by simp [hg])

/-- A call of `activate` that comes back is on a handle that is not active, and
that holds a texture or for which the load step yields one. -/
theorem activate_some (env : LoadEnv) (c c1 : TextureCache) (h : Nat)
    (e : TileTexture.activate env c h = some c1) :
    ∃ o : TileTexture, c.heap[h]? = some o ∧ o._active = false ∧
      (o._txt = none → ∃ txt, o.loadTexture env = some txt) := by
  unfold TileTexture.activate at e
  split at e
  · simp at e
  · rename_i t ht
    by_cases ha : t._active = true
    · simp [ha] at e
    · refine ⟨t, ht, by simpa using ha, ?_⟩
      intro hld
      cases hl : t.loadTexture env with
      | some txt => exact ⟨txt, rfl⟩
      | none => simp [ha, hld, hl] at e

/-- A call of `activate` on a handle that holds no texture does not come back
when the load step does not. -/
theorem activate_load_none (env : LoadEnv) (c : TextureCache) (h : Nat) (o : TileTexture)
    (ho : c.heap[h]? = some o) (hld : o._txt = none) (hl : o.loadTexture env = none) :
    TileTexture.activate env c h = none := by
  cases e : TileTexture.activate env c h with
  | none => rfl
  | some c1 =>
    obtain ⟨o1, ho1, _, hload⟩ := activate_some env c c1 h e
    rw [ho] at ho1
    rw [← Option.some.inj ho1] at hload
    obtain ⟨txt, htxt⟩ := hload hld
    rw [hl] at htxt
    exact absurd htxt (by simp)

/-- In a consistent cache, `activate` on a handle that is not active comes back
exactly when the handle holds a texture or the load step yields one. -/
theorem activate_isSome_iff (env : LoadEnv) (c : TextureCache) (hwf : WF c) (h : Nat)
    (o : TileTexture) (ho : c.heap[h]? = some o) (hna : o._active = false) :
    (TileTexture.activate env c h).isSome = true ↔
      (o._txt = none → (o.loadTexture env).isSome = true) := by
  constructor
  · intro hs hld
    obtain ⟨c1, e⟩ := Option.isSome_iff_exists.mp hs
    obtain ⟨o1, ho1, _, hload⟩ := activate_some env c c1 h e
    rw [ho] at ho1
    rw [← Option.some.inj ho1] at hload
    exact Option.isSome_iff_exists.mpr (hload hld)
  · intro hload
    obtain ⟨c1, e1, _⟩ := activate_spec env c hwf h o ho hna
      (fun hld => Option.isSome_iff_exists.mp (hload hld))
    rw [e1]
    rfl

/-- A call of `release` that fails no assertion is on an active handle. -/
theorem release_some (c c1 : TextureCache) (h : Nat) (e : TileTexture.release c h = some c1) :
    ∃ o : TileTexture, c.heap[h]? = some o ∧ o._active = true := by
  unfold TileTexture.release at e
  split at e
  · simp at e
  · rename_i t ht
    by_cases ha : t._active = true
    · exact ⟨t, ht, ha⟩
    · simp [ha] at e

theorem Equal_iff (k1 k2 : Key) : Equal k1 k2 = true ↔ k1 = k2 := by
  cases k1
  cases k2
  simp [Equal, and_assoc]

theorem make_found (c : TextureCache) (tree : Nat) (level row col : Int) (got : Key × Nat)
    (h : c._textureTbl.find? (fun e => Equal e.1 ⟨tree, level, row, col⟩) = some got) :
    c.make tree level row col = (got.2, c) := by
  unfold TextureCache.make
  rw [h]

theorem make_new (c : TextureCache) (tree : Nat) (level row col : Int)
    (h : c._textureTbl.find? (fun e => Equal e.1 ⟨tree, level, row, col⟩) = none) :
    c.make tree level row col = (c.heap.length,
      { c with
        heap := c.heap ++ [TileTexture.construct tree level row col true],
        _textureTbl := (⟨tree, level, row, col⟩, c.heap.length) :: c._textureTbl }) := by
  unfold TextureCache.make
  rw [h]

/-- The handle that `make` returns is registered in the table under the key. -/
theorem make_registered (c : TextureCache) (tree : Nat) (level row col : Int) :
    ((⟨tree, level, row, col⟩ : Key), (c.make tree level row col).1) ∈
      (c.make tree level row col).2._textureTbl := by
  cases hf : c._textureTbl.find? (fun e => Equal e.1 ⟨tree, level, row, col⟩) with
  | none =>
    rw [make_new c tree level row col hf]
    exact List.mem_cons_self _ _
  | some got =>
    rw [make_found c tree level row col got hf]
    have h1 := List.find?_some hf
    have h2 := List.mem_of_find?_eq_some hf
    have h3 : got.1 = ⟨tree, level, row, col⟩ := (Equal_iff _ _).mp h1
    rw [← h3]
    exact h2

theorem make_wf (c : TextureCache) (hwf : WF c) (tree : Nat) (level row col : Int) :
    WF (c.make tree level row col).2 := by
  cases hf : c._textureTbl.find? (fun e => Equal e.1 ⟨tree, level, row, col⟩) with
  | some got =>
    rw [make_found c tree level row col got hf]
    exact hwf
  | none =>
    rw [make_new c tree level row col hf]
    have hold : ∀ (g : Nat) (og : TileTexture), c.heap[g]? = some og →
        (c.heap ++ [TileTexture.construct tree level row col true])[g]? = some og := by
      intro g og hog
      rw [List.getElem?_append_left (List.getElem?_eq_some.mp hog).1]
      exact hog
    have hnew : ∀ (g : Nat) (og : TileTexture),
        (c.heap ++ [TileTexture.construct tree level row col true])[g]? = some og →
        c.heap[g]? = some og ∨ og = TileTexture.construct tree level row col true := by
      intro g og hog
      rw [List.getElem?_append] at hog
      split at hog
      · exact Or.inl hog
      · right
        have hlt := (List.getElem?_eq_some.mp hog).1
        simp at hlt
        have : g - c.heap.length = 0 := by omega
        rw [this] at hog
        simp at hog
        exact hog.symm
    constructor
    · intro i g hg
      obtain ⟨og, hog, r⟩ := hwf.act i g hg
      exact ⟨og, hold g og hog, r⟩
    · intro i g hg
      obtain ⟨og, hog, r⟩ := hwf.inact i g hg
      exact ⟨og, hold g og hog, r⟩
    · intro g og hog hogl hogf
      rcases hnew g og hog with h1 | h1
      · exact hwf.objAct g og h1 hogl hogf
      · subst h1
        exact absurd rfl hogl
    · intro g og hog hogl hogf
      rcases hnew g og hog with h1 | h1
      · exact hwf.objInact g og h1 hogl hogf
      · subst h1
        exact absurd rfl hogl
    · intro g og hog hogl
      rcases hnew g og hog with h1 | h1
      · exact hwf.unloaded g og h1 hogl
      · subst h1
        exact ⟨rfl, rfl⟩
    · intro e he
      show e.2 < (c.heap ++ [TileTexture.construct tree level row col true]).length
      rw [List.length_append]
      rcases List.mem_cons.mp he with h1 | h1
      · subst h1
        simp
      · have := hwf.tblLt e h1
        omega
    · show List.Pairwise _ ((⟨tree, level, row, col⟩, c.heap.length) :: c._textureTbl)
      rw [List.pairwise_cons]
      refine ⟨?_, hwf.tblInj⟩
      intro b hb
      constructor
      · intro e
        have h1 := List.find?_eq_none.mp hf b hb
        exact h1 ((Equal_iff _ _).mpr e.symm)
      · have := hwf.tblLt b hb
        show c.heap.length ≠ b.2
        omega

theorem construct_wf (mipmap : Bool) : WF (TextureCache.construct mipmap) := by
  constructor
  · intro i g hg
    simp [TextureCache.construct] at hg
  · intro i g hg
    simp [TextureCache.construct] at hg
  · intro g og hog
    simp [TextureCache.construct] at hog
  · intro g og hog
    simp [TextureCache.construct] at hog
  · intro g og hog
    simp [TextureCache.construct] at hog
  · intro e he
    simp [TextureCache.construct] at he
  · exact List.Pairwise.nil

/-- Every reachable cache state is consistent. -/
theorem reachable_wf (env : LoadEnv) (c : TextureCache) (hc : Reachable env c) : WF c := by
  induction hc with
  | construct mipmap => exact construct_wf mipmap
  | make c tree level row col _ ih => exact make_wf c ih tree level row col
  | activate c c1 h _ e ih =>
    obtain ⟨o, ho, hna, hload⟩ := activate_some env c c1 h e
    obtain ⟨c2, e2, hwf2, _⟩ := activate_spec env c ih h o ho hna hload
    rw [e] at e2
    rw [Option.some.inj e2]
    exact hwf2
  | release c c1 h _ e ih =>
    obtain ⟨o, ho, ha⟩ := release_some c c1 h e
    obtain ⟨c2, e2, hwf2, _⟩ := release_spec c ih h o ho ha
    rw [e] at e2
    rw [Option.some.inj e2]
    exact hwf2
  | newFrame c _ ih => exact ⟨ih.act, ih.inact, ih.objAct, ih.objInact, ih.unloaded, ih.tblLt, ih.tblInj⟩

theorem ListOK_nodup (heap : List TileTexture) (l : List Nat) (f : Bool) (h : ListOK heap l f) :
    l.Nodup := by
  rw [List.nodup_iff_getElem?_ne_getElem?]
  intro i j hij hj e
  have hjv : l[j]? = some l[j] := List.getElem?_eq_getElem hj
  obtain ⟨o1, ho1, _, hi1, _⟩ := h i _ (e.trans hjv)
  obtain ⟨o2, ho2, _, hi2, _⟩ := h j _ hjv
  rw [ho1] at ho2
  have := Option.some.inj ho2
  subst this
  omega

theorem isLoaded_iff (c : TextureCache) (g : Nat) :
    c.isLoaded g = true ↔ ∃ o : TileTexture, c.heap[g]? = some o ∧ o._txt ≠ none := by
  unfold TextureCache.isLoaded
  cases hg : c.heap[g]? with
  | none => simp
  | some o =>
    cases ht : o._txt <;> simp [ht]

/-- In a consistent cache the handles in the two vectors are the handles that
hold a texture. -/
theorem wf_mem_iff (c : TextureCache) (hwf : WF c) (g : Nat) :
    (g ∈ c._active ∨ g ∈ c._inactive) ↔ c.isLoaded g = true := by
  rw [isLoaded_iff]
  constructor
  · rintro (hm | hm)
    · obtain ⟨i, hi⟩ := List.mem_iff_getElem?.mp hm
      obtain ⟨o, ho, _, _, hl⟩ := hwf.act i g hi
      exact ⟨o, ho, hl⟩
    · obtain ⟨i, hi⟩ := List.mem_iff_getElem?.mp hm
      obtain ⟨o, ho, _, _, hl⟩ := hwf.inact i g hi
      exact ⟨o, ho, hl⟩
  · rintro ⟨o, ho, hl⟩
    cases ha : o._active with
    | true =>
      left
      have hv := (vecAt_eq_some _ _ _).mp (hwf.objAct g o ho hl ha)
      exact List.mem_iff_getElem?.mpr ⟨_, hv.2⟩
    | false =>
      right
      have hv := (vecAt_eq_some _ _ _).mp (hwf.objInact g o ho hl ha)
      exact List.mem_iff_getElem?.mpr ⟨_, hv.2⟩

theorem wf_disjoint (c : TextureCache) (hwf : WF c) (g : Nat) (h1 : g ∈ c._active) :
    g ∉ c._inactive := by
  intro h2
  obtain ⟨i, hi⟩ := List.mem_iff_getElem?.mp h1
  obtain ⟨j, hj⟩ := List.mem_iff_getElem?.mp h2
  obtain ⟨o1, ho1, hf1, _, _⟩ := hwf.act i g hi
  obtain ⟨o2, ho2, hf2, _, _⟩ := hwf.inact j g hj
  rw [ho1] at ho2
  have := Option.some.inj ho2
  subst this
  rw [hf1] at hf2
  exact absurd hf2 (by simp)

/-- Two entries of a table without repeated keys that have the same key are the
same entry. -/
theorem tbl_key_unique (l : List (Key × Nat))
    (hp : l.Pairwise (fun a b => a.1 ≠ b.1 ∧ a.2 ≠ b.2)) (a b : Key × Nat)
    (ha : a ∈ l) (hb : b ∈ l) (e : a.1 = b.1) : a = b := by
  induction l with
  | nil => simp at ha
  | cons x xs ih =>
    rw [List.pairwise_cons] at hp
    rcases List.mem_cons.mp ha with h1 | h1 <;> rcases List.mem_cons.mp hb with h2 | h2
    · rw [h1, h2]
    · subst h1
      exact absurd e (hp.1 b h2).1
    · subst h2
      exact absurd e.symm (hp.1 a h1).1
    · exact ih hp.2 h1 h2

/-- Two entries of a table without repeated handles that have the same handle
are the same entry. -/
theorem tbl_handle_unique (l : List (Key × Nat))
    (hp : l.Pairwise (fun a b => a.1 ≠ b.1 ∧ a.2 ≠ b.2)) (a b : Key × Nat)
    (ha : a ∈ l) (hb : b ∈ l) (e : a.2 = b.2) : a = b := by
  induction l with
  | nil => simp at ha
  | cons x xs ih =>
    rw [List.pairwise_cons] at hp
    rcases List.mem_cons.mp ha with h1 | h1 <;> rcases List.mem_cons.mp hb with h2 | h2
    · rw [h1, h2]
    · subst h1
      exact absurd e (hp.1 b h2).2
    · subst h2
      exact absurd e.symm (hp.1 a h1).2
    · exact ih hp.2 h1 h2

/-- In a consistent cache, `make` on a key that is registered with the handle `h`
returns `h` and changes nothing. -/
theorem make_of_registered (c : TextureCache) (hwf : WF c) (tree : Nat) (level row col : Int)
    (h : Nat) (hreg : ((⟨tree, level, row, col⟩ : Key), h) ∈ c._textureTbl) :
    c.make tree level row col = (h, c) := by
  cases hf : c._textureTbl.find? (fun e => Equal e.1 ⟨tree, level, row, col⟩) with
  | none =>
    have := List.find?_eq_none.mp hf _ hreg
    exact absurd ((Equal_iff _ _).mpr rfl) this
  | some got =>
    rw [make_found c tree level row col got hf]
    have h0 := List.find?_some hf
    have h1 : got.1 = ⟨tree, level, row, col⟩ := (Equal_iff _ _).mp h0
    have h2 := List.mem_of_find?_eq_some hf
    have h3 := tbl_key_unique _ hwf.tblInj got _ h2 hreg h1
    rw [h3]

/-- No operation writes the time stamp of a handle: it is 0 in every reachable
state. -/
theorem reachable_lastUsed (env : LoadEnv) (c : TextureCache) (hc : Reachable env c) :
    c._numActive = 0 ∧ ∀ (g : Nat) (o : TileTexture), c.heap[g]? = some o → o._lastUsed = 0 := by
  induction hc with
  | construct =>
    refine ⟨rfl, ?_⟩
    intro g o ho
    simp [TextureCache.construct] at ho
  | make c tree level row col _ ih =>
    cases hf : c._textureTbl.find? (fun e => Equal e.1 ⟨tree, level, row, col⟩) with
    | some got =>
      rw [make_found c tree level row col got hf]
      exact ih
    | none =>
      rw [make_new c tree level row col hf]
      refine ⟨ih.1, ?_⟩
      intro g o ho
      change (c.heap ++ [TileTexture.construct tree level row col true])[g]? = some o at ho
      rw [List.getElem?_append] at ho
      split at ho
      · exact ih.2 g o ho
      · have hlt := (List.getElem?_eq_some.mp ho).1
        simp at hlt
        have : g - c.heap.length = 0 := by omega
        rw [this] at ho
        simp at ho
        rw [← ho]
        rfl
  | activate c c1 h hr e ih =>
    obtain ⟨o, ho, hna, hload⟩ := activate_some env c c1 h e
    obtain ⟨c2, e2, _, hp, _⟩ := activate_spec env c (reachable_wf env c hr) h o ho hna hload
    rw [e] at e2
    have := Option.some.inj e2
    subst this
    obtain ⟨_, _, hlen, hnum, hheap⟩ := hp
    refine ⟨hnum.trans ih.1, ?_⟩
    intro g og hog
    have hg : g < c.heap.length := by
      have := (List.getElem?_eq_some.mp hog).1
      omega
    obtain ⟨og1, hog1, hl, _⟩ := hheap g _ (List.getElem?_eq_getElem hg)
    rw [hog] at hog1
    rw [Option.some.inj hog1, hl]
    exact ih.2 g _ (List.getElem?_eq_getElem hg)
  | release c c1 h hr e ih =>
    obtain ⟨o, ho, ha⟩ := release_some c c1 h e
    obtain ⟨c2, e2, _, hp, _⟩ := release_spec c (reachable_wf env c hr) h o ho ha
    rw [e] at e2
    have := Option.some.inj e2
    subst this
    obtain ⟨_, _, hlen, hnum, hheap⟩ := hp
    refine ⟨hnum.trans ih.1, ?_⟩
    intro g og hog
    have hg : g < c.heap.length := by
      have := (List.getElem?_eq_some.mp hog).1
      omega
    obtain ⟨og1, hog1, hl, _⟩ := hheap g _ (List.getElem?_eq_getElem hg)
    rw [hog] at hog1
    rw [Option.some.inj hog1, hl]
    exact ih.2 g _ (List.getElem?_eq_getElem hg)
  | newFrame c _ ih => exact ih

theorem cacheMade_reachable (env : LoadEnv) : Reachable env cacheMade :=
  Reachable.make _ 7 1 0 0 (Reachable.construct false)

theorem cacheActive_reachable : Reachable sampleEnv cacheActive :=
  Reachable.activate cacheMade cacheActive 0 (cacheMade_reachable sampleEnv) (by decide)

/-! ## The texture cache: the properties -/

/-- C5: `make` is idempotent on identity.  In every reachable cache state and for
every key, a second call of `make` with the same key returns the same handle and
leaves the cache unchanged; a call with a key that differs in a component returns
a different handle; and the handle made for a key that was not registered holds
no texture, is not active and is in neither vector.  Keys that `Equal` identifies
have the same `Hash`. -/
theorem make_idempotent (env : LoadEnv) (c : TextureCache) (hc : Reachable env c) (tree : Nat)
    (level row col : Int) :
    ((c.make tree level row col).2.make tree level row col).1 = (c.make tree level row col).1 ∧
    ((c.make tree level row col).2.make tree level row col).2 = (c.make tree level row col).2 ∧
    (∀ (tree2 : Nat) (level2 row2 col2 : Int),
      (tree2 ≠ tree ∨ level2 ≠ level ∨ row2 ≠ row ∨ col2 ≠ col) →
      ((c.make tree level row col).2.make tree2 level2 row2 col2).1 ≠
        (c.make tree level row col).1) ∧
    ((∀ e ∈ c._textureTbl, e.1 ≠ ⟨tree, level, row, col⟩) →
      ∃ o : TileTexture,
        (c.make tree level row col).2.heap[(c.make tree level row col).1]? = some o ∧
        o._txt = none ∧ o.isActive = false ∧
        (c.make tree level row col).1 ∉ (c.make tree level row col).2._active ∧
        (c.make tree level row col).1 ∉ (c.make tree level row col).2._inactive) ∧
    (∀ k1 k2 : Key, Equal k1 k2 = true → Hash k1 = Hash k2) := by
  have hwf := reachable_wf env c hc
  have hwf1 := make_wf c hwf tree level row col
  have hreg := make_registered c tree level row col
  have hsame := make_of_registered _ hwf1 tree level row col _ hreg
  refine ⟨by rw [hsame], by rw [hsame], ?_, ?_, ?_⟩
  · intro tree2 level2 row2 col2 hne
    have hkey : (⟨tree2, level2, row2, col2⟩ : Key) ≠ ⟨tree, level, row, col⟩ := by
      intro e
      injection e with e1 e2 e3 e4
      rcases hne with h | h | h | h
      · exact h e1
      · exact h e2
      · exact h e3
      · exact h e4
    cases hf : (c.make tree level row col).2._textureTbl.find?
        (fun e => Equal e.1 ⟨tree2, level2, row2, col2⟩) with
    | none =>
      rw [make_new _ tree2 level2 row2 col2 hf]
      have := hwf1.tblLt _ hreg
      show (c.make tree level row col).2.heap.length ≠ (c.make tree level row col).1
      omega
    | some got =>
      rw [make_found _ tree2 level2 row2 col2 got hf]
      have h0 := List.find?_some hf
      have h1 : got.1 = ⟨tree2, level2, row2, col2⟩ := (Equal_iff _ _).mp h0
      have h2 := List.mem_of_find?_eq_some hf
      intro e
      have h3 := tbl_handle_unique _ hwf1.tblInj got _ h2 hreg e
      rw [h3] at h1
      exact hkey h1.symm
  · intro hfresh
    have hf : c._textureTbl.find? (fun e => Equal e.1 ⟨tree, level, row, col⟩) = none := by
      rw [List.find?_eq_none]
      intro x hx hx2
      exact hfresh x hx ((Equal_iff _ _).mp hx2)
    have hget : (c.make tree level row col).2.heap[(c.make tree level row col).1]? =
        some (TileTexture.construct tree level row col true) := by
      rw [make_new c tree level row col hf]
      exact List.getElem?_concat_length _ _
    have hnl : (c.make tree level row col).2.isLoaded (c.make tree level row col).1 ≠ true := by
      intro hl0
      obtain ⟨o, ho, hl⟩ := (isLoaded_iff _ _).mp hl0
      rw [hget] at ho
      rw [← Option.some.inj ho] at hl
      exact hl rfl
    refine ⟨_, hget, rfl, rfl, ?_, ?_⟩
    · intro hm
      exact hnl ((wf_mem_iff _ hwf1 _).mp (Or.inl hm))
    · intro hm
      exact hnl ((wf_mem_iff _ hwf1 _).mp (Or.inr hm))
  · intro k1 k2 e
    rw [(Equal_iff _ _).mp e]

/-- C5, on the empty cache. -/
theorem make_idempotent_witness :
    (((TextureCache.construct false).make 7 1 0 0).2.make 7 1 0 0).1 =
      ((TextureCache.construct false).make 7 1 0 0).1 ∧
    (((TextureCache.construct false).make 7 1 0 0).2.make 7 1 0 0).2 =
      ((TextureCache.construct false).make 7 1 0 0).2 ∧
    (((TextureCache.construct false).make 7 1 0 0).2.make 7 1 0 1).1 ≠
      ((TextureCache.construct false).make 7 1 0 0).1 :=
  ⟨(make_idempotent sampleEnv (TextureCache.construct false) (Reachable.construct false)
      7 1 0 0).1,
   (make_idempotent sampleEnv (TextureCache.construct false) (Reachable.construct false)
      7 1 0 0).2.1,
   (make_idempotent sampleEnv (TextureCache.construct false) (Reachable.construct false)
      7 1 0 0).2.2.1 7 1 0 1 (Or.inr (Or.inr (Or.inr (by decide))))⟩

/-- C6: in every cache state reachable from the empty cache by `make`, `activate`,
`release` and `newFrame`, each handle that holds a texture occurs exactly once in
the two vectors `_active` and `_inactive` taken together, each handle that holds
no texture occurs in neither, and the sizes of the two vectors add up to the
number of handles that hold a texture. -/
theorem active_inactive_partition (env : LoadEnv) (c : TextureCache) (hc : Reachable env c) :
    (∀ h, c.isLoaded h = true → c._active.count h + c._inactive.count h = 1) ∧
    (∀ h, c.isLoaded h = false → h ∉ c._active ∧ h ∉ c._inactive) ∧
    c._active.length + c._inactive.length = c.numLoaded := by
  have hwf := reachable_wf env c hc
  have hna := ListOK_nodup _ _ _ hwf.act
  have hni := ListOK_nodup _ _ _ hwf.inact
  refine ⟨?_, ?_, ?_⟩
  · intro h hl
    rcases (wf_mem_iff c hwf h).mpr hl with hm | hm
    · rw [List.count_eq_one_of_mem hna hm,
        List.count_eq_zero_of_not_mem (wf_disjoint c hwf h hm)]
    · have hn : h ∉ c._active := fun h2 => wf_disjoint c hwf h h2 hm
      rw [List.count_eq_one_of_mem hni hm, List.count_eq_zero_of_not_mem hn]
  · intro h hl
    constructor
    · intro hm
      rw [(wf_mem_iff c hwf h).mp (Or.inl hm)] at hl
      exact absurd hl (by simp)
    · intro hm
      rw [(wf_mem_iff c hwf h).mp (Or.inr hm)] at hl
      exact absurd hl (by simp)
  · unfold TextureCache.numLoaded
    rw [← List.length_append]
    apply List.Perm.length_eq
    rw [List.perm_ext_iff_of_nodup
      (List.Nodup.append hna hni (fun g h1 h2 => wf_disjoint c hwf g h1 h2))
      (List.Nodup.filter _ (List.nodup_range _))]
    intro g
    rw [List.mem_append, List.mem_filter, List.mem_range, wf_mem_iff c hwf g]
    constructor
    · intro hl
      refine ⟨?_, hl⟩
      obtain ⟨o, ho, _⟩ := (isLoaded_iff c g).mp hl
      exact (List.getElem?_eq_some.mp ho).1
    · intro hl
      exact hl.2

/-- C6, on the cache with one active handle. -/
theorem active_inactive_partition_witness :
    (∀ h, cacheActive.isLoaded h = true →
      cacheActive._active.count h + cacheActive._inactive.count h = 1) ∧
    (∀ h, cacheActive.isLoaded h = false →
      h ∉ cacheActive._active ∧ h ∉ cacheActive._inactive) ∧
    cacheActive._active.length + cacheActive._inactive.length = cacheActive.numLoaded :=
  active_inactive_partition sampleEnv cacheActive cacheActive_reachable

/-- C8: in every reachable cache state, `release` on an active handle fails no
assertion; afterwards the handle is not active, it is a member of `_inactive` and
not of `_active`, it holds the texture it held before, and every other handle is
a member of `_active` and of `_inactive` exactly when it was before. -/
theorem release_moves_handle (env : LoadEnv) (c : TextureCache) (hc : Reachable env c) (h : Nat)
    (o : TileTexture) (ho : c.heap[h]? = some o) (ha : o.isActive = true) :
    ∃ c1, TileTexture.release c h = some c1 ∧
      (∃ o1 : TileTexture, c1.heap[h]? = some o1 ∧ o1.isActive = false ∧
        o1._txt = o._txt ∧ o1._txt ≠ none) ∧
      h ∈ c1._inactive ∧ h ∉ c1._active ∧
      (∀ g, g ≠ h →
        ((g ∈ c1._active ↔ g ∈ c._active) ∧ (g ∈ c1._inactive ↔ g ∈ c._inactive))) := by
  obtain ⟨c1, e, _, _, hobj, hm, hn, hfr⟩ := release_spec c (reachable_wf env c hc) h o ho ha
  exact ⟨c1, e, hobj, hm, hn, hfr⟩

/-- C8, on the cache with one active handle. -/
theorem release_moves_handle_witness :
    ∃ c1, TileTexture.release cacheActive 0 = some c1 ∧
      (∃ o1 : TileTexture, c1.heap[0]? = some o1 ∧ o1.isActive = false ∧
        o1._txt = some ⟨7, 1, 0, 0, true⟩ ∧ o1._txt ≠ none) ∧
      0 ∈ c1._inactive ∧ 0 ∉ c1._active ∧
      (∀ g, g ≠ 0 →
        ((g ∈ c1._active ↔ g ∈ cacheActive._active) ∧
          (g ∈ c1._inactive ↔ g ∈ cacheActive._inactive))) :=
  release_moves_handle sampleEnv cacheActive cacheActive_reachable 0
    { _txt := some ⟨7, 1, 0, 0, true⟩, _sampler := true, _tree := 7, _level := 1,
      _row := 0, _col := 0, _lastUsed := 0, _activeIdx := 0, _active := true,
      _mipmaps := true }
    (by decide) (by decide)

/-- C9: the code does not stamp a handle on activation.  After one `newFrame` the
clock is 1; a handle that is then made and activated has the time stamp 0, the
value the constructor gave it. -/
theorem activate_leaves_lastUsed :
    (stampScenario sampleEnv).map
        (fun c => (c._clock, c._active, c.heap.map (fun o => o._lastUsed))) =
      some (1, [0], [0]) := by
  decide

/-- C10: the code frees no texture.  After the handles A, B, C are made and
activated with `newFrame` between them and A and then B are released, the three
handles all hold their textures (three resident textures), A and B are in
`_inactive`, C is in `_active`, and the count `_numActive` is 0. -/
theorem scenarioD_frees_nothing :
    (scenarioD sampleEnv).map (fun c =>
      (c.heap.map (fun o => o._txt.isSome), c.numLoaded, c._inactive, c._active,
        c._numActive, c._clock)) =
      some ([true, true, true], 3, [0, 1], [2], 0, 2) := by
  decide

/-! ## The camera: auxiliary facts -/

theorem screenError_fst {F : Type} [LinearOrderedField F] (tan : F → F) (cam : Camera F)
    (hc : cam.Coherent tan) (dist err : F) :
    (cam.screenError tan dist err).1 = (cam._wid : F) / (2 * tan cam._halfFOV) * (err / dist) := by
  unfold Camera.screenError
  split
  · rfl
  · rename_i hneg
    rcases hc with h | h
    · exact absurd h hneg
    · simp only [h]

theorem step_coherent {F : Type} [LinearOrderedField F] (radians tan : F → F) (cam : Camera F)
    (hc : cam.Coherent tan) (c : CameraCall F) : (cam.step radians tan c).Coherent tan := by
  cases c with
  | setViewport wid ht => exact Or.inl (by simp [Camera.step, Camera.setViewport])
  | setFOV angle => exact Or.inl (by simp [Camera.step, Camera.setFOV])
  | screenError dist err =>
    simp only [Camera.step, Camera.screenError]
    split
    · exact Or.inr rfl
    · exact hc

/-- After a sequence of calls the cache is coherent, and the width and the half
field of view are the ones set last. -/
theorem run_spec {F : Type} [LinearOrderedField F] (radians tan : F → F)
    (calls : List (CameraCall F)) (cam : Camera F) (hc : cam.Coherent tan) :
    (cam.run radians tan calls).Coherent tan ∧
    (cam.run radians tan calls)._wid = (lastViewport calls).getD cam._wid ∧
    (cam.run radians tan calls)._halfFOV =
      ((lastFOV calls).map (fun a => radians (1 / 2 * a))).getD cam._halfFOV := by
  induction calls generalizing cam with
  | nil => exact ⟨hc, rfl, rfl⟩
  | cons c cs ih =>
    obtain ⟨h1, h2, h3⟩ := ih (cam.step radians tan c) (step_coherent radians tan cam hc c)
    refine ⟨h1, ?_, ?_⟩
    · show (Camera.run radians tan (cam.step radians tan c) cs)._wid = _
      rw [h2]
      simp only [lastViewport]
      cases hl : lastViewport cs with
      | some w => rfl
      | none =>
        cases c with
        | setViewport wid ht => rfl
        | setFOV angle => rfl
        | screenError dist err =>
          simp only [Option.orElse, CameraCall.width, Option.getD, Camera.step,
            Camera.screenError]
          split <;> rfl
    · show (Camera.run radians tan (cam.step radians tan c) cs)._halfFOV = _
      rw [h3]
      simp only [lastFOV]
      cases hl : lastFOV cs with
      | some w => rfl
      | none =>
        cases c with
        | setViewport wid ht => rfl
        | setFOV angle => rfl
        | screenError dist err =>
          simp only [Option.orElse, CameraCall.angle, Option.map, Option.getD, Camera.step,
            Camera.screenError]
          split <;> rfl

/-! ## The camera: the properties -/

/-- C11: after every sequence of calls of `setViewport`, `setFOV` and `screenError`
on a new camera, with at least one call of `setViewport` and one of `setFOV`, the
call `screenError(dist, err)` returns `wid / (2 * tan(halfFOV)) * (err / dist)` for
the width and the half field of view that were set last: the cached error factor
is never stale.  When that error factor is 500, `screenError(100, 1)` is 5. -/
theorem screenError_fresh {F : Type} [LinearOrderedField F] (radians tan : F → F)
    (uninit : Camera F) (calls : List (CameraCall F)) (wid : Int) (angle dist err : F)
    (hw : lastViewport calls = some wid) (ha : lastFOV calls = some angle) :
    (((Camera.construct uninit).run radians tan calls).screenError tan dist err).1 =
      (wid : F) / (2 * tan (radians (1 / 2 * angle))) * (err / dist) ∧
    ((wid : F) / (2 * tan (radians (1 / 2 * angle))) = 500 →
      (((Camera.construct uninit).run radians tan calls).screenError tan 100 1).1 = 5) := by
  have h0 : (Camera.construct uninit).Coherent tan := Or.inl (by simp [Camera.construct])
  obtain ⟨h1, h2, h3⟩ := run_spec radians tan calls _ h0
  rw [hw] at h2
  rw [ha] at h3
  have key : ∀ d e : F,
      (((Camera.construct uninit).run radians tan calls).screenError tan d e).1 =
        (wid : F) / (2 * tan (radians (1 / 2 * angle))) * (e / d) := by
    intro d e
    rw [screenError_fst tan _ h1, h2, h3]
    rfl
  refine ⟨key dist err, ?_⟩
  intro h500
  rw [key, h500]
  norm_num

/-- C11, on a sequence of calls over the rationals in which the viewport and the
field of view are set twice, with a call of `screenError` in between. -/
theorem screenError_fresh_witness :
    (((Camera.construct (⟨1, 2, 1, 0, 0, 0⟩ : Camera ℚ)).run (fun a => a) (fun _ => 1)
        sampleCalls).screenError (fun _ => 1) 100 1).1 =
      ((1000 : Int) : ℚ) / (2 * (fun _ => (1 : ℚ)) ((fun a => a) (1 / 2 * (90 : ℚ)))) * (1 / 100) ∧
    (((1000 : Int) : ℚ) / (2 * (fun _ => (1 : ℚ)) ((fun a => a) (1 / 2 * (90 : ℚ)))) = 500 →
      (((Camera.construct (⟨1, 2, 1, 0, 0, 0⟩ : Camera ℚ)).run (fun a => a) (fun _ => 1)
        sampleCalls).screenError (fun _ => 1) 100 1).1 = 5) :=
  screenError_fresh (fun a => a) (fun _ => 1) ⟨1, 2, 1, 0, 0, 0⟩ sampleCalls 1000 90 100 1
    (by rfl) (by rfl)

/-- C12: over the real numbers, for a camera with viewport width above 0 and half
field of view strictly between 0 and pi/2, and for positive `dist` and `err`,
`screenError(dist, err)` is strictly decreasing in `dist`, strictly increasing in
`err`, and strictly increasing in the viewport width. -/
theorem screenError_monotone (radians : ℝ → ℝ) (uninit : Camera ℝ)
    (calls : List (CameraCall ℝ)) (d1 d2 e1 e2 : ℝ) (w1 w2 ht : Int)
    (hw : 0 < ((Camera.construct uninit).run radians Real.tan calls)._wid)
    (hf0 : 0 < ((Camera.construct uninit).run radians Real.tan calls)._halfFOV)
    (hf1 : ((Camera.construct uninit).run radians Real.tan calls)._halfFOV < Real.pi / 2)
    (hd1 : 0 < d1) (hd : d1 < d2) (he1 : 0 < e1) (he : e1 < e2) (hw12 : w1 < w2) :
    (((Camera.construct uninit).run radians Real.tan calls).screenError Real.tan d2 e1).1 <
      (((Camera.construct uninit).run radians Real.tan calls).screenError Real.tan d1 e1).1 ∧
    (((Camera.construct uninit).run radians Real.tan calls).screenError Real.tan d1 e1).1 <
      (((Camera.construct uninit).run radians Real.tan calls).screenError Real.tan d1 e2).1 ∧
    ((((Camera.construct uninit).run radians Real.tan calls).setViewport w1 ht).screenError
        Real.tan d1 e1).1 <
      ((((Camera.construct uninit).run radians Real.tan calls).setViewport w2 ht).screenError
        Real.tan d1 e1).1 := by
  have h0 : (Camera.construct uninit).Coherent Real.tan := Or.inl (by simp [Camera.construct])
  obtain ⟨hc, _, _⟩ := run_spec radians Real.tan calls _ h0
  generalize (Camera.construct uninit).run radians Real.tan calls = cam at hw hf0 hf1 hc
  have ht0 : 0 < Real.tan cam._halfFOV := Real.tan_pos_of_pos_of_lt_pi_div_two hf0 hf1
  have hwr : (0 : ℝ) < (cam._wid : ℝ) := by exact_mod_cast hw
  have hfac : 0 < (cam._wid : ℝ) / (2 * Real.tan cam._halfFOV) := by positivity
  have hd2 : 0 < d2 := lt_trans hd1 hd
  have hv1 : (cam.setViewport w1 ht).Coherent Real.tan :=
    Or.inl (by simp [Camera.setViewport])
  have hv2 : (cam.setViewport w2 ht).Coherent Real.tan :=
    Or.inl (by simp [Camera.setViewport])
  rw [screenError_fst Real.tan cam hc, screenError_fst Real.tan cam hc,
    screenError_fst Real.tan cam hc, screenError_fst Real.tan _ hv1,
    screenError_fst Real.tan _ hv2]
  refine ⟨?_, ?_, ?_⟩
  · apply mul_lt_mul_of_pos_left _ hfac
    exact div_lt_div_of_pos_left he1 hd1 hd
  · apply mul_lt_mul_of_pos_left _ hfac
    exact div_lt_div_of_pos_right he hd1
  · show ((w1 : ℝ) / (2 * Real.tan cam._halfFOV)) * (e1 / d1) <
      ((w2 : ℝ) / (2 * Real.tan cam._halfFOV)) * (e1 / d1)
    have hed : 0 < e1 / d1 := div_pos he1 hd1
    apply mul_lt_mul_of_pos_right _ hed
    have hw12r : (w1 : ℝ) < (w2 : ℝ) := by exact_mod_cast hw12
    exact div_lt_div_of_pos_right hw12r (by positivity)

/-- C12, on a camera with a viewport of width 1000 and a half field of view of
pi/4. -/
theorem screenError_monotone_witness :
    (((Camera.construct (⟨1, 100, 1, Real.pi / 4, 0, 0⟩ : Camera ℝ)).run (fun a => a) Real.tan
        [.setViewport 1000 500]).screenError Real.tan 200 1).1 <
      (((Camera.construct (⟨1, 100, 1, Real.pi / 4, 0, 0⟩ : Camera ℝ)).run (fun a => a) Real.tan
        [.setViewport 1000 500]).screenError Real.tan 100 1).1 ∧
    (((Camera.construct (⟨1, 100, 1, Real.pi / 4, 0, 0⟩ : Camera ℝ)).run (fun a => a) Real.tan
        [.setViewport 1000 500]).screenError Real.tan 100 1).1 <
      (((Camera.construct (⟨1, 100, 1, Real.pi / 4, 0, 0⟩ : Camera ℝ)).run (fun a => a) Real.tan
        [.setViewport 1000 500]).screenError Real.tan 100 2).1 ∧
    ((((Camera.construct (⟨1, 100, 1, Real.pi / 4, 0, 0⟩ : Camera ℝ)).run (fun a => a) Real.tan
        [.setViewport 1000 500]).setViewport 800 600).screenError Real.tan 100 1).1 <
      ((((Camera.construct (⟨1, 100, 1, Real.pi / 4, 0, 0⟩ : Camera ℝ)).run (fun a => a) Real.tan
        [.setViewport 1000 500]).setViewport 1600 600).screenError Real.tan 100 1).1 :=
  screenError_monotone (fun a => a) ⟨1, 100, 1, Real.pi / 4, 0, 0⟩ [.setViewport 1000 500]
    100 200 1 2 800 1600 600
    (by show (0 : Int) < 1000; decide)
    (by show (0 : ℝ) < Real.pi / 4; positivity)
    (by show Real.pi / 4 < Real.pi / 2; linarith [Real.pi_pos])
    (by norm_num) (by norm_num) (by norm_num) (by norm_num) (by decide)

/-! ## View-frustum culling: auxiliary facts -/

theorem notCulledBy_iff (c : Outcode) (p : Nat) :
    c.notCulledBy p = true ↔ c._planes.testBit p = false := by
  unfold Outcode.notCulledBy
  rw [Nat.one_shiftLeft, Nat.and_two_pow]
  cases c._planes.testBit p <;> simp

theorem clearPlane_testBit (c : Outcode) (p i : Nat) :
    (c.clearPlane p)._planes.testBit i =
      (decide (i < 8) && (c._planes.testBit i && decide (i ≠ p))) := by
  unfold Outcode.clearPlane
  simp only
  have h8 : (256 : Nat) = 2 ^ 8 := by norm_num
  have h32 : (4294967295 : Nat) = 2 ^ 32 - 1 := by norm_num
  rw [h8, Nat.testBit_mod_two_pow, Nat.testBit_and, Nat.testBit_xor, h32,
    Nat.testBit_two_pow_sub_one, Nat.one_shiftLeft, Nat.testBit_two_pow]
  by_cases h1 : i < 8
  · have h2 : i < 32 := by omega
    by_cases h3 : p = i
    · subst h3
      simp [h2]
    · have h4 : i ≠ p := fun e => h3 e.symm
      simp [h1, h2, h3, h4]
  · simp [h1]

theorem clearPlane_culled (c : Outcode) (p : Nat) : (c.clearPlane p)._culled = c._culled := rfl

theorem allIn_iff (c : Outcode) : c.allIn = true ↔ c._planes = 0 := by
  unfold Outcode.allIn
  simp

/-- A plane bit that is cleared stays cleared through the loop. -/
theorem planeLoop_cleared {F : Type} [LinearOrderedRing F] (f : Frustum F)
    (corner : Fin 8 → Vec3 F) (p : Nat) (l : List (Fin 6)) (code : Outcode)
    (h : code._planes.testBit p = false) :
    (f.planeLoop corner l code)._planes.testBit p = false := by
  induction l generalizing code with
  | nil => exact h
  | cons i rest ih =>
    unfold Frustum.planeLoop
    have hc : (code.clearPlane i.val)._planes.testBit p = false := by
      rw [clearPlane_testBit, h]
      simp
    split
    · exact ih code h
    · split
      · exact Nat.zero_testBit p
      · split
        · split
          · exact hc
          · exact ih _ hc
        · exact ih code h

/-- The loop does not look at a plane whose bit is cleared. -/
theorem planeLoop_skips {F : Type} [LinearOrderedRing F] (f f2 : Frustum F)
    (corner : Fin 8 → Vec3 F) (p : Fin 6) (hsame : ∀ j, j ≠ p → f2._sides j = f._sides j)
    (l : List (Fin 6)) (code : Outcode) (h : code._planes.testBit p.val = false) :
    f2.planeLoop corner l code = f.planeLoop corner l code := by
  induction l generalizing code with
  | nil => rfl
  | cons i rest ih =>
    have hc : (code.clearPlane i.val)._planes.testBit p.val = false := by
      rw [clearPlane_testBit, h]
      simp
    by_cases hi : i = p
    · subst hi
      have hn : code.notCulledBy i.val = true := (notCulledBy_iff code i.val).mpr h
      unfold Frustum.planeLoop
      rw [if_pos hn, if_pos hn]
      exact ih code h
    · unfold Frustum.planeLoop
      rw [hsame i hi, ih code h, ih _ hc]

/-- A plane whose bit is set and that has no corner of the box inside culls the
box, when the loop reaches it. -/
theorem planeLoop_culled {F : Type} [LinearOrderedRing F] (f : Frustum F)
    (corner : Fin 8 → Vec3 F) (p : Fin 6) (hn : nCornersIn (f._sides p) corner = 0)
    (l : List (Fin 6)) (hp : p ∈ l) (code : Outcode)
    (h : code._planes.testBit p.val = true) :
    (f.planeLoop corner l code)._culled = true := by
  induction l generalizing code with
  | nil => simp at hp
  | cons i rest ih =>
    by_cases hi : i = p
    · subst hi
      have hnc : ¬ code.notCulledBy i.val = true := by
        rw [notCulledBy_iff, h]
        simp
      unfold Frustum.planeLoop
      rw [if_neg hnc, if_pos hn]
    · have hrest : p ∈ rest := by
        rcases List.mem_cons.mp hp with h1 | h1
        · exact absurd h1.symm hi
        · exact h1
      have hpi : p.val ≠ i.val := fun e => hi (Fin.ext e.symm)
      have hp8 : p.val < 8 := by have := p.isLt; omega
      have hc : (code.clearPlane i.val)._planes.testBit p.val = true := by
        rw [clearPlane_testBit, h]
        simp [hp8, hpi]
      have hnot : ¬ (code.clearPlane i.val).allIn = true := by
        rw [allIn_iff]
        intro e
        rw [e, Nat.zero_testBit] at hc
        exact absurd hc (by simp)
      unfold Frustum.planeLoop
      split
      · exact ih hrest code h
      · split
        · rfl
        · split
          · exact ih hrest _ hc
          · exact ih hrest code h

theorem nCornersIn_eq_zero {F : Type} [LinearOrderedRing F] (pl : Plane F)
    (corner : Fin 8 → Vec3 F) (h : ∀ j, pl.distanceToPt (corner j) < 0) :
    nCornersIn pl corner = 0 := by
  unfold nCornersIn
  rw [List.countP_eq_zero]
  intro j _
  simp only [ge_iff_le, decide_eq_true_eq, not_le]
  exact h j

/-! ## View-frustum culling: the properties -/

/-- C13: for every frustum and every box whose eight corners all have a negative
distance to the near plane, `intersectBox` called with the initial outcode (not
culled, the six plane bits set) fails no assertion and returns an outcode with
`culled = true`, wherever the box lies relative to the other five planes. -/
theorem near_outside_culled {F : Type} [LinearOrderedRing F] (f : Frustum F)
    (corner : Fin 8 → Vec3 F)
    (h : ∀ j, (f._sides Frustum.NEAR).distanceToPt (corner j) < 0) :
    ∃ r, f.intersectBoxInit corner = some r ∧ r.culled = true := by
  refine ⟨f.planeLoop corner (List.finRange 6) Outcode.construct, rfl, ?_⟩
  apply planeLoop_culled f corner Frustum.NEAR (nCornersIn_eq_zero _ corner h)
  · exact List.mem_finRange _
  · decide

/-- C13, on a box in front of the near plane that is inside the other planes. -/
theorem near_outside_culled_witness :
    ∃ r, sampleFrustum.intersectBoxInit boxBeyondNear = some r ∧ r.culled = true :=
  near_outside_culled sampleFrustum boxBeyondNear (by decide)

/-- C14: for every frustum, box and parent outcode that `intersectBox` accepts and
every plane `i`, if bit `i` is cleared in the parent outcode then it is cleared in
the outcode that `intersectBox` returns, and the result is the same for every
frustum that differs in the plane `i` only: the plane is skipped. -/
theorem cleared_plane_inherited {F : Type} [LinearOrderedRing F] (f f2 : Frustum F)
    (corner : Fin 8 → Vec3 F) (parent r : Outcode) (i : Fin 6)
    (hclear : parent.notCulledBy i.val = true)
    (hres : f.intersectBox corner parent = some r)
    (hsame : ∀ j, j ≠ i → f2._sides j = f._sides j) :
    r.notCulledBy i.val = true ∧ f2.intersectBox corner parent = some r := by
  have hbit := (notCulledBy_iff parent i.val).mp hclear
  unfold Frustum.intersectBox at hres ⊢
  split at hres
  · rename_i hpre
    have hr := Option.some.inj hres
    rw [if_pos hpre, planeLoop_skips f f2 corner i hsame _ parent hbit, hr]
    refine ⟨?_, rfl⟩
    rw [notCulledBy_iff, ← hr]
    exact planeLoop_cleared f corner i.val _ parent hbit
  · simp at hres

/-- C14, on a parent outcode in which the bit of the near plane is cleared, a box
in front of the near plane and across the left plane, and two frustums that differ
in the near plane. -/
theorem cleared_plane_inherited_witness :
    (⟨false, 0x01⟩ : Outcode).notCulledBy Frustum.NEAR.val = true ∧
    sampleFrustum2.intersectBox boxAcrossLeft ⟨false, 0x2f⟩ = some ⟨false, 0x01⟩ :=
  cleared_plane_inherited sampleFrustum sampleFrustum2 boxAcrossLeft ⟨false, 0x2f⟩ ⟨false, 0x01⟩
    Frustum.NEAR (by decide) (by decide) (by decide)

/-- C15, refuted: a parent outcode that is not culled and has its six plane bits
cleared fails the assertion of `intersectBox`. -/
theorem intersectBox_allIn_fails :
    (⟨false, 0⟩ : Outcode).culled = false ∧
    sampleFrustum.intersectBox boxAcrossLeft ⟨false, 0⟩ = none := by
  decide

/-- C15, amended: `intersectBox` fails no assertion exactly when the parent
outcode is not culled and not all-in (some plane bit is set); the result of a call
that fails no assertion is the result of the loop over the six planes. -/
theorem intersectBox_precondition {F : Type} [LinearOrderedRing F] (f : Frustum F)
    (corner : Fin 8 → Vec3 F) (parent : Outcode) :
    ((f.intersectBox corner parent).isSome = true ↔
      (parent.culled = false ∧ parent.allIn = false)) ∧
    (parent.allIn = true → f.intersectBox corner parent = none) ∧
    (parent.culled = false → parent.allIn = false →
      f.intersectBox corner parent = some (f.planeLoop corner (List.finRange 6) parent)) := by
  unfold Frustum.intersectBox
  cases hc : parent.culled <;> cases ha : parent.allIn <;> simp

/-! ## Map cells: auxiliary facts -/

theorem qtree_fullSize_eq (d : Nat) : qtree.fullSize d = fullSize d := rfl

theorem fullSize_rec (l : Nat) (hl : l < 15) : fullSize (l + 1) = 4 * fullSize l + 1 := by
  interval_cases l <;> decide

/-- The level of a node is determined by its index. -/
theorem level_unique (k L1 L2 : Nat) (h1 : L1 < 15) (h2 : L2 < 15)
    (a1 : fullSize L1 ≤ k) (b1 : k < fullSize (L1 + 1))
    (a2 : fullSize L2 ≤ k) (b2 : k < fullSize (L2 + 1)) : L1 = L2 := by
  rcases Nat.lt_trichotomy L1 L2 with h | h | h
  · have := fullSize_mono (L1 + 1) L2 (by omega) (by omega)
    omega
  · exact h
  · have := fullSize_mono (L2 + 1) L1 (by omega) (by omega)
    omega

theorem fullSize_le_nine (d : Nat) (hd : d ≤ 9) : fullSize d ≤ 87381 := by
  interval_cases d <;> decide

theorem nwChild_small (id : Nat) (h : id < 87381) : qtree.nwChild id = 4 * id + 1 := by
  unfold qtree.nwChild u32
  rw [shl32_two id (by omega)]
  exact Nat.mod_eq_of_lt (by omega)

theorem toInt32_ofNat_small (v : Nat) (hv : v < 2147483648) : toInt32 v = (v : Int) := by
  unfold toInt32
  rw [Nat.mod_eq_of_lt (by omega), if_pos hv]

theorem ofInt32_ofNat_small (n : Nat) (hn : n < 4294967296) : ofInt32 (n : Int) = n := by
  unfold ofInt32
  omega

theorem u32_small (n : Nat) (hn : n < 4294967296) : u32 n = n := Nat.mod_eq_of_lt hn

/-- The children of a node on level `L` are on level `L + 1`. -/
theorem kid_level (id L j : Nat) (hL : L + 1 < 15) (hj : j < 4)
    (a : fullSize L ≤ id) (b : id < fullSize (L + 1)) :
    fullSize (L + 1) ≤ 4 * id + 1 + j ∧ 4 * id + 1 + j < fullSize (L + 1 + 1) := by
  have h1 := fullSize_rec L (by omega)
  have h2 := fullSize_rec (L + 1) (by omega)
  omega

theorem getTile_setTile (c c1 : Cell) (k j : Nat) (f : Tile → Tile)
    (h : c.setTile k f = some c1) :
    c1.getTile j = if j = k then (c.getTile k).map f else c.getTile j := by
  unfold Cell.setTile at h
  split at h
  · simp at h
  · rename_i tiles ht
    split at h
    · simp at h
    · rename_i t hk
      have e := Option.some.inj h
      subst e
      have hkl : k < tiles.length := (List.getElem?_eq_some.mp hk).1
      simp only [Cell.getTile, ht, List.getElem?_set, hk, Option.map]
      by_cases hjk : j = k
      · subst hjk
        simp [hkl]
      · have : ¬ k = j := fun e => hjk e.symm
        simp [hjk, this]

theorem setTile_ok (d : Nat) (c : Cell) (hc : CellOK d c) (k : Nat) (hk : k < fullSize d)
    (f : Tile → Tile) : ∃ c1, c.setTile k f = some c1 ∧ CellOK d c1 := by
  obtain ⟨h1, h2, h3, h4, tiles, ht, hlen⟩ := hc
  have hkl : k < tiles.length := by omega
  refine ⟨{ c with _tiles := some (tiles.set k (f tiles[k])) }, ?_, ?_⟩
  · unfold Cell.setTile
    rw [ht]
    simp only [List.getElem?_eq_getElem hkl]
  · exact ⟨h1, h2, h3, h4, _, rfl, by rw [List.length_set]; exact hlen⟩

theorem cell_tile_eq (d : Nat) (c : Cell) (hc : CellOK d c) (k : Nat) (hk : k < fullSize d) :
    c.tile (k : Int) = some k := by
  obtain ⟨h1, h2, h3, h4, tiles, ht, hlen⟩ := hc
  have h9 := fullSize_le_nine d h3
  unfold Cell.tile Cell.isLoaded
  rw [ht, ofInt32_ofNat_small k (by omega), h4]
  simp [hk]

theorem cell_depth_eq (d : Nat) (c : Cell) (hc : CellOK d c) : c.depth = (d : Int) := by
  obtain ⟨h1, h2, h3, _⟩ := hc
  unfold Cell.depth
  rw [h1, toInt32_ofNat_small d (by omega)]

/-- On a tile that is not on the last level, `child(i)` is the tile at index
`nwChild(id) + i`, and the assertion of `Cell::tile` holds. -/
theorem child_eq (d : Nat) (c : Cell) (hc : CellOK d c) (t : Tile) (id L : Nat) (i : Int)
    (hid : t._id = id) (hlod : t._lod = (L : Int)) (hL : L + 1 < d)
    (hb : id < fullSize (L + 1)) (a : fullSize L ≤ id) (hi0 : 0 ≤ i) (hi4 : i < 4) :
    Tile.child c t i = some (some (4 * id + 1 + i.toNat)) ∧
    qtree.nwChild id + i.toNat = 4 * id + 1 + i.toNat ∧
    4 * id + 1 + i.toNat < fullSize d := by
  have hd9 : d ≤ 9 := hc.2.2.1
  have h9 := fullSize_le_nine d hd9
  have hmono := fullSize_mono (L + 1) d (by omega) (by omega)
  have hkl := kid_level id L i.toNat (by omega) (by omega) a hb
  have hmono2 := fullSize_mono (L + 1 + 1) d (by omega) (by omega)
  have hnw := nwChild_small id (by omega)
  have hlt : 4 * id + 1 + i.toNat < fullSize d := by omega
  refine ⟨?_, by rw [hnw], hlt⟩
  have hofi : ofInt32 i = i.toNat := by
    unfold ofInt32
    omega
  have harg : toInt32 (u32 (qtree.nwChild t._id + ofInt32 i)) = ((4 * id + 1 + i.toNat : Nat) : Int) := by
    rw [hid, hnw, hofi, u32_small _ (by omega), toInt32_ofNat_small _ (by omega)]
  unfold Tile.child
  rw [if_pos ⟨hi0, hi4⟩, cell_depth_eq d c hc, hlod, if_pos (by omega), harg,
    cell_tile_eq d c hc _ hlt]

/-- On a tile of the last level, `child(i)` is `nullptr`. -/
theorem child_leaf (d : Nat) (c : Cell) (hc : CellOK d c) (t : Tile) (L : Nat) (i : Int)
    (hlod : t._lod = (L : Int)) (hL : ¬ L + 1 < d) (hi0 : 0 ≤ i) (hi4 : i < 4) :
    Tile.child c t i = some none := by
  unfold Tile.child
  rw [if_pos ⟨hi0, hi4⟩, cell_depth_eq d c hc, hlod, if_neg (by omega)]

theorem initKid_eq (d : Nat) (init : Cell → Nat → Nat → Nat → Nat → Nat → Option Cell)
    (cur : Cell) (hc : CellOK d cur) (id lod row col dr dc : Nat) (i : Int)
    (hg : GoodAt d cur id) (a : fullSize lod ≤ id) (b : id < fullSize (lod + 1))
    (hL : lod + 1 < d) (hi0 : 0 ≤ i) (hi4 : i < 4) :
    Tile.initKid init id (toInt32 (qtree.nwChild id)) row col lod cur i dr dc =
      init cur (4 * id + 1 + i.toNat) (4 * id + 1 + i.toNat) (u32 (row + dr)) (u32 (col + dc))
        (lod + 1) := by
  obtain ⟨t, ht, hid, L, hlod, hLd, a1, b1⟩ := hg
  have hd9 : d ≤ 9 := hc.2.2.1
  have hLL : L = lod := level_unique id L lod (by omega) (by omega) a1 b1 a b
  subst hLL
  obtain ⟨hch, _, hlt⟩ := child_eq d cur hc t id L i hid hlod hL b a hi0 hi4
  have h9 := fullSize_le_nine d hd9
  have hnw := nwChild_small id (by omega)
  have harg : ofInt32 (toInt32 (qtree.nwChild id) + i) = 4 * id + 1 + i.toNat := by
    rw [hnw, toInt32_ofNat_small _ (by omega)]
    unfold ofInt32
    omega
  unfold Tile.initKid
  rw [ht]
  simp only [hch, harg, u32_small (L + 1) (by omega)]

theorem desc_zero (id k : Nat) (h : Desc id 0 k) : k = id := by
  cases h
  rfl

/-- What `Tile::_init` establishes: with enough depth allowed it returns, the
tiles of the subtree of `id` down to the last level are initialised, and the tiles
that were initialised stay so. -/
theorem init_spec (m d : Nat) : ∀ (fuel : Nat) (c : Cell) (id row col lod : Nat),
    CellOK d c → lod < d → d ≤ lod + fuel → fullSize lod ≤ id → id < fullSize (lod + 1) →
    ∃ c1, Tile._init m fuel c id id row col lod = some c1 ∧ CellOK d c1 ∧
      (∀ n k, Desc id n k → lod + n < d → GoodAt d c1 k) ∧
      (∀ k, GoodAt d c k → GoodAt d c1 k) := by
  intro fuel
  induction fuel with
  | zero =>
    intro c id row col lod _ h1 h2
    omega
  | succ fuel ih =>
    intro c id row col lod hc hlod hfuel a b
    have hd9 : d ≤ 9 := hc.2.2.1
    have h9 := fullSize_le_nine d hd9
    have hidd : id < fullSize d := by
      have := fullSize_mono (lod + 1) d (by omega) (by omega)
      omega
    obtain ⟨c1, hset, hc1⟩ := setTile_ok d c hc id hidd
      (fun t => { t with _id := id, _row := row, _col := col, _lod := toInt32 lod })
    have hget := getTile_setTile c c1 id
    -- the tile at `id` is initialised
    have hself : GoodAt d c1 id := by
      obtain ⟨_, _, _, _, tiles, ht, hlen⟩ := hc
      have hlt : id < tiles.length := by omega
      have hex : c.getTile id = some tiles[id] := by
        unfold Cell.getTile
        rw [ht]
        exact List.getElem?_eq_getElem hlt
      refine ⟨{ tiles[id] with _id := id, _row := row, _col := col, _lod := toInt32 lod },
        ?_, rfl, lod, ?_, hlod, a, b⟩
      · rw [hget id _ hset, if_pos rfl, hex]
        rfl
      · exact toInt32_ofNat_small lod (by omega)
    have hkeep1 : ∀ k, GoodAt d c k → GoodAt d c1 k := by
      intro k hk
      by_cases hki : k = id
      · rw [hki]
        exact hself
      · obtain ⟨t, ht, hg⟩ := hk
        exact ⟨t, by rw [hget k _ hset, if_neg hki]; exact ht, hg⟩
    have hcond : (u32 (lod + 1) < ofInt32 c1.depth) ↔ lod + 1 < d := by
      rw [cell_depth_eq d c1 hc1, ofInt32_ofNat_small d (by omega), u32_small _ (by omega)]
    rw [Tile._init, hset]
    simp only
    by_cases hL : lod + 1 < d
    · rw [if_pos (hcond.mpr hL)]
      -- the four children, in turn
      have turn : ∀ (cur : Cell) (dr dc : Nat) (i : Int), 0 ≤ i → i < 4 →
          CellOK d cur → GoodAt d cur id →
          ∃ c2, Tile.initKid (Tile._init m fuel) id (toInt32 (qtree.nwChild id)) row col lod
              cur i dr dc = some c2 ∧ CellOK d c2 ∧
            (∀ n k, Desc (4 * id + 1 + i.toNat) n k → lod + 1 + n < d → GoodAt d c2 k) ∧
            (∀ k, GoodAt d cur k → GoodAt d c2 k) := by
        intro cur dr dc i hi0 hi4 hcur hg
        rw [initKid_eq d _ cur hcur id lod row col dr dc i hg a b hL hi0 hi4]
        have hkl := kid_level id lod i.toNat (by omega) (by omega) a b
        exact ih cur (4 * id + 1 + i.toNat) _ _ (lod + 1) hcur hL (by omega) hkl.1 hkl.2
      obtain ⟨c2, e2, hc2, hd2, hk2⟩ := turn c1 0 0 0 (by decide) (by decide) hc1 hself
      obtain ⟨c3, e3, hc3, hd3, hk3⟩ := turn c2 0
        (ofInt32 (Cell.width m >>> u32 (lod + 1))) 1 (by decide) (by decide) hc2
        (hk2 id hself)
      obtain ⟨c4, e4, hc4, hd4, hk4⟩ := turn c3 (ofInt32 (Cell.width m >>> u32 (lod + 1)))
        (ofInt32 (Cell.width m >>> u32 (lod + 1))) 2 (by decide) (by decide) hc3
        (hk3 id (hk2 id hself))
      obtain ⟨c5, e5, hc5, hd5, hk5⟩ := turn c4 (ofInt32 (Cell.width m >>> u32 (lod + 1)))
        0 3 (by decide) (by decide) hc4 (hk4 id (hk3 id (hk2 id hself)))
      refine ⟨c5, ?_, hc5, ?_, ?_⟩
      · rw [e2]
        simp only [Option.bind]
        rw [e3]
        simp only
        rw [e4]
        simp only
        exact e5
      · intro n k hdesc hn
        cases hdesc with
        | self => exact hk5 _ (hk4 _ (hk3 _ (hk2 _ hself)))
        | kid _ n1 _ i hi hsub =>
          have hn1 : lod + 1 + n1 < d := by omega
          interval_cases i
          · exact hk5 _ (hk4 _ (hk3 _ (hd2 n1 k hsub hn1)))
          · exact hk5 _ (hk4 _ (hd3 n1 k hsub hn1))
          · exact hk5 _ (hd4 n1 k hsub hn1)
          · exact hd5 n1 k hsub hn1
      · intro k hk
        exact hk5 _ (hk4 _ (hk3 _ (hk2 _ (hkeep1 k hk))))
    · rw [if_neg (fun h => hL (hcond.mp h))]
      refine ⟨c1, rfl, hc1, ?_, hkeep1⟩
      intro n k hdesc hn
      have hn0 : n = 0 := by omega
      subst hn0
      rw [desc_zero id k hdesc]
      exact hself

/-- A descendant of a descendant. -/
theorem desc_snoc (id n p i : Nat) (hi : i < 4) (h : Desc id n p) :
    Desc id (n + 1) (4 * p + 1 + i) := by
  induction h with
  | self id => exact Desc.kid id 0 _ i hi (Desc.self _)
  | kid id n k j hj _ ih => exact Desc.kid id (n + 1) _ j hj ih

/-- Every node of level `L` is a descendant of the root, `L` levels below it. -/
theorem desc_root (L : Nat) (hL : L < 15) : ∀ k, fullSize L ≤ k → k < fullSize (L + 1) →
    Desc 0 L k := by
  induction L with
  | zero =>
    intro k _ h2
    have : fullSize (0 + 1) = 1 := by decide
    have hk : k = 0 := by omega
    rw [hk]
    exact Desc.self 0
  | succ L ih =>
    intro k h1 h2
    have r1 := fullSize_rec L (by omega)
    have r2 := fullSize_rec (L + 1) (by omega)
    have hk : k = 4 * ((k - 1) / 4) + 1 + (k - 1) % 4 := by omega
    rw [hk]
    apply desc_snoc 0 L _ _ (Nat.mod_lt _ (by decide))
    apply ih (by omega)
    · omega
    · omega

/-- Every index below `fullSize d` is on a level below `d`. -/
theorem level_exists (d : Nat) (hd : d ≤ 15) : ∀ k, k < fullSize d →
    ∃ L, L < d ∧ fullSize L ≤ k ∧ k < fullSize (L + 1) := by
  induction d with
  | zero =>
    intro k hk
    have : fullSize 0 = 0 := by decide
    omega
  | succ n ih =>
    intro k hk
    by_cases h : k < fullSize n
    · obtain ⟨L, h1, h2, h3⟩ := ih (by omega) k h
      exact ⟨L, by omega, h2, h3⟩
    · exact ⟨n, by omega, by omega, hk⟩

/-- The loop that loads the mesh data keeps the number of tiles and the fields
`_id`, `_row`, `_col` and `_lod` of every tile. -/
theorem loadChunks_fields (junk : Nat → Nat) : ∀ (tiles : List Tile) (s : IfStream)
    (toc : List Int) (tiles1 : List Tile), loadChunks junk s toc tiles = some tiles1 →
    tiles1.length = tiles.length ∧
    ∀ (k : Nat) (t1 : Tile), tiles1[k]? = some t1 →
      ∃ t : Tile, tiles[k]? = some t ∧ t1._id = t._id ∧ t1._lod = t._lod ∧
        t1._row = t._row ∧ t1._col = t._col := by
  intro tiles
  induction tiles with
  | nil =>
    intro s toc tiles1 h
    simp only [loadChunks, Option.some.injEq] at h
    subst h
    exact ⟨rfl, fun k t1 hk => by simp at hk⟩
  | cons t ts ih =>
    intro s toc tiles1 h
    cases toc with
    | nil => simp [loadChunks] at h
    | cons off toc =>
      rw [loadChunks] at h
      split at h
      · simp at h
      · rename_i cp s1 _
        split at h
        · simp at h
        · rename_i rest hrest
          have e := Option.some.inj h
          subst e
          obtain ⟨hlen, hf⟩ := ih s1 toc rest hrest
          refine ⟨by simp [hlen], ?_⟩
          intro k t1 hk
          cases k with
          | zero =>
            simp only [List.getElem?_cons_zero, Option.some.injEq] at hk
            subst hk
            exact ⟨t, by simp, rfl, rfl, rfl, rfl⟩
          | succ k =>
            simp only [List.getElem?_cons_succ] at hk ⊢
            exact hf k t1 hk

/-- What a call of `Cell::load` on a new cell that returns has done. -/
theorem load_some (m : Nat) (uninit : Nat → Tile) (junk : Nat → Nat)
    (file : Option (List Nat)) (r col : Nat) (c1 : Cell)
    (h : Cell.load m uninit junk file (Cell.construct r col) = some c1) :
    ∃ (d : Nat) (c0 : Cell) (tiles tiles1 : List Tile) (s : IfStream) (toc : List Int),
      1 ≤ d ∧ d ≤ 9 ∧
      Tile._init m d
        { (Cell.construct r col) with
            _nLODs := d
            _nTiles := qtree.fullSize d
            _tiles := some ((List.range (qtree.fullSize d)).map
              (fun k => Tile.construct (uninit k))) } 0 0 0 0 0 = some c0 ∧
      c0._tiles = some tiles ∧ loadChunks junk s toc tiles = some tiles1 ∧
      c1 = { c0 with _tiles := some tiles1 } := by
  unfold Cell.load at h
  have hnl : (Cell.construct r col).isLoaded = false := rfl
  rw [hnl] at h
  simp only [Bool.false_eq_true, if_false] at h
  cases file with
  | none => simp at h
  | some bytes =>
    simp only [Option.bind_eq_some] at h
    obtain ⟨⟨magic, s1⟩, _, h⟩ := h
    simp only [Option.bind_eq_some] at h
    obtain ⟨⟨compressed, s2⟩, _, h⟩ := h
    simp only [Option.bind_eq_some] at h
    obtain ⟨⟨size, s3⟩, _, h⟩ := h
    simp only [Option.bind_eq_some] at h
    obtain ⟨⟨nLODs, s4⟩, _, h⟩ := h
    simp only at h
    split at h
    · simp at h
    · split at h
      · simp at h
      · split at h
        · simp at h
        · rename_i hrange
          split at h
          · simp at h
          · simp only [Option.bind_eq_some] at h
            obtain ⟨⟨toc, s5⟩, _, h⟩ := h
            simp only [Option.bind_eq_some] at h
            obtain ⟨c0, hinit, h⟩ := h
            split at h
            · simp at h
            · rename_i tiles htiles
              simp only [Option.bind_eq_some, Option.some.injEq] at h
              obtain ⟨tiles1, hch, h⟩ := h
              refine ⟨nLODs, c0, tiles, tiles1, s5, toc, ?_, ?_, hinit, htiles, hch, h.symm⟩
              · unfold Cell.kMinLODs at hrange
                omega
              · unfold Cell.kMaxLODs at hrange
                omega

/-- In a loaded cell every tile is initialised. -/
theorem load_spec (m : Nat) (uninit : Nat → Tile) (junk : Nat → Nat)
    (file : Option (List Nat)) (r col : Nat) (c1 : Cell)
    (h : Cell.load m uninit junk file (Cell.construct r col) = some c1) :
    ∃ d, CellOK d c1 ∧ ∀ k, k < fullSize d → GoodAt d c1 k := by
  obtain ⟨d, c0, tiles, tiles1, s, toc, hd1, hd9, hinit, htiles, hch, hc1⟩ :=
    load_some m uninit junk file r col c1 h
  have hstart : CellOK d
      { (Cell.construct r col) with
          _nLODs := d
          _nTiles := qtree.fullSize d
          _tiles := some ((List.range (qtree.fullSize d)).map
            (fun k => Tile.construct (uninit k))) } :=
    ⟨rfl, hd1, hd9, rfl, _, rfl, by simp [qtree_fullSize_eq]⟩
  have h1 : fullSize (0 + 1) = 1 := by decide
  have h0 : fullSize 0 = 0 := by decide
  obtain ⟨c0b, e, hc0, hdesc, _⟩ := init_spec m d d _ 0 0 0 0 hstart (by omega) (by omega)
    (by omega) (by omega)
  rw [hinit] at e
  have e2 := Option.some.inj e
  subst e2
  obtain ⟨hlen, hf⟩ := loadChunks_fields junk tiles s toc tiles1 hch
  obtain ⟨q1, q2, q3, q4, tl, htl, hl⟩ := hc0
  rw [htiles] at htl
  have e3 := Option.some.inj htl
  subst e3
  refine ⟨d, ?_, ?_⟩
  · rw [hc1]
    exact ⟨q1, q2, q3, q4, tiles1, rfl, by omega⟩
  · intro k hk
    obtain ⟨L, hL, a, b⟩ := level_exists d (by omega) k hk
    obtain ⟨t, ht, hid, L2, hlod, hg⟩ := hdesc L k (desc_root L (by omega) k a b) (by omega)
    have hk1 : k < tiles1.length := by omega
    obtain ⟨t0, ht0, f1, f2, _, _⟩ := hf k tiles1[k] (List.getElem?_eq_getElem hk1)
    have ht' : tiles[k]? = some t := by
      unfold Cell.getTile at ht
      rw [htiles] at ht
      exact ht
    rw [ht0] at ht'
    have e4 := Option.some.inj ht'
    subst e4
    refine ⟨tiles1[k], ?_, ?_, L2, ?_, hg⟩
    · rw [hc1]
      exact List.getElem?_eq_getElem hk1
    · rw [f1]
      exact hid
    · rw [f2]
      exact hlod

set_option maxRecDepth 100000 in
theorem sampleCell_loaded :
    Cell.load 256 (fun _ => zeroTile) (fun _ => 0xCD) (some sampleCellFile)
      (Cell.construct 0 0) = some sampleCell := by
  decide

/-! ## Map cells: the properties -/

/-- C16: in every loaded cell of depth `d`, the tile stored at index `id` has
`_id = id`; when its level of detail `L` has `L + 1 < d`, `numChildren()` is 4 and
`child(i)` for `i` in 0..3 is the tile stored at index `nwChild(id) + i`, which is
below the number of tiles `fullSize(d)`, so that the assertion of `Cell::tile`
holds; otherwise `L + 1 = d`, `numChildren()` is 0 and `child(i)` is null. -/
theorem tile_children (m : Nat) (uninit : Nat → Tile) (junk : Nat → Nat)
    (file : Option (List Nat)) (r col : Nat) (c1 : Cell) (id : Nat) (t : Tile)
    (hload : Cell.load m uninit junk file (Cell.construct r col) = some c1)
    (ht : c1.getTile id = some t) :
    c1._nTiles = qtree.fullSize c1._nLODs ∧ t._id = id ∧
    (t._lod + 1 < c1.depth →
      t.numChildren c1 = 4 ∧
      ∀ i : Int, 0 ≤ i → i < 4 →
        Tile.child c1 t i = some (some (qtree.nwChild id + i.toNat)) ∧
        qtree.nwChild id + i.toNat < qtree.fullSize c1._nLODs ∧
        ∃ kid : Tile, c1.getTile (qtree.nwChild id + i.toNat) = some kid) ∧
    (¬ t._lod + 1 < c1.depth →
      t.numChildren c1 = 0 ∧ t._lod + 1 = c1.depth ∧
      ∀ i : Int, 0 ≤ i → i < 4 → Tile.child c1 t i = some none) := by
  obtain ⟨d, hc, hall⟩ := load_spec m uninit junk file r col c1 hload
  have hdepth := cell_depth_eq d c1 hc
  have hc2 := hc
  obtain ⟨q1, q2, q3, q4, tiles, htl, hlen⟩ := hc2
  have hid : id < fullSize d := by
    unfold Cell.getTile at ht
    rw [htl] at ht
    have := (List.getElem?_eq_some.mp ht).1
    omega
  obtain ⟨t2, ht2, hgid, L, hlod, hLd, a, b⟩ := hall id hid
  rw [ht] at ht2
  have e := Option.some.inj ht2
  subst e
  refine ⟨by rw [q4, q1]; rfl, hgid, ?_, ?_⟩
  · intro hlt
    rw [hdepth, hlod] at hlt
    have hL : L + 1 < d := by omega
    refine ⟨by unfold Tile.numChildren; rw [hdepth, hlod, if_pos hlt], ?_⟩
    intro i hi0 hi4
    obtain ⟨h1, h2, h3⟩ := child_eq d c1 hc t id L i hgid hlod hL b a hi0 hi4
    rw [h2]
    refine ⟨h1, by rw [q1]; exact h3, ?_⟩
    have hk : 4 * id + 1 + i.toNat < tiles.length := by omega
    exact ⟨tiles[4 * id + 1 + i.toNat], by
      unfold Cell.getTile
      rw [htl]
      exact List.getElem?_eq_getElem hk⟩
  · intro hnlt
    rw [hdepth, hlod] at hnlt
    have hL : ¬ L + 1 < d := by omega
    refine ⟨by unfold Tile.numChildren; rw [hdepth, hlod, if_neg hnlt], ?_, ?_⟩
    · rw [hdepth, hlod]
      omega
    · intro i hi0 hi4
      exact child_leaf d c1 hc t L i hlod hL hi0 hi4

/-- C16, on the root tile of a cell of depth 2 loaded from a file. -/
theorem tile_children_witness :
    sampleCell._nTiles = qtree.fullSize sampleCell._nLODs ∧
    ({ zeroTile with _id := 0, _row := 0, _col := 0, _lod := 0 } : Tile)._id = 0 ∧
    (({ zeroTile with _id := 0, _row := 0, _col := 0, _lod := 0 } : Tile)._lod + 1 <
        sampleCell.depth →
      Tile.numChildren sampleCell { zeroTile with _id := 0, _row := 0, _col := 0, _lod := 0 }
        = 4 ∧
      ∀ i : Int, 0 ≤ i → i < 4 →
        Tile.child sampleCell { zeroTile with _id := 0, _row := 0, _col := 0, _lod := 0 } i =
          some (some (qtree.nwChild 0 + i.toNat)) ∧
        qtree.nwChild 0 + i.toNat < qtree.fullSize sampleCell._nLODs ∧
        ∃ kid : Tile, sampleCell.getTile (qtree.nwChild 0 + i.toNat) = some kid) ∧
    (¬ ({ zeroTile with _id := 0, _row := 0, _col := 0, _lod := 0 } : Tile)._lod + 1 <
        sampleCell.depth →
      Tile.numChildren sampleCell { zeroTile with _id := 0, _row := 0, _col := 0, _lod := 0 }
        = 0 ∧
      ({ zeroTile with _id := 0, _row := 0, _col := 0, _lod := 0 } : Tile)._lod + 1 =
        sampleCell.depth ∧
      ∀ i : Int, 0 ≤ i → i < 4 →
        Tile.child sampleCell { zeroTile with _id := 0, _row := 0, _col := 0, _lod := 0 } i =
          some none) :=
  tile_children 256 (fun _ => zeroTile) (fun _ => 0xCD) (some sampleCellFile) 0 0 sampleCell 0
    { zeroTile with _id := 0, _row := 0, _col := 0, _lod := 0 } sampleCell_loaded (by decide)

/-- C17: `Cell::load` does not read the arrays of a tile record by their declared
sizes.  On a record that declares 2 vertices and 3 indices, followed by 16 bytes
of vertex data (1 to 16) and 6 bytes of index data (101 to 106), no byte is read
into the vertex array, which keeps the 16 bytes it was allocated with (0xCD), and
4 bytes are read into the index array, from the start of the vertex data; 20
bytes of the record are consumed instead of 38. -/
theorem loadChunk_wrong_sizes :
    (loadChunk (fun _ => 0xCD) ⟨sampleRecord, 0, false⟩ 0 emptyChunk).map
        (fun r => (r.1.vertices, r.1.indices, r.2.pos)) =
      some (⟨2, List.replicate 16 0xCD⟩, ⟨3, [1, 2, 3, 4, 0xCD, 0xCD]⟩, 20) ∧
    sampleRecord.length = 38 ∧
    (sampleRecord.drop 16).take 16 = [1, 2, 3, 4, 5, 6, 7, 8, 9, 10, 11, 12, 13, 14, 15, 16] ∧
    (sampleRecord.drop 32).take 6 = [101, 102, 103, 104, 105, 106] := by
  decide

/-- C18: `Chunk::nIndices` returns the number of entries of the vertex array, not
of the index array: it agrees with `nVertices` on every chunk, and on a chunk with
2 vertices and 3 indices it returns 2, and `iSize` returns 4 instead of 6. -/
theorem nIndices_counts_vertices :
    (∀ c : Chunk, c.nIndices = c.nVertices ∧ c.iSize = c.nVertices * 2) ∧
    sampleChunk.vertices.count = 2 ∧ sampleChunk.indices.count = 3 ∧
    sampleChunk.nIndices = 2 ∧ sampleChunk.iSize = 4 := by
  refine ⟨fun c => ⟨rfl, rfl⟩, ?_⟩
  decide

/-! ## Header validation and `ilog2`: auxiliary facts -/

theorem readUI32_eq (s : IfStream) :
    readUI32 s =
      if s.failed = true then (none, s)
      else if s.pos + 4 ≤ s.bytes.length then
        (some (leValue ((s.bytes.drop s.pos).take 4)), { s with pos := s.pos + 4 })
      else (none, { s with pos := s.bytes.length, failed := true }) := by
  unfold readUI32 IfStream.read
  split <;> rename_i h
  · split at h
    · simp at h
    · rename_i hf
      split at h
      · rename_i hlen
        simp only [Prod.mk.injEq, Option.some.injEq] at h
        rw [if_neg hf, if_pos hlen, ← h.1, ← h.2]
      · simp at h
  · split at h
    · rename_i hf
      simp only [Prod.mk.injEq] at h
      rw [if_pos hf, ← h.2]
    · rename_i hf
      split at h
      · simp at h
      · rename_i hlen
        simp only [Prod.mk.injEq] at h
        rw [if_neg hf, if_neg hlen, ← h.2]

/-- The verdict of `readHeader` on a stream. -/
theorem readHeader_isSome (s : IfStream) :
    (tqt.readHeader s).1.isSome = true ↔
      (s.failed = false ∧ s.pos + 16 ≤ s.bytes.length ∧
        leValue ((s.bytes.drop s.pos).take 4) = tqt.TQT_MAGIC ∧
        leValue ((s.bytes.drop (s.pos + 4)).take 4) = tqt.TQT_VERSION) := by
  unfold tqt.readHeader
  simp only [readUI32_eq]
  cases hf : s.failed with
  | true => simp
  | false =>
    simp only [Bool.false_eq_true, if_false, true_and]
    by_cases h4 : s.pos + 4 ≤ s.bytes.length
    · rw [if_pos h4]
      simp only [Bool.false_eq_true, if_false]
      by_cases h8 : s.pos + 4 + 4 ≤ s.bytes.length
      · rw [if_pos h8]
        simp only [Bool.false_eq_true, if_false]
        by_cases h12 : s.pos + 4 + 4 + 4 ≤ s.bytes.length
        · rw [if_pos h12]
          simp only [Bool.false_eq_true, if_false]
          by_cases h16 : s.pos + 4 + 4 + 4 + 4 ≤ s.bytes.length
          · rw [if_pos h16]
            simp only
            have h16b : s.pos + 16 ≤ s.bytes.length := by omega
            by_cases hm : leValue ((s.bytes.drop s.pos).take 4) = tqt.TQT_MAGIC
            · by_cases hv : leValue ((s.bytes.drop (s.pos + 4)).take 4) = tqt.TQT_VERSION
              · simp [hm, hv, h16b]
              · simp [hm, hv]
            · simp [hm]
          · rw [if_neg h16]
            simp only [Option.isSome_none, Bool.false_eq_true, false_iff]
            omega
        · rw [if_neg h12]
          simp only [Option.isSome_none, Bool.false_eq_true, false_iff]
          omega
      · rw [if_neg h8]
        simp only [Option.isSome_none, Bool.false_eq_true, false_iff]
        omega
    · rw [if_neg h4]
      simp only [Option.isSome_none, Bool.false_eq_true, false_iff]
      omega

/-- Once `two_k` is 0 the loop of `ilog2` does not end. -/
theorem ilog2Loop_zero (n : Nat) (hn : 0 < n) : ∀ (fuel : Nat) (k : Int),
    ilog2Loop n fuel k 0 = none := by
  intro fuel
  induction fuel with
  | zero => intro k; rfl
  | succ fuel ih =>
    intro k
    have h0 : ofInt32 0 = 0 := by decide
    have h1 : toInt32 (ofInt32 ((0 : Int) * 2)) = 0 := by decide
    rw [ilog2Loop, h0, if_pos hn, h1, h0, if_neg (by omega)]
    exact ih (k + 1)

set_option maxRecDepth 100000 in
/-- On 3000000000 the loop of `ilog2` has not ended after 100 turns. -/
theorem ilog2_wraps : ilog2 100 3000000000 = none := by
  decide

set_option maxRecDepth 100000 in
/-- The values of `ilog2` on some small numbers. -/
theorem ilog2_values :
    ilog2 64 2 = some 1 ∧ ilog2 64 256 = some 8 ∧ ilog2 64 16384 = some 14 ∧
    ilog2 64 0 = some (-1) ∧ ilog2 64 3 = some (-1) := by
  decide

/-! ## Header validation and `ilog2`: the properties -/

/-- C19: `readHeader` returns true exactly when the stream supplies the 16 bytes of
the four header fields and the magic number is 0x00545154 and the version is 1;
`isTQTFile` on a file that can be opened returns the same verdict, and false on a
file that cannot be opened; the fields `depth` and `tileSize` do not affect the
verdict. -/
theorem header_validation (s : IfStream) (bytes hd r1 r2 : List Nat)
    (h1 : r1.length = 8) (h2 : r2.length = 8) :
    ((tqt.readHeader s).1.isSome = true ↔
      (s.failed = false ∧ s.pos + 16 ≤ s.bytes.length ∧
        leValue ((s.bytes.drop s.pos).take 4) = 0x00545154 ∧
        leValue ((s.bytes.drop (s.pos + 4)).take 4) = 1)) ∧
    (tqt.TextureQTree.isTQTFile (some bytes) = true ↔
      (16 ≤ bytes.length ∧ leValue (bytes.take 4) = 0x00545154 ∧
        leValue ((bytes.drop 4).take 4) = 1)) ∧
    tqt.TextureQTree.isTQTFile none = false ∧
    (hd.length = 8 →
      tqt.TextureQTree.isTQTFile (some (hd ++ r1)) =
        tqt.TextureQTree.isTQTFile (some (hd ++ r2))) := by
  have key : ∀ bs : List Nat, tqt.TextureQTree.isTQTFile (some bs) = true ↔
      (16 ≤ bs.length ∧ leValue (bs.take 4) = 0x00545154 ∧
        leValue ((bs.drop 4).take 4) = 1) := by
    intro bs
    unfold tqt.TextureQTree.isTQTFile
    rw [readHeader_isSome]
    simp [tqt.TQT_MAGIC, tqt.TQT_VERSION]
  refine ⟨readHeader_isSome s, key bytes, rfl, ?_⟩
  intro hhd
  have e : ∀ r : List Nat, r.length = 8 →
      (tqt.TextureQTree.isTQTFile (some (hd ++ r)) = true ↔
        (leValue (hd.take 4) = 0x00545154 ∧ leValue ((hd.drop 4).take 4) = 1)) := by
    intro r hr
    rw [key]
    have t1 : (hd ++ r).take 4 = hd.take 4 := List.take_append_of_le_length (by omega)
    have t2 : ((hd ++ r).drop 4).take 4 = (hd.drop 4).take 4 := by
      rw [List.drop_append_of_le_length (by omega)]
      exact List.take_append_of_le_length (by simp; omega)
    rw [t1, t2, List.length_append]
    constructor
    · intro h
      exact h.2
    · intro h
      exact ⟨by omega, h⟩
  have e1 := e r1 h1
  have e2 := e r2 h2
  cases ha : tqt.TextureQTree.isTQTFile (some (hd ++ r1)) <;>
    cases hb : tqt.TextureQTree.isTQTFile (some (hd ++ r2)) <;> simp_all

/-- C19, on the header of `sampleFile` followed by two choices of `depth` and
`tileSize`. -/
theorem header_validation_witness :
    ((tqt.readHeader ⟨sampleFile, 0, false⟩).1.isSome = true ↔
      ((⟨sampleFile, 0, false⟩ : IfStream).failed = false ∧
        (⟨sampleFile, 0, false⟩ : IfStream).pos + 16 ≤
          (⟨sampleFile, 0, false⟩ : IfStream).bytes.length ∧
        leValue (((⟨sampleFile, 0, false⟩ : IfStream).bytes.drop
          (⟨sampleFile, 0, false⟩ : IfStream).pos).take 4) = 0x00545154 ∧
        leValue (((⟨sampleFile, 0, false⟩ : IfStream).bytes.drop
          ((⟨sampleFile, 0, false⟩ : IfStream).pos + 4)).take 4) = 1)) ∧
    (tqt.TextureQTree.isTQTFile (some sampleFile) = true ↔
      (16 ≤ sampleFile.length ∧ leValue (sampleFile.take 4) = 0x00545154 ∧
        leValue ((sampleFile.drop 4).take 4) = 1)) ∧
    tqt.TextureQTree.isTQTFile none = false ∧
    (([0x54, 0x51, 0x54, 0x00, 1, 0, 0, 0] : List Nat).length = 8 →
      tqt.TextureQTree.isTQTFile
          (some ([0x54, 0x51, 0x54, 0x00, 1, 0, 0, 0] ++ [2, 0, 0, 0, 0, 1, 0, 0])) =
        tqt.TextureQTree.isTQTFile
          (some ([0x54, 0x51, 0x54, 0x00, 1, 0, 0, 0] ++ [255, 255, 255, 255, 3, 0, 0, 0]))) :=
  header_validation ⟨sampleFile, 0, false⟩ sampleFile [0x54, 0x51, 0x54, 0x00, 1, 0, 0, 0]
    [2, 0, 0, 0, 0, 1, 0, 0] [255, 255, 255, 255, 3, 0, 0, 0] (by decide) (by decide)

/-- C20: `ilog2(1)` is -1, although 1 is 2^0: the loop is not entered when `n` is
1.  On the powers of two from 2 on the result is the logarithm (1 for 2, 8 for 256,
14 for 16384), on 0 and on 3 it is -1, and on 3000000000 the loop has not ended
after 100 turns (`two_k` wraps around to 0 and stays there). -/
theorem ilog2_of_one :
    (∀ fuel : Nat, ilog2 (fuel + 1) 1 = some (-1)) ∧
    ilog2 64 2 = some 1 ∧ ilog2 64 256 = some 8 ∧ ilog2 64 16384 = some 14 ∧
    ilog2 64 0 = some (-1) ∧ ilog2 64 3 = some (-1) ∧
    ilog2 100 3000000000 = none := by
  obtain ⟨h1, h2, h3, h4, h5⟩ := ilog2_values
  exact ⟨fun fuel => rfl, h1, h2, h3, h4, h5, ilog2_wraps⟩

/-! ## The mipmap flag: auxiliary facts -/

/-- Whatever flag the cache was constructed with, `make` hands out handles whose
flag `_mipmaps` is set. -/
theorem make_mipmaps (mipmap : Bool) (tree : Nat) (level row col : Int) :
    ((TextureCache.construct mipmap).make tree level row col).2.mipmapsOf
      ((TextureCache.construct mipmap).make tree level row col).1 = some true := by
  rfl

/-! ## The mipmap flag: the property -/

/-- C23: the cache does not pass its flag `mipmap` on.  In a cache constructed
with the flag `false`, the handle that `make` returns has `_mipmaps = true`; its
first activation builds the texture with `mipmap = true`, and the constructor of
the texture reaches the error "mipmap generation not supported yet": where control
returns from `ERROR` the handle holds a texture made with `mipmap = true`, and
where it does not the activation does not come back. -/
theorem default_cache_requests_mipmaps :
    ((TextureCache.construct false).make 7 1 0 0).2.mipmapsOf
      ((TextureCache.construct false).make 7 1 0 0).1 = some true ∧
    (TileTexture.activate sampleEnv ((TextureCache.construct false).make 7 1 0 0).2
      ((TextureCache.construct false).make 7 1 0 0).1).bind
        (fun c => c.textureOf ((TextureCache.construct false).make 7 1 0 0).1) =
      some ⟨7, 1, 0, 0, true⟩ ∧
    Texture2D.reachesError ⟨7, 1, 0, 0, true⟩ = true ∧
    TileTexture.activate stoppingEnv ((TextureCache.construct false).make 7 1 0 0).2
      ((TextureCache.construct false).make 7 1 0 0).1 = none := by
  decide

/-! ## The map: auxiliary facts -/

/-- The loop of `getThreeFloats` never reads beyond the end of an array of three
entries, and never reports an error. -/
theorem getThreeFloatsLoop_total {F : Type} (arr : List (Option F)) (h : arr.length = 3) :
    ∀ (idx : List (Fin 3)) (out : Fin 3 → F),
      ∃ out1, getThreeFloatsLoop arr idx out = some (false, out1) := by
  intro idx
  induction idx with
  | nil => exact fun out => ⟨out, rfl⟩
  | cons i rest ih =>
    intro out
    have hi : i.val < arr.length := by omega
    rw [getThreeFloatsLoop, List.getElem?_eq_getElem hi]
    cases arr[i.val] with
    | none => exact ⟨out, rfl⟩
    | some num => exact ih _

/-- The helper `getThreeFloats` always returns. -/
theorem getThreeFloats_total {F : Type} (arr : Option (List (Option F))) (out : Fin 3 → F) :
    ∃ b out1, getThreeFloats arr out = some (b, out1) := by
  cases arr with
  | none => exact ⟨true, out, rfl⟩
  | some l =>
    by_cases h : l.length = 3
    · obtain ⟨out1, e⟩ := getThreeFloatsLoop_total l h (List.finRange 3) out
      exact ⟨false, out1, by simp [getThreeFloats, h, e]⟩
    · exact ⟨true, out, by simp [getThreeFloats, h]⟩

/-- On an array of three numbers `getThreeFloats` stores them and returns
`false`. -/
theorem getThreeFloats_numbers {F : Type} (a b c : F) (out : Fin 3 → F) :
    ∃ out1, getThreeFloats (some [some a, some b, some c]) out = some (false, out1) ∧
      out1 0 = a ∧ out1 1 = b ∧ out1 2 = c := by
  refine ⟨_, rfl, ?_, ?_, ?_⟩ <;> simp [Function.update]

/-- On an array whose length is not 3 `getThreeFloats` returns `true` and leaves
`out` as it is. -/
theorem getThreeFloats_length {F : Type} (l : List (Option F)) (h : l.length ≠ 3)
    (out : Fin 3 → F) : getThreeFloats (some l) out = some (true, out) := by
  simp [getThreeFloats, h]


theorem Step.Post.andThen {F : Type} {P Q : Map F → Prop} {r : Step F} {f : Map F → Step F}
    (hr : Step.Post P r) (hf : ∀ m, P m → Step.Post Q (f m)) : Step.Post Q (r.andThen f) := by
  cases r with
  | next m => exact hf m hr
  | ret b m => exact hr
  | stop => exact hr

theorem getNumber_post {F : Type} (P : Map F → Prop) (num : Option F) (m : Map F)
    (set : Map F → F → Map F) (h : ∀ v, P (set m v)) :
    Step.Post P (Map.getNumber num m set) := by
  cases num with
  | none => exact rfl
  | some v => exact h v

theorem getFlag_post {F : Type} (P : Map F → Prop) (v : Option (Option Bool)) (m : Map F)
    (set : Map F → Bool → Map F) (h : ∀ b, P (set m b)) :
    Step.Post P (Map.getFlag v m set) := by
  cases v with
  | none => exact h false
  | some o =>
    cases o with
    | none => exact rfl
    | some b => exact h b

theorem loadScales_post {F : Type} [LinearOrderedField F] (root : MapObject F) (m : Map F) :
    Step.Post (fun _ => True) (Map.loadScales root m) := by
  unfold Map.loadScales
  refine Step.Post.andThen (P := fun _ => True) ?_ fun m _ => ?_
  · cases root.name with
    | none => exact rfl
    | some n => exact trivial
  refine Step.Post.andThen (P := fun _ => True) ?_ fun m _ => ?_
  · exact getNumber_post (fun _ => True) _ _ _ fun _ => trivial
  refine Step.Post.andThen (P := fun _ => True) ?_ fun m _ => ?_
  · exact getNumber_post (fun _ => True) _ _ _ fun _ => trivial
  refine Step.Post.andThen (P := fun _ => True) ?_ fun m _ => ?_
  · cases root.baseElev with
    | none => exact trivial
    | some o =>
      cases o with
      | none => exact rfl
      | some v => exact trivial
  refine Step.Post.andThen (P := fun _ => True) ?_ fun m _ => ?_
  · exact getNumber_post (fun _ => True) _ _ _ fun _ => trivial
  refine Step.Post.andThen (P := fun _ => True) ?_ fun m _ => ?_
  · exact getNumber_post (fun _ => True) _ _ _ fun _ => trivial
  refine Step.Post.andThen (P := fun _ => True) ?_ fun m _ => ?_
  · exact getNumber_post (fun _ => True) _ _ _ fun _ => trivial
  exact getNumber_post (fun _ => True) _ _ _ fun _ => trivial

theorem loadSizes_post {F : Type} (root : MapObject F) (m : Map F) :
    Step.Post (Map.Sizes root) (Map.loadSizes root m) := by
  unfold Map.loadSizes
  cases hw : root.width with
  | none => exact rfl
  | some w =>
    by_cases hw1 : w < 1
    · simp only [if_pos hw1]
      exact rfl
    · simp only [if_neg hw1, Step.andThen]
      cases hh : root.height with
      | none => exact rfl
      | some h =>
        by_cases hh1 : h < 1
        · simp only [if_pos hh1]
          exact rfl
        · simp only [if_neg hh1]
          cases hc : root.cellSize with
          | none => exact rfl
          | some cs =>
            have e1 : (Map.kMinCellSize : Int) = 256 := by decide
            have e2 : (Map.kMaxCellSize : Int) = 16384 := by decide
            by_cases hcs : cs < (Map.kMinCellSize : Int) ∨ (Map.kMaxCellSize : Int) < cs
            · simp only [if_pos hcs]
              exact rfl
            · simp only [if_neg hcs]
              rw [e1, e2] at hcs
              exact ⟨w, h, cs, hw, hh, hc, by omega, by omega, by omega, by omega, rfl, rfl,
                rfl⟩

theorem loadProperties_post {F : Type} (root : MapObject F) (m : Map F)
    (h : Map.Sizes root m) : Step.Post (Map.Sizes root) (Map.loadProperties root m) := by
  unfold Map.loadProperties
  refine Step.Post.andThen (P := Map.Sizes root) ?_ fun m hm => ?_
  · exact getFlag_post (Map.Sizes root) _ _ _ fun _ => h
  refine Step.Post.andThen (P := Map.Sizes root) ?_ fun m hm => ?_
  · exact getFlag_post (Map.Sizes root) _ _ _ fun _ => hm
  exact getFlag_post (Map.Sizes root) _ _ _ fun _ => hm

theorem loadLighting_post {F : Type} [LinearOrderedField F] (normalize : Vec3 F → Vec3 F)
    (root : MapObject F) (m : Map F) (h : Map.Sizes root m) :
    Step.Post (Map.Sizes root) (Map.loadLighting normalize root m) := by
  unfold Map.loadLighting
  obtain ⟨b1, o1, e1⟩ := getThreeFloats_total root.sunDir (fun i => if i = 1 then (1 : F) else 0)
  rw [e1]
  cases b1 with
  | true => exact rfl
  | false =>
    obtain ⟨b2, o2, e2⟩ := getThreeFloats_total root.sunIntensity (fun _ => (9 : F) / 10)
    simp only [e2]
    cases b2 with
    | true => exact rfl
    | false =>
      obtain ⟨b3, o3, e3⟩ := getThreeFloats_total root.ambient (fun _ => (1 : F) / 10)
      simp only [e3]
      cases b3 with
      | true => exact rfl
      | false => exact h

theorem loadFog_post {F : Type} [LinearOrderedField F] (junk : Fin 3 → F)
    (root : MapObject F) (m : Map F) (h : Map.Sizes root m) :
    Step.Post (Map.Sizes root) (Map.loadFog junk root m) := by
  unfold Map.loadFog
  split
  · obtain ⟨b1, o1, e1⟩ := getThreeFloats_total root.fogColor junk
    rw [e1]
    cases b1 with
    | true => exact rfl
    | false =>
      simp only
      cases root.fogDensity with
      | none => exact rfl
      | some v => exact h
  · exact h

theorem loadAssets_post {F : Type} (root : MapObject F) (m : Map F) (h : Map.Sizes root m) :
    Step.Post (Map.Sizes root) (Map.loadAssets root m) := by
  unfold Map.loadAssets
  cases root.assetsDir with
  | none => exact h
  | some o =>
    cases o with
    | none => exact rfl
    | some v => exact h


theorem pow_le_pow30 (k : Nat) (hk : k ≤ 30) : 2 ^ k ≤ 1073741824 := by
  have := Nat.pow_le_pow_right (by decide : 0 < 2) hk
  omega

/-- On a number up to 2^30 the loop of `ilog2`, entered with `two_k = 2^k`, ends:
it gives the exponent `j > k` with `n = 2^j` when there is one, and -1 otherwise. -/
theorem ilog2Loop_spec (n : Nat) (hn : n ≤ 1073741824) : ∀ (fuel k : Nat), k ≤ 30 →
    31 ≤ k + fuel →
    ∃ r : Int, ilog2Loop n fuel (k : Int) ((2 ^ k : Nat) : Int) = some r ∧
      ((∃ j : Nat, k < j ∧ n = 2 ^ j ∧ r = (j : Int)) ∨
       (r = -1 ∧ ∀ j : Nat, k < j → n ≠ 2 ^ j)) := by
  intro fuel
  induction fuel with
  | zero => intro k h1 h2; omega
  | succ fuel ih =>
    intro k hk hf
    have hp := pow_le_pow30 k hk
    have h1 : ofInt32 ((2 ^ k : Nat) : Int) = 2 ^ k := ofInt32_ofNat_small _ (by omega)
    rw [ilog2Loop, h1]
    by_cases hlt : 2 ^ k < n
    · rw [if_pos hlt]
      have hk30 : k < 30 := by
        by_contra hc
        have : k = 30 := by omega
        subst this
        omega
      have hp1 := pow_le_pow30 (k + 1) (by omega)
      have e2 : ((2 ^ k : Nat) : Int) * 2 = ((2 ^ (k + 1) : Nat) : Int) := by
        push_cast
        ring
      have h2 : toInt32 (ofInt32 (((2 ^ k : Nat) : Int) * 2)) = ((2 ^ (k + 1) : Nat) : Int) := by
        rw [e2, ofInt32_ofNat_small _ (by omega), toInt32_ofNat_small _ (by omega)]
      rw [h2, ofInt32_ofNat_small _ (by omega)]
      by_cases heq : 2 ^ (k + 1) = n
      · rw [if_pos heq]
        exact ⟨_, rfl, Or.inl ⟨k + 1, by omega, heq.symm, by push_cast; ring⟩⟩
      · rw [if_neg heq]
        obtain ⟨r, hr, hcase⟩ := ih (k + 1) (by omega) (by omega)
        have hk1 : ((k : Int) + 1) = ((k + 1 : Nat) : Int) := by push_cast; ring
        rw [hk1]
        refine ⟨r, hr, ?_⟩
        rcases hcase with ⟨j, hj, hnj, hrj⟩ | ⟨hr1, hall⟩
        · exact Or.inl ⟨j, by omega, hnj, hrj⟩
        · refine Or.inr ⟨hr1, ?_⟩
          intro j hj
          by_cases hj1 : j = k + 1
          · subst hj1
            exact fun e => heq e.symm
          · exact hall j (by omega)
    · rw [if_neg hlt]
      refine ⟨-1, rfl, Or.inr ⟨rfl, ?_⟩⟩
      intro j hj e
      have : 2 ^ k < 2 ^ j := Nat.pow_lt_pow_right (by decide) hj
      omega

/-- On a number up to 2^30, `ilog2` returns within 64 turns of its loop: the
exponent `j ≥ 1` with `n = 2^j` when there is one, and -1 otherwise. -/
theorem ilog2_spec (n : Nat) (hn : n ≤ 1073741824) :
    ∃ r : Int, ilog2 64 n = some r ∧
      ((∃ j : Nat, 0 < j ∧ n = 2 ^ j ∧ r = (j : Int)) ∨
       (r = -1 ∧ ∀ j : Nat, 0 < j → n ≠ 2 ^ j)) := by
  have h := ilog2Loop_spec n hn 64 0 (by omega) (by omega)
  exact h

theorem ofInt32_lt (x : Int) : ofInt32 x < 4294967296 := by
  unfold ofInt32
  omega

theorem pow_range (k : Nat) (h1 : 256 ≤ 2 ^ k) (h2 : 2 ^ k ≤ 16384) : 8 ≤ k ∧ k ≤ 14 := by
  constructor
  · by_contra hc
    have := Nat.pow_le_pow_right (by decide : 0 < 2) (by omega : k ≤ 7)
    omega
  · by_contra hc
    have := Nat.pow_le_pow_right (by decide : 0 < 2) (by omega : 15 ≤ k)
    omega

theorem dvd_of_ofInt32 (x : Int) (k n : Nat) (hk : k ≤ 32) (h : ofInt32 x = n * 2 ^ k) :
    (2 : Int) ^ k ∣ x := by
  have hq : (2 : Int) ^ k ∣ 4294967296 := by
    have h1 : (2 : Int) ^ k ∣ 2 ^ 32 := pow_dvd_pow 2 hk
    have h2 : (2 : Int) ^ 32 = 4294967296 := by norm_num
    rw [h2] at h1
    exact h1
  have hx : x % 4294967296 = (n : Int) * 2 ^ k := by
    unfold ofInt32 at h
    have h3 : 0 ≤ x % 4294967296 := Int.emod_nonneg _ (by decide)
    have h4 : ((x % 4294967296).toNat : Int) = x % 4294967296 := Int.toNat_of_nonneg h3
    rw [← h4, h]
    push_cast
    ring
  apply Int.dvd_of_emod_eq_zero
  rw [← Int.emod_emod_of_dvd x hq, hx]
  exact Int.mul_emod_left _ _

/-- The test `(n << k) != v` of `Map::load`, with `n = v >> k`, fails exactly
when `v` is `n` times `2^k`. -/
theorem shl_shr_eq (v k : Nat) (hv : v < 4294967296) (h : shl32 (v >>> k) k = v) :
    v = (v >>> k) * 2 ^ k := by
  unfold shl32 u32 at h
  rw [Nat.shiftLeft_eq, Nat.shiftRight_eq_div_pow] at h
  rw [Nat.shiftRight_eq_div_pow]
  have hle : v / 2 ^ k * 2 ^ k ≤ v := Nat.div_mul_le_self v (2 ^ k)
  rw [Nat.mod_eq_of_lt (by omega)] at h
  exact h.symm

theorem checkInfo_post {F : Type} (root : MapObject F) (m : Map F) (h : Map.Sizes root m) :
    Step.Post (Map.Checked root) (Map.checkInfo m) := by
  have hs := h
  obtain ⟨w, hh, cs, hw, hhh, hc, w1, h1, c1, c2, ew, eh, ec⟩ := hs
  have ecs : m._cellSize = cs.toNat := by
    rw [ec]
    unfold ofInt32
    omega
  have hlo : 256 ≤ m._cellSize := by omega
  have hhi : m._cellSize ≤ 16384 := by omega
  obtain ⟨r, hr, hcase⟩ := ilog2_spec m._cellSize (by omega)
  unfold Map.checkInfo
  rw [hr]
  simp only
  have e1 : Map.kMinCellSize = 256 := by decide
  have e2 : Map.kMaxCellSize = 16384 := by decide
  rcases hcase with ⟨j, hj, hnj, hrj⟩ | ⟨hr1, _⟩
  · have hcond : ¬ (r < 0 ∨ m._cellSize < Map.kMinCellSize ∨ Map.kMaxCellSize < m._cellSize) := by
      rw [e1, e2]
      omega
    rw [if_neg hcond]
    have hjt : r.toNat = j := by omega
    rw [hjt]
    split
    · exact rfl
    · rename_i hrow
      split
      · exact rfl
      · rename_i hcol
        have hrange := pow_range j (by omega) (by omega)
        refine ⟨h, j, hrange.1, hrange.2, hnj, ?_, ?_⟩
        · exact shl_shr_eq m._height j (by rw [eh]; exact ofInt32_lt _) (not_not.mp hrow)
        · exact shl_shr_eq m._width j (by rw [ew]; exact ofInt32_lt _) (not_not.mp hcol)
  · have hcond : r < 0 ∨ m._cellSize < Map.kMinCellSize ∨ Map.kMaxCellSize < m._cellSize :=
      Or.inl (by omega)
    rw [if_pos hcond]
    exact rfl

/-- The last part of `Map::load` leaves the sizes of the map as they are. -/
theorem loadGrid_true {F : Type} (uninit : Nat → Tile) (junk : Nat → Nat)
    (files : String → Option (List Nat)) (root : MapObject F) (m m1 : Map F)
    (h : (Map.loadGrid uninit junk files root m).result = some (true, m1)) :
    ∃ cells, m1 = { m with _grid := some cells } := by
  unfold Map.loadGrid at h
  split at h
  · simp [Step.result] at h
  · split at h
    · simp [Step.result] at h
    · split at h
      · simp [Step.result] at h
      · split at h
        · simp [Step.result] at h
        · rename_i cells1 _
          simp only [Step.result, Option.some.injEq, Prod.mk.injEq, true_and] at h
          exact ⟨cells1, h.symm⟩

/-- The parts of `Map::load` before the grid of cells is read: when the function
goes on after them, the sizes of the map have passed the checks. -/
theorem header_post {F : Type} [LinearOrderedField F] (normalize : Vec3 F → Vec3 F)
    (junkF : Fin 3 → F) (root : MapObject F) (m : Map F) :
    Step.Post (Map.Checked root)
      ((((((((Step.next m).andThen
        (Map.loadScales root)).andThen
        (Map.loadSizes root)).andThen
        (Map.loadProperties root)).andThen
        (Map.loadLighting normalize root)).andThen
        (Map.loadFog junkF root)).andThen
        (Map.loadAssets root)).andThen
        Map.checkInfo) := by
  refine Step.Post.andThen (P := Map.Sizes root) ?_ (checkInfo_post root)
  refine Step.Post.andThen (P := Map.Sizes root) ?_ (loadAssets_post root)
  refine Step.Post.andThen (P := Map.Sizes root) ?_ (loadFog_post junkF root)
  refine Step.Post.andThen (P := Map.Sizes root) ?_ (loadLighting_post normalize root)
  refine Step.Post.andThen (P := Map.Sizes root) ?_ (loadProperties_post root)
  refine Step.Post.andThen (P := fun _ => True) ?_ (fun m _ => loadSizes_post root m)
  exact Step.Post.andThen (P := fun _ => True) trivial (fun m _ => loadScales_post root m)

/-- Whenever `Map::load` returns `true`, the cell size is a power of two from 2^8
to 2^14, and the width and the height of the map are the numbers of columns and of
rows times the cell size. -/
theorem load_true_checked {F : Type} [LinearOrderedField F] (normalize : Vec3 F → Vec3 F)
    (junkF : Fin 3 → F) (uninit : Nat → Tile) (junk : Nat → Nat)
    (files : String → Option (List Nat)) (root : Option (MapObject F)) (mapName : String)
    (m m1 : Map F)
    (h : Map.load normalize junkF uninit junk files root mapName m = some (true, m1)) :
    ∃ robj, root = some robj ∧ Map.Checked robj m1 := by
  unfold Map.load at h
  split at h
  · simp at h
  · cases root with
    | none => simp at h
    | some robj =>
      refine ⟨robj, rfl, ?_⟩
      simp only at h
      have hp := header_post normalize junkF robj { m with _path := mapName ++ "/" }
      revert h hp
      generalize (((((((((Step.next { m with _path := mapName ++ "/" }).andThen
        (Map.loadScales robj)).andThen
        (Map.loadSizes robj)).andThen
        (Map.loadProperties robj)).andThen
        (Map.loadLighting normalize robj)).andThen
        (Map.loadFog junkF robj)).andThen
        (Map.loadAssets robj)).andThen
        Map.checkInfo)) = r
      intro h hp
      cases r with
      | next m0 =>
        obtain ⟨cells, e⟩ := loadGrid_true uninit junk files robj m0 m1 h
        rw [e]
        exact hp
      | ret b m0 =>
        simp only [Step.andThen, Step.result, Option.some.injEq, Prod.mk.injEq] at h
        have hb : b = false := hp
        rw [hb] at h
        simp at h
      | stop => exact absurd hp id

/-- Whenever the fields "width", "height" and "cell-size" hold integers such that
the cell size is not a power of two from 2^8 to 2^14, or does not divide the width,
or does not divide the height, `Map::load` returns `false`. -/
theorem load_false_of_bad {F : Type} [LinearOrderedField F] (normalize : Vec3 F → Vec3 F)
    (junkF : Fin 3 → F) (uninit : Nat → Tile) (junk : Nat → Nat)
    (files : String → Option (List Nat)) (robj : MapObject F) (mapName : String)
    (m : Map F) (w h cs : Int)
    (hw : robj.width = some w) (hh : robj.height = some h) (hc : robj.cellSize = some cs)
    (bad : (¬ ∃ k : Nat, 8 ≤ k ∧ k ≤ 14 ∧ cs = 2 ^ k) ∨ ¬ cs ∣ w ∨ ¬ cs ∣ h) :
    ∃ m1, Map.load normalize junkF uninit junk files (some robj) mapName m =
      some (false, m1) := by
  unfold Map.load
  split
  · exact ⟨m, rfl⟩
  · simp only
    have hp := header_post normalize junkF robj { m with _path := mapName ++ "/" }
    revert hp
    generalize (((((((((Step.next { m with _path := mapName ++ "/" }).andThen
      (Map.loadScales robj)).andThen
      (Map.loadSizes robj)).andThen
      (Map.loadProperties robj)).andThen
      (Map.loadLighting normalize robj)).andThen
      (Map.loadFog junkF robj)).andThen
      (Map.loadAssets robj)).andThen
      Map.checkInfo)) = r
    intro hp
    cases r with
    | next m0 =>
      exfalso
      obtain ⟨⟨w2, h2, cs2, hw2, hh2, hc2, w1, h1, c1, c2, ew, eh, ec⟩, k, k1, k2, ek, ehk, ewk⟩ :=
        hp
      rw [hw] at hw2
      rw [hh] at hh2
      rw [hc] at hc2
      have e1 := Option.some.inj hw2
      have e2 := Option.some.inj hh2
      have e3 := Option.some.inj hc2
      subst e1 e2 e3
      rw [ec] at ek
      rw [ew] at ewk
      rw [eh] at ehk
      have hcs : cs = (2 : Int) ^ k := by
        have hx : ((ofInt32 cs : Nat) : Int) = cs := by
          unfold ofInt32
          omega
        rw [← hx, ek]
        push_cast
        rfl
      rcases bad with b | b | b
      · exact b ⟨k, k1, k2, hcs⟩
      · rw [hcs] at b
        exact b (dvd_of_ofInt32 w k _ (by omega) ewk)
      · rw [hcs] at b
        exact b (dvd_of_ofInt32 h k _ (by omega) ehk)
    | ret b m0 =>
      have hb : b = false := hp
      rw [hb]
      exact ⟨m0, rfl⟩
    | stop => exact absurd hp id

/-! ## The map: the properties -/

/-- C24: `getThreeFloats` does not report errors as its comment says ("returns true
if there is an error (but false if the array is null)").  On an absent array
(`nullptr`) it returns `true`, the error value, and leaves `out` as it is; on an
array of three entries whose second entry is not a number it returns `false`,
after it has stored the first entry.  On an array of three numbers it stores them
and returns `false`; on an array of two numbers it returns `true`. -/
theorem getThreeFloats_null_is_error :
    threeFloatsAnswer none (fun i => if i = 1 then 1 else 0) = some (true, [0, 1, 0]) ∧
    threeFloatsAnswer (some [some 5, none, some 7]) (fun i => if i = 1 then 1 else 0) =
      some (false, [5, 1, 0]) ∧
    threeFloatsAnswer (some [some 5, some 6, some 7]) (fun i => if i = 1 then 1 else 0) =
      some (false, [5, 6, 7]) ∧
    threeFloatsAnswer (some [some 5, some 6]) (fun i => if i = 1 then 1 else 0) =
      some (true, [0, 1, 0]) := by
  decide

set_option maxRecDepth 100000 in
/-- What `Map::load` does on `wideRoot`. -/
theorem wideRoot_loaded :
    loadSummary (Map.load id (fun _ => 0) (fun _ => zeroTile) (fun _ => 0xCD) (fun _ => none)
      (some wideRoot) "wide" (Map.construct zeroMap)) = some (true, 1, 0, 0, 256) := by
  decide

/-- C21: `Map::load` rejects a width below 1, but then keeps only the low 32 bits
of the width.  On a root object with the mandatory fields, "width" 4294967296
(2^32), "height" 256, "cell-size" 256 and an empty "grid", it returns `true`, and
the map has width 0 and no columns: `nCols()` is 0, and `nRows()` is 1. -/
theorem load_accepts_zero_columns :
    wideRoot.width = some 4294967296 ∧ wideRoot.height = some 256 ∧
    wideRoot.cellSize = some 256 ∧
    loadSummary (Map.load id (fun _ => 0) (fun _ => zeroTile) (fun _ => 0xCD) (fun _ => none)
      (some wideRoot) "wide" (Map.construct zeroMap)) = some (true, 1, 0, 0, 256) :=
  ⟨rfl, rfl, rfl, wideRoot_loaded⟩

/-! ## `cellAt`: auxiliary facts -/

set_option maxRecDepth 1000000 in
theorem twoCellMap_loaded :
    mapSummary (Map.load id (fun _ => 0) (fun _ => zeroTile) (fun _ => 0xCD)
      (fun _ => some sampleCellFile) (some twoCellRoot) "two" (Map.construct zeroMap)) =
    mapSummary (some (true, twoCellMap)) := by
  decide

theorem castU32_natCast {F : Type} [LinearOrderedField F] [FloorRing F] (n : Nat)
    (hn : n < 4294967296) : castU32 (n : F) = some n := by
  unfold castU32
  have h0 : (0 : F) ≤ (n : F) := Nat.cast_nonneg n
  simp only [h0, if_true, Int.floor_natCast]
  rw [if_pos ⟨by omega, by omega⟩]
  simp

theorem cellAt_scale_one {F : Type} [LinearOrderedField F] [FloorRing F] (m : Map F)
    (h1 : m._hScale = 1) (x z : Nat) (hx : x < 4294967296) (hz : z < 4294967296) :
    m.cellAt (x : F) (z : F) = some (m.cell z x) := by
  unfold Map.cellAt
  have hx0 : ¬ ((x : F) < 0 ∨ (z : F) < 0) := by
    intro h
    rcases h with h | h
    · exact absurd (Nat.cast_nonneg x) (not_le.mpr h)
    · exact absurd (Nat.cast_nonneg z) (not_le.mpr h)
  rw [if_neg hx0, h1, if_neg one_ne_zero, div_one, div_one, castU32_natCast z hz,
    castU32_natCast x hx]

/-! ## `cellAt`: the property -/

/-- C22: `Map::cellAt` divides the position by the horizontal scale only, not by
the width of a cell in world coordinates, so that it looks up the grid with the row
and the column of a vertex.  In the map of one row and two columns of cells of
size 256 with scale 1 (east side at 512, south side at 256), the position (1, 0)
lies in the cell (0, 0), whose NW corner is at (0, 0); `cellAt (1, 0)` returns the
cell at index 1 of the grid, which is the cell (0, 1) with its NW corner at x =
256.  For the position (3, 2), which lies in the cell (0, 0) as well, `cellAt`
returns `nullptr`. -/
theorem cellAt_wrong_cell :
    mapSummary (Map.load id (fun _ => 0) (fun _ => zeroTile) (fun _ => 0xCD)
      (fun _ => some sampleCellFile) (some twoCellRoot) "two" (Map.construct zeroMap)) =
      mapSummary (some (true, twoCellMap)) ∧
    twoCellMap.east = 512 ∧ twoCellMap.south = 256 ∧
    twoCellMap.cellSize = ⟨256, 0, 256⟩ ∧
    twoCellMap.nwCellCorner 0 0 = some ⟨0, 0, 0⟩ ∧
    twoCellMap.nwCellCorner 0 1 = some ⟨256, 0, 0⟩ ∧
    twoCellMap.cell 0 0 = some 0 ∧ twoCellMap.cell 0 1 = some 1 ∧
    twoCellMap.cellAt 1 0 = some (some 1) ∧
    twoCellMap.cellAt 3 2 = some none := by
  refine ⟨twoCellMap_loaded, ?_, ?_, ?_, ?_, ?_, by decide, by decide, ?_, ?_⟩
  · norm_num [Map.east, twoCellMap]
  · norm_num [Map.south, twoCellMap]
  · norm_num [Map.cellSize, twoCellMap]
  · norm_num [Map.nwCellCorner, twoCellMap]
  · norm_num [Map.nwCellCorner, twoCellMap]
  · have h := cellAt_scale_one twoCellMap rfl 1 0 (by decide) (by decide)
    simp only [Nat.cast_one, Nat.cast_zero] at h
    rw [h]
    decide
  · have h := cellAt_scale_one twoCellMap rfl 3 2 (by decide) (by decide)
    simp only [Nat.cast_ofNat] at h
    rw [h]
    decide

/-! ## The characterisation of `intersectBox`: auxiliary facts -/

theorem nCornersIn_le {F : Type} [LinearOrderedRing F] (pl : Plane F)
    (corner : Fin 8 → Vec3 F) : nCornersIn pl corner ≤ 8 := by
  unfold nCornersIn
  have h := List.countP_le_length (fun j => decide (pl.distanceToPt (corner j) ≥ 0))
    (l := List.finRange 8)
  simpa using h

theorem testBit_ne_zero (n p : Nat) (h : n.testBit p = true) : n ≠ 0 := by
  intro e
  rw [e, Nat.zero_testBit] at h
  exact absurd h (by simp)

/-- What the loop over the planes `l` does to an outcode that is not culled: the
result is culled exactly when a plane of `l` whose bit is set has no corner of the
box inside; otherwise the bit of a plane is set in the result exactly when it is
set at the start and the plane is not a plane of `l` with the eight corners
inside. -/
theorem planeLoop_char {F : Type} [LinearOrderedRing F] (f : Frustum F)
    (corner : Fin 8 → Vec3 F) (l : List (Fin 6)) (hl : l.Nodup) (code : Outcode)
    (hc : code._culled = false) :
    ((f.planeLoop corner l code)._culled = true ↔
      ∃ i ∈ l, code._planes.testBit i.val = true ∧ nCornersIn (f._sides i) corner = 0) ∧
    ((f.planeLoop corner l code)._culled = false → ∀ q : Fin 6,
      ((f.planeLoop corner l code)._planes.testBit q.val = true ↔
        code._planes.testBit q.val = true ∧
          (q ∈ l → nCornersIn (f._sides q) corner ≠ 8))) := by
  induction l generalizing code with
  | nil =>
    refine ⟨?_, ?_⟩
    · simp [Frustum.planeLoop, hc]
    · intro _ q
      simp [Frustum.planeLoop]
  | cons i rest ih =>
    have hi : i ∉ rest := (List.nodup_cons.mp hl).1
    have hrest : rest.Nodup := (List.nodup_cons.mp hl).2
    have hclr : ∀ q : Fin 6, (code.clearPlane i.val)._planes.testBit q.val =
        (code._planes.testBit q.val && decide (q ≠ i)) := by
      intro q
      have hq8 : q.val < 8 := by have := q.isLt; omega
      rw [clearPlane_testBit]
      by_cases hqi : q = i
      · subst hqi
        simp
      · have : q.val ≠ i.val := fun e => hqi (Fin.ext e)
        simp [hq8, hqi, this]
    unfold Frustum.planeLoop
    by_cases hn : code.notCulledBy i.val = true
    · -- the bit of the plane is cleared: the plane is skipped
      have hbit := (notCulledBy_iff code i.val).mp hn
      rw [if_pos hn]
      obtain ⟨ih1, ih2⟩ := ih hrest code hc
      refine ⟨?_, ?_⟩
      · rw [ih1]
        constructor
        · rintro ⟨j, hj, h1, h2⟩
          exact ⟨j, List.mem_cons_of_mem _ hj, h1, h2⟩
        · rintro ⟨j, hj, h1, h2⟩
          rcases List.mem_cons.mp hj with e | hj
          · subst e
            rw [hbit] at h1
            exact absurd h1 (by simp)
          · exact ⟨j, hj, h1, h2⟩
      · intro hr q
        rw [ih2 hr q]
        constructor
        · rintro ⟨h1, h2⟩
          refine ⟨h1, fun hq => ?_⟩
          rcases List.mem_cons.mp hq with e | hq
          · subst e
            rw [hbit] at h1
            exact absurd h1 (by simp)
          · exact h2 hq
        · rintro ⟨h1, h2⟩
          exact ⟨h1, fun hq => h2 (List.mem_cons_of_mem _ hq)⟩
    · have hbit : code._planes.testBit i.val = true := by
        cases hb : code._planes.testBit i.val with
        | true => rfl
        | false => exact absurd ((notCulledBy_iff code i.val).mpr hb) hn
      rw [if_neg hn]
      by_cases h0 : nCornersIn (f._sides i) corner = 0
      · -- no corner inside: the box is culled
        rw [if_pos h0]
        refine ⟨?_, ?_⟩
        · exact ⟨fun _ => ⟨i, List.mem_cons_self _ _, hbit, h0⟩, fun _ => rfl⟩
        · intro hr
          exact absurd hr (by simp)
      · rw [if_neg h0]
        by_cases h8 : nCornersIn (f._sides i) corner = 8
        · -- the eight corners inside: the bit is cleared
          rw [if_pos h8]
          have hcc : (code.clearPlane i.val)._culled = false := hc
          by_cases hall : (code.clearPlane i.val).allIn = true
          · rw [if_pos hall]
            have hz := (allIn_iff _).mp hall
            refine ⟨?_, ?_⟩
            · constructor
              · intro h
                rw [hcc] at h
                exact absurd h (by simp)
              · rintro ⟨j, hj, h1, h2⟩
                exfalso
                rcases List.mem_cons.mp hj with e | hj
                · subst e
                  exact h0 h2
                · have hji : j ≠ i := fun e => hi (e ▸ hj)
                  have := hclr j
                  rw [hz, Nat.zero_testBit, h1] at this
                  simp [hji] at this
            · intro _ q
              rw [hz, Nat.zero_testBit]
              constructor
              · intro h
                exact absurd h (by simp)
              · rintro ⟨h1, h2⟩
                exfalso
                by_cases hqi : q = i
                · subst hqi
                  exact h2 (List.mem_cons_self _ _) h8
                · have := hclr q
                  rw [hz, Nat.zero_testBit, h1] at this
                  simp [hqi] at this
          · rw [if_neg hall]
            obtain ⟨ih1, ih2⟩ := ih hrest (code.clearPlane i.val) hcc
            refine ⟨?_, ?_⟩
            · rw [ih1]
              constructor
              · rintro ⟨j, hj, h1, h2⟩
                rw [hclr j] at h1
                simp only [Bool.and_eq_true, decide_eq_true_eq] at h1
                exact ⟨j, List.mem_cons_of_mem _ hj, h1.1, h2⟩
              · rintro ⟨j, hj, h1, h2⟩
                rcases List.mem_cons.mp hj with e | hj
                · subst e
                  exact absurd h2 h0
                · have hji : j ≠ i := fun e => hi (e ▸ hj)
                  refine ⟨j, hj, ?_, h2⟩
                  rw [hclr j, h1]
                  simp [hji]
            · intro hr q
              rw [ih2 hr q, hclr q]
              simp only [Bool.and_eq_true, decide_eq_true_eq]
              constructor
              · rintro ⟨⟨h1, hqi⟩, h2⟩
                refine ⟨h1, fun hq => ?_⟩
                rcases List.mem_cons.mp hq with e | hq
                · exact absurd e hqi
                · exact h2 hq
              · rintro ⟨h1, h2⟩
                have hqi : q ≠ i := by
                  intro e
                  subst e
                  exact h2 (List.mem_cons_self _ _) h8
                exact ⟨⟨h1, hqi⟩, fun hq => h2 (List.mem_cons_of_mem _ hq)⟩
        · -- between one and seven corners inside: the bit stays
          rw [if_neg h8]
          obtain ⟨ih1, ih2⟩ := ih hrest code hc
          refine ⟨?_, ?_⟩
          · rw [ih1]
            constructor
            · rintro ⟨j, hj, h1, h2⟩
              exact ⟨j, List.mem_cons_of_mem _ hj, h1, h2⟩
            · rintro ⟨j, hj, h1, h2⟩
              rcases List.mem_cons.mp hj with e | hj
              · subst e
                exact absurd h2 h0
              · exact ⟨j, hj, h1, h2⟩
          · intro hr q
            rw [ih2 hr q]
            constructor
            · rintro ⟨h1, h2⟩
              refine ⟨h1, fun hq => ?_⟩
              rcases List.mem_cons.mp hq with e | hq
              · subst e
                exact h8
              · exact h2 hq
            · rintro ⟨h1, h2⟩
              exact ⟨h1, fun hq => h2 (List.mem_cons_of_mem _ hq)⟩

theorem notCulledBy_false_iff (c : Outcode) (p : Nat) :
    c.notCulledBy p = false ↔ c._planes.testBit p = true := by
  cases h : c.notCulledBy p with
  | true =>
    have := (notCulledBy_iff c p).mp h
    simp [this]
  | false =>
    cases hb : c._planes.testBit p with
    | true => simp
    | false =>
      have := (notCulledBy_iff c p).mpr hb
      rw [h] at this
      exact absurd this (by simp)

/-! ## The characterisation of `intersectBox`: the property -/

/-- C25: for every frustum, box and parent outcode that is neither culled nor
all-clear, `intersectBox` returns an outcode; it is culled if and only if some
plane whose bit is set in the parent has none of the eight corners of the box at a
distance `>= 0`; otherwise it is not culled, and for each plane `i` the bit `i` is
set in the result if and only if it is set in the parent and between 1 and 7 of
the corners lie at a distance `>= 0` from the plane `i`. -/
theorem intersectBox_characterisation {F : Type} [LinearOrderedRing F] (f : Frustum F)
    (corner : Fin 8 → Vec3 F) (parent : Outcode)
    (hc : parent.culled = false) (ha : parent.allIn = false) :
    ∃ r, f.intersectBox corner parent = some r ∧
      (r.culled = true ↔
        ∃ i : Fin 6, parent.notCulledBy i.val = false ∧
          nCornersIn (f._sides i) corner = 0) ∧
      (r.culled = false → ∀ i : Fin 6,
        (r.notCulledBy i.val = false ↔
          parent.notCulledBy i.val = false ∧
            1 ≤ nCornersIn (f._sides i) corner ∧ nCornersIn (f._sides i) corner ≤ 7)) := by
  obtain ⟨h1, h2⟩ := planeLoop_char f corner (List.finRange 6) (List.nodup_finRange 6) parent hc
  refine ⟨f.planeLoop corner (List.finRange 6) parent, ?_, ?_, ?_⟩
  · unfold Frustum.intersectBox
    rw [hc, ha]
    rfl
  · unfold Outcode.culled
    rw [h1]
    constructor
    · rintro ⟨i, _, hb, h0⟩
      exact ⟨i, (notCulledBy_false_iff parent i.val).mpr hb, h0⟩
    · rintro ⟨i, hb, h0⟩
      exact ⟨i, List.mem_finRange i, (notCulledBy_false_iff parent i.val).mp hb, h0⟩
  · intro hr i
    have hr2 : (f.planeLoop corner (List.finRange 6) parent)._culled = false := hr
    rw [notCulledBy_false_iff, notCulledBy_false_iff, h2 hr2 i]
    have hle := nCornersIn_le (f._sides i) corner
    constructor
    · rintro ⟨hb, h8⟩
      have h8b := h8 (List.mem_finRange i)
      have h0 : nCornersIn (f._sides i) corner ≠ 0 := by
        intro h0
        have : (f.planeLoop corner (List.finRange 6) parent)._culled = true :=
          h1.mpr ⟨i, List.mem_finRange i, hb, h0⟩
        rw [hr2] at this
        exact absurd this (by simp)
      exact ⟨hb, by omega, by omega⟩
    · rintro ⟨hb, h1b, h7⟩
      exact ⟨hb, fun _ => by omega⟩

/-- C25, on the initial outcode and a box that straddles the left plane of
`sampleFrustum` and is inside the other five planes. -/
theorem intersectBox_characterisation_witness :
    ∃ r, sampleFrustum.intersectBox boxAcrossLeft Outcode.construct = some r ∧
      (r.culled = true ↔
        ∃ i : Fin 6, Outcode.construct.notCulledBy i.val = false ∧
          nCornersIn (sampleFrustum._sides i) boxAcrossLeft = 0) ∧
      (r.culled = false → ∀ i : Fin 6,
        (r.notCulledBy i.val = false ↔
          Outcode.construct.notCulledBy i.val = false ∧
            1 ≤ nCornersIn (sampleFrustum._sides i) boxAcrossLeft ∧
            nCornersIn (sampleFrustum._sides i) boxAcrossLeft ≤ 7)) :=
  intersectBox_characterisation sampleFrustum boxAcrossLeft Outcode.construct
    (by decide) (by decide)

/-! ## Soundness of culling: auxiliary facts -/

theorem coord_le {F : Type} [LinearOrderedRing F] (a lo hi x : F) (h1 : lo ≤ x) (h2 : x ≤ hi) :
    ∃ c : Bool, a * x ≤ a * (if c then hi else lo) := by
  by_cases ha : 0 ≤ a
  · exact ⟨true, mul_le_mul_of_nonneg_left h2 ha⟩
  · exact ⟨false, mul_le_mul_of_nonpos_left h1 (le_of_lt (not_le.mp ha))⟩

theorem coord_ge {F : Type} [LinearOrderedRing F] (a lo hi x : F) (h1 : lo ≤ x) (h2 : x ≤ hi) :
    ∃ c : Bool, a * (if c then hi else lo) ≤ a * x := by
  by_cases ha : 0 ≤ a
  · exact ⟨false, mul_le_mul_of_nonneg_left h1 ha⟩
  · exact ⟨true, mul_le_mul_of_nonpos_left h2 (le_of_lt (not_le.mp ha))⟩

/-- The corner that the three choices select. -/
theorem corner_choice {F : Type} (b : AABB F) (cx cy cz : Bool) :
    ∃ j : Fin 8, b.corner j =
      ⟨if cx then b._max.x else b._min.x, if cy then b._max.y else b._min.y,
       if cz then b._max.z else b._min.z⟩ := by
  cases cx <;> cases cy <;> cases cz
  · exact ⟨0, rfl⟩
  · exact ⟨4, rfl⟩
  · exact ⟨2, rfl⟩
  · exact ⟨6, rfl⟩
  · exact ⟨1, rfl⟩
  · exact ⟨5, rfl⟩
  · exact ⟨3, rfl⟩
  · exact ⟨7, rfl⟩

/-- Some corner of the box is at least as far inside the plane as the point. -/
theorem corner_above {F : Type} [LinearOrderedRing F] (pl : Plane F) (b : AABB F)
    (p : Vec3 F) (hp : b.contains p) :
    ∃ j : Fin 8, pl.distanceToPt p ≤ pl.distanceToPt (b.corner j) := by
  obtain ⟨x1, x2, y1, y2, z1, z2⟩ := hp
  obtain ⟨cx, hx⟩ := coord_le pl.nx _ _ _ x1 x2
  obtain ⟨cy, hy⟩ := coord_le pl.ny _ _ _ y1 y2
  obtain ⟨cz, hz⟩ := coord_le pl.nz _ _ _ z1 z2
  obtain ⟨j, hj⟩ := corner_choice b cx cy cz
  refine ⟨j, ?_⟩
  rw [hj]
  unfold Plane.distanceToPt
  exact add_le_add (add_le_add (add_le_add hx hy) hz) le_rfl

/-- Some corner of the box is at most as far inside the plane as the point. -/
theorem corner_below {F : Type} [LinearOrderedRing F] (pl : Plane F) (b : AABB F)
    (p : Vec3 F) (hp : b.contains p) :
    ∃ j : Fin 8, pl.distanceToPt (b.corner j) ≤ pl.distanceToPt p := by
  obtain ⟨x1, x2, y1, y2, z1, z2⟩ := hp
  obtain ⟨cx, hx⟩ := coord_ge pl.nx _ _ _ x1 x2
  obtain ⟨cy, hy⟩ := coord_ge pl.ny _ _ _ y1 y2
  obtain ⟨cz, hz⟩ := coord_ge pl.nz _ _ _ z1 z2
  obtain ⟨j, hj⟩ := corner_choice b cx cy cz
  refine ⟨j, ?_⟩
  rw [hj]
  unfold Plane.distanceToPt
  exact add_le_add (add_le_add (add_le_add hx hy) hz) le_rfl

theorem nCornersIn_zero_iff {F : Type} [LinearOrderedRing F] (pl : Plane F)
    (corner : Fin 8 → Vec3 F) (h : nCornersIn pl corner = 0) (j : Fin 8) :
    pl.distanceToPt (corner j) < 0 := by
  unfold nCornersIn at h
  rw [List.countP_eq_zero] at h
  have := h j (List.mem_finRange j)
  simpa using this

/-! ## Soundness of culling: the property -/

/-- C26: culling is sound, in every linearly ordered ring and so over the reals.
For every plane and every axis-aligned box, if the eight corners of the box have a
negative distance to the plane then so has every point of the box, and if the
eight corners have a distance `>= 0` then so has every point of the box; hence
whenever `intersectBox` returns a culled outcode, no point of the box lies inside
the six half-spaces of the frustum. -/
theorem culling_sound {F : Type} [LinearOrderedRing F] (pl : Plane F) (f : Frustum F)
    (b : AABB F) (parent r : Outcode) :
    ((∀ j, pl.distanceToPt (b.corner j) < 0) →
      ∀ p, b.contains p → pl.distanceToPt p < 0) ∧
    ((∀ j, 0 ≤ pl.distanceToPt (b.corner j)) →
      ∀ p, b.contains p → 0 ≤ pl.distanceToPt p) ∧
    (f.intersectBox b.corner parent = some r → r.culled = true →
      ∀ p, b.contains p → ¬ f.inside p) := by
  refine ⟨?_, ?_, ?_⟩
  · intro h p hp
    obtain ⟨j, hj⟩ := corner_above pl b p hp
    exact lt_of_le_of_lt hj (h j)
  · intro h p hp
    obtain ⟨j, hj⟩ := corner_below pl b p hp
    exact le_trans (h j) hj
  · intro hres hcul p hp hin
    unfold Frustum.intersectBox at hres
    split at hres
    · rename_i hpre
      have hpc : parent._culled = false := by
        cases hx : parent._culled with
        | false => rfl
        | true => simp [Outcode.culled, hx] at hpre
      have hr := Option.some.inj hres
      obtain ⟨h1, _⟩ := planeLoop_char f b.corner (List.finRange 6) (List.nodup_finRange 6)
        parent hpc
      rw [hr] at h1
      obtain ⟨i, _, _, h0⟩ := h1.mp hcul
      obtain ⟨j, hj⟩ := corner_above (f._sides i) b p hp
      have hneg := nCornersIn_zero_iff (f._sides i) b.corner h0 j
      exact absurd (hin i) (not_le.mpr (lt_of_le_of_lt hj hneg))
    · simp at hres

/-- C26, on the near plane of `sampleFrustum`: the box from (-1, -1, -6) to
(1, 1, -4) is in front of it and is culled, the box from (-1, -1, -1) to (1, 1, 1)
is behind it. -/
theorem culling_sound_witness :
    (∀ p, sampleBox.contains p → (sampleFrustum._sides Frustum.NEAR).distanceToPt p < 0) ∧
    (∀ p, innerBox.contains p → 0 ≤ (sampleFrustum._sides Frustum.NEAR).distanceToPt p) ∧
    (∀ p, sampleBox.contains p → ¬ sampleFrustum.inside p) :=
  ⟨(culling_sound (sampleFrustum._sides Frustum.NEAR) sampleFrustum sampleBox
      Outcode.construct ⟨true, 0⟩).1 (by decide),
   (culling_sound (sampleFrustum._sides Frustum.NEAR) sampleFrustum innerBox
      Outcode.construct ⟨true, 0⟩).2.1 (by decide),
   (culling_sound (sampleFrustum._sides Frustum.NEAR) sampleFrustum sampleBox
      Outcode.construct ⟨true, 0⟩).2.2 (by decide) (by decide)⟩

/-! ## The calls of `Tile::_init`: auxiliary facts -/

theorem initKidLog_eq (d : Nat)
    (init : Cell × List Nat → Nat → Nat → Nat → Nat → Nat → Option (Cell × List Nat))
    (cur : Cell) (log : List Nat) (hc : CellOK d cur) (id lod row col dr dc : Nat) (i : Int)
    (hg : GoodAt d cur id) (a : fullSize lod ≤ id) (b : id < fullSize (lod + 1))
    (hL : lod + 1 < d) (hi0 : 0 ≤ i) (hi4 : i < 4) :
    Tile.initKidLog init id (toInt32 (qtree.nwChild id)) row col lod (cur, log) i dr dc =
      init (cur, log) (4 * id + 1 + i.toNat) (4 * id + 1 + i.toNat) (u32 (row + dr))
        (u32 (col + dc)) (lod + 1) := by
  obtain ⟨t, ht, hid, L, hlod, hLd, a1, b1⟩ := hg
  have hd9 : d ≤ 9 := hc.2.2.1
  have hLL : L = lod := level_unique id L lod (by omega) (by omega) a1 b1 a b
  subst hLL
  obtain ⟨hch, _, hlt⟩ := child_eq d cur hc t id L i hid hlod hL b a hi0 hi4
  have h9 := fullSize_le_nine d hd9
  have hnw := nwChild_small id (by omega)
  have harg : ofInt32 (toInt32 (qtree.nwChild id) + i) = 4 * id + 1 + i.toNat := by
    rw [hnw, toInt32_ofNat_small _ (by omega)]
    unfold ofInt32
    omega
  unfold Tile.initKidLog
  simp only [ht, hch, harg, u32_small (L + 1) (by omega)]

/-- The number of nodes of a tree of depth `n + 1`. -/
theorem fullSize_tree (n : Nat) (hn : n < 15) : fullSize (n + 1) = 1 + 4 * fullSize n := by
  rw [fullSize_rec n hn]
  omega

/-- What `Tile::_init` does, with the record of its calls: the call on a tile of
the level `lod` returns, the cell is the one that `Tile._init` gives, and the calls
that it adds to the record are as many as the subtree of the tile has nodes down
to the last level, and include every node of this subtree. -/
theorem initLog_spec (m d : Nat) : ∀ (fuel : Nat) (c : Cell) (log : List Nat)
    (id row col lod : Nat),
    CellOK d c → lod < d → d ≤ lod + fuel → fullSize lod ≤ id → id < fullSize (lod + 1) →
    ∃ (c1 : Cell) (L : List Nat),
      Tile._initLog m fuel (c, log) id id row col lod = some (c1, log ++ L) ∧
      Tile._init m fuel c id id row col lod = some c1 ∧
      L.length = fullSize (d - lod) ∧
      (∀ n k, Desc id n k → lod + n < d → k ∈ L) := by
  intro fuel
  induction fuel with
  | zero =>
    intro c log id row col lod _ h1 h2
    omega
  | succ fuel ih =>
    intro c log id row col lod hc hlod hfuel a b
    have hd9 : d ≤ 9 := hc.2.2.1
    have h9 := fullSize_le_nine d hd9
    have hidd : id < fullSize d := by
      have := fullSize_mono (lod + 1) d (by omega) (by omega)
      omega
    obtain ⟨c1, hset, hc1⟩ := setTile_ok d c hc id hidd
      (fun t => { t with _id := id, _row := row, _col := col, _lod := toInt32 lod })
    have hget := getTile_setTile c c1 id
    have hself : GoodAt d c1 id := by
      obtain ⟨_, _, _, _, tiles, ht, hlen⟩ := hc
      have hlt : id < tiles.length := by omega
      have hex : c.getTile id = some tiles[id] := by
        unfold Cell.getTile
        rw [ht]
        exact List.getElem?_eq_getElem hlt
      refine ⟨{ tiles[id] with _id := id, _row := row, _col := col, _lod := toInt32 lod },
        ?_, rfl, lod, ?_, hlod, a, b⟩
      · rw [hget id _ hset, if_pos rfl, hex]
        rfl
      · exact toInt32_ofNat_small lod (by omega)
    have hcond : (u32 (lod + 1) < ofInt32 c1.depth) ↔ lod + 1 < d := by
      rw [cell_depth_eq d c1 hc1, ofInt32_ofNat_small d (by omega), u32_small _ (by omega)]
    rw [Tile._initLog, Tile._init]
    simp only [hset]
    by_cases hL : lod + 1 < d
    · rw [if_pos (hcond.mpr hL), if_pos (hcond.mpr hL)]
      have turn : ∀ (cur : Cell) (lg : List Nat) (dr dc : Nat) (i : Int), 0 ≤ i → i < 4 →
          CellOK d cur → GoodAt d cur id →
          ∃ (c2 : Cell) (L2 : List Nat),
            Tile.initKidLog (Tile._initLog m fuel) id (toInt32 (qtree.nwChild id)) row col lod
              (cur, lg) i dr dc = some (c2, lg ++ L2) ∧
            Tile.initKid (Tile._init m fuel) id (toInt32 (qtree.nwChild id)) row col lod
              cur i dr dc = some c2 ∧
            CellOK d c2 ∧ GoodAt d c2 id ∧
            L2.length = fullSize (d - (lod + 1)) ∧
            (∀ n k, Desc (4 * id + 1 + i.toNat) n k → lod + 1 + n < d → k ∈ L2) := by
        intro cur lg dr dc i hi0 hi4 hcur hg
        rw [initKidLog_eq d _ cur lg hcur id lod row col dr dc i hg a b hL hi0 hi4,
          initKid_eq d _ cur hcur id lod row col dr dc i hg a b hL hi0 hi4]
        have hkl := kid_level id lod i.toNat (by omega) (by omega) a b
        obtain ⟨c2, L2, e1, e2, hlen, hmem⟩ := ih cur lg (4 * id + 1 + i.toNat)
          (u32 (row + dr)) (u32 (col + dc)) (lod + 1) hcur hL (by omega) hkl.1 hkl.2
        obtain ⟨c2b, e3, hc2, _, hkeep⟩ := init_spec m d fuel cur (4 * id + 1 + i.toNat)
          (u32 (row + dr)) (u32 (col + dc)) (lod + 1) hcur hL (by omega) hkl.1 hkl.2
        rw [e2] at e3
        have e4 := Option.some.inj e3
        subst e4
        exact ⟨c2, L2, e1, e2, hc2, hkeep id hg, hlen, hmem⟩
      obtain ⟨c2, L2, a2, b2, hc2, hg2, hl2, hm2⟩ :=
        turn c1 (log ++ [id]) 0 0 0 (by decide) (by decide) hc1 hself
      obtain ⟨c3, L3, a3, b3, hc3, hg3, hl3, hm3⟩ :=
        turn c2 (log ++ [id] ++ L2) 0 (ofInt32 (Cell.width m >>> u32 (lod + 1))) 1
          (by decide) (by decide) hc2 hg2
      obtain ⟨c4, L4, a4, b4, hc4, hg4, hl4, hm4⟩ :=
        turn c3 (log ++ [id] ++ L2 ++ L3) (ofInt32 (Cell.width m >>> u32 (lod + 1)))
          (ofInt32 (Cell.width m >>> u32 (lod + 1))) 2 (by decide) (by decide) hc3 hg3
      obtain ⟨c5, L5, a5, b5, hc5, hg5, hl5, hm5⟩ :=
        turn c4 (log ++ [id] ++ L2 ++ L3 ++ L4) (ofInt32 (Cell.width m >>> u32 (lod + 1)))
          0 3 (by decide) (by decide) hc4 hg4
      refine ⟨c5, [id] ++ L2 ++ L3 ++ L4 ++ L5, ?_, ?_, ?_, ?_⟩
      · rw [a2]
        simp only [Option.bind]
        rw [a3]
        simp only
        rw [a4]
        simp only
        rw [a5]
        simp only [List.append_assoc]
      · rw [b2]
        simp only [Option.bind]
        rw [b3]
        simp only
        rw [b4]
        simp only
        exact b5
      · simp only [List.length_append, List.length_singleton, hl2, hl3, hl4, hl5]
        have e : d - lod = (d - (lod + 1)) + 1 := by omega
        rw [e, fullSize_tree _ (by omega)]
        omega
      · intro n k hdesc hn
        cases hdesc with
        | self => simp
        | kid _ n1 _ i hi hsub =>
          have hn1 : lod + 1 + n1 < d := by omega
          simp only [List.mem_append]
          interval_cases i
          · exact Or.inl (Or.inl (Or.inl (Or.inr (hm2 n1 k hsub hn1))))
          · exact Or.inl (Or.inl (Or.inr (hm3 n1 k hsub hn1)))
          · exact Or.inl (Or.inr (hm4 n1 k hsub hn1))
          · exact Or.inr (hm5 n1 k hsub hn1)
    · rw [if_neg (fun h => hL (hcond.mp h)), if_neg (fun h => hL (hcond.mp h))]
      refine ⟨c1, [id], rfl, rfl, ?_, ?_⟩
      · have e : d - lod = 0 + 1 := by omega
        have h1 : fullSize (0 + 1) = 1 := by decide
        rw [e, h1]
        rfl
      · intro n k hdesc hn
        have hn0 : n = 0 := by omega
        subst hn0
        rw [desc_zero id k hdesc]
        simp

/-- A list of `n` numbers that holds every number below `n` holds each of them
once, and holds no other number. -/
theorem count_of_cover (n : Nat) (L : List Nat) (hlen : L.length = n)
    (hall : ∀ k, k < n → k ∈ L) :
    (∀ k, k < n → L.count k = 1) ∧ (∀ k ∈ L, k < n) := by
  have hsub : List.range n ⊆ L := fun k hk => hall k (List.mem_range.mp hk)
  have hsp : (List.range n).Subperm L := List.subperm_of_subset (List.nodup_range n) hsub
  have hperm : (List.range n).Perm L :=
    hsp.perm_of_length_le (by rw [hlen, List.length_range])
  constructor
  · intro k hk
    rw [← hperm.count_eq k]
    exact List.count_eq_one_of_mem (List.nodup_range n) (List.mem_range.mpr hk)
  · intro k hk
    exact List.mem_range.mp (hperm.mem_iff.mpr hk)

set_option maxRecDepth 100000 in
theorem rawCell_init :
    Tile._initLog 256 2 (rawCell, []) 0 0 0 0 0 = some (sampleCell, [0, 1, 2, 3, 4]) := by
  decide

/-! ## The calls of `Tile::_init`: the property -/

/-- C28: for every cell depth `d` from 1 to 9 and every cell with an array of
`fullSize(d)` tiles, `Tile::_init` started on the root (index 0, id 0, row 0,
column 0, level 0) returns; it runs on every index below `fullSize(d)` exactly
once and on no other index; afterwards the tile at the index `id` has `_id = id`,
and its `_lod` is the unique level `L` with `fullSize(L) <= id < fullSize(L+1)`. -/
theorem init_exactly_once (m d : Nat) (c : Cell) (hc : CellOK d c) :
    ∃ (c1 : Cell) (log : List Nat),
      Tile._initLog m d (c, []) 0 0 0 0 0 = some (c1, log) ∧
      Tile._init m d c 0 0 0 0 0 = some c1 ∧
      (∀ id, id < fullSize d → log.count id = 1) ∧
      (∀ id ∈ log, id < fullSize d) ∧
      ∀ id, id < fullSize d →
        ∃ (t : Tile) (L : Nat), c1.getTile id = some t ∧ t._id = id ∧ t._lod = (L : Int) ∧
          fullSize L ≤ id ∧ id < fullSize (L + 1) ∧
          ∀ L2, L2 < 15 → fullSize L2 ≤ id → id < fullSize (L2 + 1) → L2 = L := by
  have hd1 : 1 ≤ d := hc.2.1
  have hd9 : d ≤ 9 := hc.2.2.1
  have h0 : fullSize 0 = 0 := by decide
  have h1 : fullSize (0 + 1) = 1 := by decide
  obtain ⟨c1, L, e1, e2, hlen, hmem⟩ := initLog_spec m d d c [] 0 0 0 0 hc (by omega)
    (by omega) (by omega) (by omega)
  obtain ⟨c1b, e3, _, hgood, _⟩ := init_spec m d d c 0 0 0 0 hc (by omega) (by omega)
    (by omega) (by omega)
  rw [e2] at e3
  have e4 := Option.some.inj e3
  subst e4
  have hall : ∀ k, k < fullSize d → k ∈ L := by
    intro k hk
    obtain ⟨lv, hlv, a, b⟩ := level_exists d (by omega) k hk
    exact hmem lv k (desc_root lv (by omega) k a b) (by omega)
  obtain ⟨hcount, hin⟩ := count_of_cover (fullSize d) L hlen hall
  refine ⟨c1, L, by simpa using e1, e2, hcount, hin, ?_⟩
  intro id hid
  obtain ⟨lv, hlv, a, b⟩ := level_exists d (by omega) id hid
  obtain ⟨t, ht, htid, L1, hlod, hL1, a1, b1⟩ :=
    hgood lv id (desc_root lv (by omega) id a b) (by omega)
  refine ⟨t, L1, ht, htid, hlod, a1, b1, ?_⟩
  intro L2 hL2 a2 b2
  exact level_unique id L2 L1 hL2 (by omega) a2 b2 a1 b1

/-- C28, on a cell of depth 2: the five tiles are visited in the order 0, 1, 2, 3,
4. -/
theorem init_exactly_once_witness :
    ∃ (c1 : Cell) (log : List Nat),
      Tile._initLog 256 2 (rawCell, []) 0 0 0 0 0 = some (c1, log) ∧
      Tile._init 256 2 rawCell 0 0 0 0 0 = some c1 ∧
      (∀ id, id < fullSize 2 → log.count id = 1) ∧
      (∀ id ∈ log, id < fullSize 2) ∧
      ∀ id, id < fullSize 2 →
        ∃ (t : Tile) (L : Nat), c1.getTile id = some t ∧ t._id = id ∧ t._lod = (L : Int) ∧
          fullSize L ≤ id ∧ id < fullSize (L + 1) ∧
          ∀ L2, L2 < 15 → fullSize L2 ≤ id → id < fullSize (L2 + 1) → L2 = L :=
  init_exactly_once 256 2 rawCell
    ⟨rfl, by decide, by decide, rfl, List.replicate 5 (Tile.construct zeroTile), rfl, rfl⟩

/-! ## The squares of the tiles: auxiliary facts -/

theorem geoAt_good (W d : Nat) (c : Cell) (k : Nat) (h : GeoAt W d c k) : GoodAt d c k := by
  obtain ⟨t, ht, hid, L, h1, h2, h3, h4, _, _⟩ := h
  exact ⟨t, ht, hid, L, h1, h2, h3, h4⟩

theorem shr_pow (e L : Nat) (h : L ≤ e) : (2 ^ e) >>> L = 2 ^ (e - L) := by
  rw [Nat.shiftRight_eq_div_pow, Nat.pow_div h (by decide)]

/-- The width of a level is twice the width of the next level. -/
theorem shr_half (e L : Nat) (h : L + 1 ≤ e) :
    (2 ^ e) >>> L = 2 * ((2 ^ e) >>> (L + 1)) ∧ 0 < (2 ^ e) >>> (L + 1) := by
  rw [shr_pow e L (by omega), shr_pow e (L + 1) h]
  have e1 : e - L = (e - (L + 1)) + 1 := by omega
  rw [e1, Nat.pow_succ]
  exact ⟨by ring, Nat.two_pow_pos _⟩

theorem pow_lt_31 (e : Nat) (he : e < 31) : 2 ^ e < 2147483648 := by
  have : 2 ^ e < 2 ^ 31 := Nat.pow_lt_pow_right (by decide) he
  omega

theorem shr_le (W L : Nat) : W >>> L ≤ W := by
  rw [Nat.shiftRight_eq_div_pow]
  exact Nat.div_le_self _ _

/-- The shift of the width of the cell, an `int`, is the shift of the number. -/
theorem width_shift (W n : Nat) (hW : W < 2147483648) :
    ofInt32 (Cell.width W >>> n) = W >>> n := by
  unfold Cell.width
  rw [toInt32_ofNat_small W hW, Int.shiftRight_eq_div_pow, Nat.shiftRight_eq_div_pow]
  have h1 : ((W : Int) / ((2 ^ n : Nat) : Int)) = ((W / 2 ^ n : Nat) : Int) := by
    push_cast
    rfl
  rw [h1]
  have := Nat.div_le_self W (2 ^ n)
  exact ofInt32_ofNat_small _ (by omega)

theorem nwRowOf_bound (e : Nat) : ∀ (L : Nat), L ≤ e → ∀ k,
    nwRowOf (2 ^ e) L k + (2 ^ e) >>> L ≤ 2 ^ e := by
  intro L
  induction L with
  | zero =>
    intro _ k
    simp [nwRowOf]
  | succ L ih =>
    intro h k
    have h1 := ih (by omega) ((k - 1) / 4)
    obtain ⟨h2, _⟩ := shr_half e L h
    unfold nwRowOf
    split <;> omega

theorem nwColOf_bound (e : Nat) : ∀ (L : Nat), L ≤ e → ∀ k,
    nwColOf (2 ^ e) L k + (2 ^ e) >>> L ≤ 2 ^ e := by
  intro L
  induction L with
  | zero =>
    intro _ k
    simp [nwColOf]
  | succ L ih =>
    intro h k
    have h1 := ih (by omega) ((k - 1) / 4)
    obtain ⟨h2, _⟩ := shr_half e L h
    unfold nwColOf
    split <;> omega

theorem nwRowOf_kid (W L id i : Nat) (hi : i < 4) :
    nwRowOf W (L + 1) (4 * id + 1 + i) =
      nwRowOf W L id + (if i = 2 ∨ i = 3 then W >>> (L + 1) else 0) := by
  have h1 : (4 * id + 1 + i - 1) / 4 = id := by omega
  have h2 : (4 * id + 1 + i - 1) % 4 = i := by omega
  rw [nwRowOf, h1, h2]

theorem nwColOf_kid (W L id i : Nat) (hi : i < 4) :
    nwColOf W (L + 1) (4 * id + 1 + i) =
      nwColOf W L id + (if i = 1 ∨ i = 2 then W >>> (L + 1) else 0) := by
  have h1 : (4 * id + 1 + i - 1) / 4 = id := by omega
  have h2 : (4 * id + 1 + i - 1) % 4 = i := by omega
  rw [nwColOf, h1, h2]

/-- The row that `Tile::_init` passes to the child `i` is the row that the child
is to have; the sum does not wrap around. -/
theorem kid_row (e L id i dr row : Nat) (hi : i < 4) (hL : L + 1 ≤ e) (h31 : e < 31)
    (hrow : row = nwRowOf (2 ^ e) L id)
    (hdr : dr = if i = 2 ∨ i = 3 then (2 ^ e) >>> (L + 1) else 0) :
    u32 (row + dr) = nwRowOf (2 ^ e) (L + 1) (4 * id + 1 + i) := by
  have hb := nwRowOf_bound e L (by omega) id
  obtain ⟨hw2, _⟩ := shr_half e L hL
  have hW := pow_lt_31 e h31
  rw [nwRowOf_kid _ _ _ _ hi, ← hrow, ← hdr]
  apply u32_small
  rw [hdr]
  split <;> omega

/-- The column that `Tile::_init` passes to the child `i` is the column that the
child is to have; the sum does not wrap around. -/
theorem kid_col (e L id i dc col : Nat) (hi : i < 4) (hL : L + 1 ≤ e) (h31 : e < 31)
    (hcol : col = nwColOf (2 ^ e) L id)
    (hdc : dc = if i = 1 ∨ i = 2 then (2 ^ e) >>> (L + 1) else 0) :
    u32 (col + dc) = nwColOf (2 ^ e) (L + 1) (4 * id + 1 + i) := by
  have hb := nwColOf_bound e L (by omega) id
  obtain ⟨hw2, _⟩ := shr_half e L hL
  have hW := pow_lt_31 e h31
  rw [nwColOf_kid _ _ _ _ hi, ← hcol, ← hdc]
  apply u32_small
  rw [hdc]
  split <;> omega

/-- What `Tile::_init` establishes on the NW vertices, in a cell whose width is
`2^e` with `d <= e + 1` and `e < 31`: the call on a tile with its NW vertex in
place returns, the tiles of the subtree have their NW vertices in place, and the
tiles that had stay so. -/
theorem init_geo (e d : Nat) (he : d ≤ e + 1) (h31 : e < 31) :
    ∀ (fuel : Nat) (c : Cell) (id row col lod : Nat),
    CellOK d c → lod < d → d ≤ lod + fuel → fullSize lod ≤ id → id < fullSize (lod + 1) →
    row = nwRowOf (2 ^ e) lod id → col = nwColOf (2 ^ e) lod id →
    ∃ c1, Tile._init (2 ^ e) fuel c id id row col lod = some c1 ∧ CellOK d c1 ∧
      (∀ n k, Desc id n k → lod + n < d → GeoAt (2 ^ e) d c1 k) ∧
      (∀ k, GeoAt (2 ^ e) d c k → GeoAt (2 ^ e) d c1 k) := by
  intro fuel
  induction fuel with
  | zero =>
    intro c id row col lod _ h1 h2
    omega
  | succ fuel ih =>
    intro c id row col lod hc hlod hfuel a b hrow hcol
    have hd9 : d ≤ 9 := hc.2.2.1
    have h9 := fullSize_le_nine d hd9
    have hW := pow_lt_31 e h31
    have hidd : id < fullSize d := by
      have := fullSize_mono (lod + 1) d (by omega) (by omega)
      omega
    obtain ⟨c1, hset, hc1⟩ := setTile_ok d c hc id hidd
      (fun t => { t with _id := id, _row := row, _col := col, _lod := toInt32 lod })
    have hget := getTile_setTile c c1 id
    have hself : GeoAt (2 ^ e) d c1 id := by
      obtain ⟨_, _, _, _, tiles, ht, hlen⟩ := hc
      have hlt : id < tiles.length := by omega
      have hex : c.getTile id = some tiles[id] := by
        unfold Cell.getTile
        rw [ht]
        exact List.getElem?_eq_getElem hlt
      refine ⟨{ tiles[id] with _id := id, _row := row, _col := col, _lod := toInt32 lod },
        ?_, rfl, lod, ?_, hlod, a, b, hrow, hcol⟩
      · rw [hget id _ hset, if_pos rfl, hex]
        rfl
      · exact toInt32_ofNat_small lod (by omega)
    have hkeep1 : ∀ k, GeoAt (2 ^ e) d c k → GeoAt (2 ^ e) d c1 k := by
      intro k hk
      by_cases hki : k = id
      · rw [hki]
        exact hself
      · obtain ⟨t, ht, hg⟩ := hk
        exact ⟨t, by rw [hget k _ hset, if_neg hki]; exact ht, hg⟩
    have hcond : (u32 (lod + 1) < ofInt32 c1.depth) ↔ lod + 1 < d := by
      rw [cell_depth_eq d c1 hc1, ofInt32_ofNat_small d (by omega), u32_small _ (by omega)]
    rw [Tile._init, hset]
    simp only
    by_cases hL : lod + 1 < d
    · rw [if_pos (hcond.mpr hL)]
      have hhalf : ofInt32 (Cell.width (2 ^ e) >>> u32 (lod + 1)) = (2 ^ e) >>> (lod + 1) := by
        rw [u32_small _ (by omega)]
        exact width_shift _ _ hW
      rw [hhalf]
      have turn : ∀ (cur : Cell) (dr dc : Nat) (i : Int), 0 ≤ i → i < 4 →
          CellOK d cur → GeoAt (2 ^ e) d cur id →
          u32 (row + dr) = nwRowOf (2 ^ e) (lod + 1) (4 * id + 1 + i.toNat) →
          u32 (col + dc) = nwColOf (2 ^ e) (lod + 1) (4 * id + 1 + i.toNat) →
          ∃ c2, Tile.initKid (Tile._init (2 ^ e) fuel) id (toInt32 (qtree.nwChild id)) row col
              lod cur i dr dc = some c2 ∧ CellOK d c2 ∧
            (∀ n k, Desc (4 * id + 1 + i.toNat) n k → lod + 1 + n < d →
              GeoAt (2 ^ e) d c2 k) ∧
            (∀ k, GeoAt (2 ^ e) d cur k → GeoAt (2 ^ e) d c2 k) := by
        intro cur dr dc i hi0 hi4 hcur hg hr hq
        rw [initKid_eq d _ cur hcur id lod row col dr dc i (geoAt_good _ _ _ _ hg) a b hL
          hi0 hi4]
        have hkl := kid_level id lod i.toNat (by omega) (by omega) a b
        exact ih cur (4 * id + 1 + i.toNat) _ _ (lod + 1) hcur hL (by omega) hkl.1 hkl.2 hr hq
      obtain ⟨c2, e2, hc2, hd2, hk2⟩ := turn c1 0 0 0 (by decide) (by decide) hc1 hself
        (kid_row e lod id 0 0 row (by decide) (by omega) h31 hrow (by simp))
        (kid_col e lod id 0 0 col (by decide) (by omega) h31 hcol (by simp))
      obtain ⟨c3, e3, hc3, hd3, hk3⟩ := turn c2 0 ((2 ^ e) >>> (lod + 1)) 1 (by decide)
        (by decide) hc2 (hk2 id hself)
        (kid_row e lod id 1 0 row (by decide) (by omega) h31 hrow (by simp))
        (kid_col e lod id 1 _ col (by decide) (by omega) h31 hcol (by simp))
      obtain ⟨c4, e4, hc4, hd4, hk4⟩ := turn c3 ((2 ^ e) >>> (lod + 1))
        ((2 ^ e) >>> (lod + 1)) 2 (by decide) (by decide) hc3 (hk3 id (hk2 id hself))
        (kid_row e lod id 2 _ row (by decide) (by omega) h31 hrow (by simp))
        (kid_col e lod id 2 _ col (by decide) (by omega) h31 hcol (by simp))
      obtain ⟨c5, e5, hc5, hd5, hk5⟩ := turn c4 ((2 ^ e) >>> (lod + 1)) 0 3 (by decide)
        (by decide) hc4 (hk4 id (hk3 id (hk2 id hself)))
        (kid_row e lod id 3 _ row (by decide) (by omega) h31 hrow (by simp))
        (kid_col e lod id 3 0 col (by decide) (by omega) h31 hcol (by simp))
      refine ⟨c5, ?_, hc5, ?_, ?_⟩
      · rw [e2]
        simp only [Option.bind]
        rw [e3]
        simp only
        rw [e4]
        simp only
        exact e5
      · intro n k hdesc hn
        cases hdesc with
        | self => exact hk5 _ (hk4 _ (hk3 _ (hk2 _ hself)))
        | kid _ n1 _ i hi hsub =>
          have hn1 : lod + 1 + n1 < d := by omega
          interval_cases i
          · exact hk5 _ (hk4 _ (hk3 _ (hd2 n1 k hsub hn1)))
          · exact hk5 _ (hk4 _ (hd3 n1 k hsub hn1))
          · exact hk5 _ (hd4 n1 k hsub hn1)
          · exact hd5 n1 k hsub hn1
      · intro k hk
        exact hk5 _ (hk4 _ (hk3 _ (hk2 _ (hkeep1 k hk))))
    · rw [if_neg (fun h => hL (hcond.mp h))]
      refine ⟨c1, rfl, hc1, ?_, hkeep1⟩
      intro n k hdesc hn
      have hn0 : n = 0 := by omega
      subst hn0
      rw [desc_zero id k hdesc]
      exact hself

/-- The four quadrants of a square of width `2 * h`. -/
theorem squares_arith (R Q h r q : Nat) (hpos : 0 < h) :
    ((R ≤ r ∧ r < R + 2 * h ∧ Q ≤ q ∧ q < Q + 2 * h) ↔
      ((R ≤ r ∧ r < R + h ∧ Q ≤ q ∧ q < Q + h) ∨
       (R ≤ r ∧ r < R + h ∧ Q + h ≤ q ∧ q < Q + h + h) ∨
       (R + h ≤ r ∧ r < R + h + h ∧ Q + h ≤ q ∧ q < Q + h + h) ∨
       (R + h ≤ r ∧ r < R + h + h ∧ Q ≤ q ∧ q < Q + h))) ∧
    (¬ ((R ≤ r ∧ r < R + h ∧ Q ≤ q ∧ q < Q + h) ∧
        (R ≤ r ∧ r < R + h ∧ Q + h ≤ q ∧ q < Q + h + h)) ∧
     ¬ ((R ≤ r ∧ r < R + h ∧ Q ≤ q ∧ q < Q + h) ∧
        (R + h ≤ r ∧ r < R + h + h ∧ Q + h ≤ q ∧ q < Q + h + h)) ∧
     ¬ ((R ≤ r ∧ r < R + h ∧ Q ≤ q ∧ q < Q + h) ∧
        (R + h ≤ r ∧ r < R + h + h ∧ Q ≤ q ∧ q < Q + h)) ∧
     ¬ ((R ≤ r ∧ r < R + h ∧ Q + h ≤ q ∧ q < Q + h + h) ∧
        (R + h ≤ r ∧ r < R + h + h ∧ Q + h ≤ q ∧ q < Q + h + h)) ∧
     ¬ ((R ≤ r ∧ r < R + h ∧ Q + h ≤ q ∧ q < Q + h + h) ∧
        (R + h ≤ r ∧ r < R + h + h ∧ Q ≤ q ∧ q < Q + h)) ∧
     ¬ ((R + h ≤ r ∧ r < R + h + h ∧ Q + h ≤ q ∧ q < Q + h + h) ∧
        (R + h ≤ r ∧ r < R + h + h ∧ Q ≤ q ∧ q < Q + h))) := by
  omega

/-- The tile at an index below `fullSize d`, after `Tile::_init` on the root. -/
theorem geo_tile (e d : Nat) (c1 : Cell) (hc1 : CellOK d c1)
    (hall : ∀ k, k < fullSize d → GeoAt (2 ^ e) d c1 k) (h31 : e < 31)
    (id : Nat) (t : Tile) (ht : c1.getTile id = some t) :
    id < fullSize d ∧ ∃ L : Nat, t._id = id ∧ t._lod = (L : Int) ∧ L < d ∧ fullSize L ≤ id ∧
      id < fullSize (L + 1) ∧ t.nwRow = nwRowOf (2 ^ e) L id ∧ t.nwCol = nwColOf (2 ^ e) L id ∧
      t.width (2 ^ e) = (2 ^ e) >>> L := by
  obtain ⟨_, _, _, _, tiles, htl, hlen⟩ := hc1
  have hid : id < fullSize d := by
    unfold Cell.getTile at ht
    rw [htl] at ht
    have := (List.getElem?_eq_some.mp ht).1
    omega
  obtain ⟨t2, ht2, hgid, L, hlod, hLd, a, b, hr, hq⟩ := hall id hid
  rw [ht] at ht2
  have e1 := Option.some.inj ht2
  subst e1
  refine ⟨hid, L, hgid, hlod, hLd, a, b, hr, hq, ?_⟩
  unfold Tile.width
  rw [hlod, Int.toNat_ofNat]
  exact width_shift _ _ (pow_lt_31 e h31)

/-- The cell after `Tile::_init` on the root of a cell of depth 2 and width 256. -/
theorem rawCell_init_cell : Tile._init 256 2 rawCell 0 0 0 0 0 = some sampleCell := by
  decide

/-! ## The squares of the tiles: the property -/

/-- C29: for every cell whose width `W` is a power of two with `W >= 2^(d-1)`, `d`
being the depth of the cell (and `W` below 2^31, so that it is an `int`), after
`Tile::_init` on the root every tile has `nwRow + width <= W` and
`nwCol + width <= W`, and every tile that is not a leaf, with the NW vertex
`(row, col)` and the width `w`, has the four children `child(NW)`, `child(NE)`,
`child(SE)`, `child(SW)` of width `w/2`, with `w = 2 * (w/2)` and `w/2 > 0`, whose
NW vertices are `(row, col)`, `(row, col + w/2)`, `(row + w/2, col + w/2)` and
`(row + w/2, col)`; the squares of the four children cover the square of the tile
and nothing else, and no two of them overlap. -/
theorem init_squares (W e d : Nat) (c : Cell) (hc : CellOK d c) (hW : W = 2 ^ e)
    (hge : 2 ^ (d - 1) ≤ W) (hint : W < 2147483648) :
    ∃ c1, Tile._init W d c 0 0 0 0 0 = some c1 ∧
      ∀ (id : Nat) (t : Tile), c1.getTile id = some t →
        t.nwRow + t.width W ≤ W ∧ t.nwCol + t.width W ≤ W ∧
        (t._lod + 1 < c1.depth →
          ∃ (i0 i1 i2 i3 : Nat) (k0 k1 k2 k3 : Tile),
            Tile.child c1 t qtree.NW = some (some i0) ∧ c1.getTile i0 = some k0 ∧
            Tile.child c1 t qtree.NE = some (some i1) ∧ c1.getTile i1 = some k1 ∧
            Tile.child c1 t qtree.SE = some (some i2) ∧ c1.getTile i2 = some k2 ∧
            Tile.child c1 t qtree.SW = some (some i3) ∧ c1.getTile i3 = some k3 ∧
            t.width W = 2 * (t.width W / 2) ∧ 0 < t.width W / 2 ∧
            k0.width W = t.width W / 2 ∧ k1.width W = t.width W / 2 ∧
            k2.width W = t.width W / 2 ∧ k3.width W = t.width W / 2 ∧
            k0.nwRow = t.nwRow ∧ k0.nwCol = t.nwCol ∧
            k1.nwRow = t.nwRow ∧ k1.nwCol = t.nwCol + t.width W / 2 ∧
            k2.nwRow = t.nwRow + t.width W / 2 ∧ k2.nwCol = t.nwCol + t.width W / 2 ∧
            k3.nwRow = t.nwRow + t.width W / 2 ∧ k3.nwCol = t.nwCol ∧
            (∀ r q, t.covers W r q ↔
              (k0.covers W r q ∨ k1.covers W r q ∨ k2.covers W r q ∨ k3.covers W r q)) ∧
            (∀ r q, ¬ (k0.covers W r q ∧ k1.covers W r q) ∧
              ¬ (k0.covers W r q ∧ k2.covers W r q) ∧ ¬ (k0.covers W r q ∧ k3.covers W r q) ∧
              ¬ (k1.covers W r q ∧ k2.covers W r q) ∧ ¬ (k1.covers W r q ∧ k3.covers W r q) ∧
              ¬ (k2.covers W r q ∧ k3.covers W r q))) := by
  subst hW
  have hd1 : 1 ≤ d := hc.2.1
  have hd9 : d ≤ 9 := hc.2.2.1
  have he : d ≤ e + 1 := by
    have := (Nat.pow_le_pow_iff_right (by decide : 1 < 2)).mp hge
    omega
  have h31 : e < 31 := by
    by_contra hcon
    have := Nat.pow_le_pow_right (by decide : 0 < 2) (by omega : 31 ≤ e)
    omega
  have h0 : fullSize 0 = 0 := by decide
  have h1 : fullSize (0 + 1) = 1 := by decide
  obtain ⟨c1, hinit, hc1, hdesc, _⟩ := init_geo e d he h31 d c 0 0 0 0 hc (by omega) (by omega)
    (by omega) (by omega) rfl rfl
  have hall : ∀ k, k < fullSize d → GeoAt (2 ^ e) d c1 k := by
    intro k hk
    obtain ⟨lv, hlv, a, b⟩ := level_exists d (by omega) k hk
    exact hdesc lv k (desc_root lv (by omega) k a b) (by omega)
  refine ⟨c1, hinit, ?_⟩
  intro id t ht
  obtain ⟨hid, L, htid, hlod, hLd, a, b, hr, hq, hw⟩ := geo_tile e d c1 hc1 hall h31 id t ht
  have hrb := nwRowOf_bound e L (by omega) id
  have hcb := nwColOf_bound e L (by omega) id
  refine ⟨by rw [hr, hw]; exact hrb, by rw [hq, hw]; exact hcb, ?_⟩
  intro hnl
  rw [cell_depth_eq d c1 hc1, hlod] at hnl
  have hL : L + 1 < d := by omega
  obtain ⟨hw2, hw0⟩ := shr_half e L (by omega)
  have kid : ∀ i : Int, 0 ≤ i → i < 4 →
      ∃ k : Tile, Tile.child c1 t i = some (some (4 * id + 1 + i.toNat)) ∧
        c1.getTile (4 * id + 1 + i.toNat) = some k ∧
        k.width (2 ^ e) = (2 ^ e) >>> (L + 1) ∧
        k.nwRow = nwRowOf (2 ^ e) (L + 1) (4 * id + 1 + i.toNat) ∧
        k.nwCol = nwColOf (2 ^ e) (L + 1) (4 * id + 1 + i.toNat) := by
    intro i hi0 hi4
    obtain ⟨hch, _, hlt⟩ := child_eq d c1 hc1 t id L i htid hlod hL b a hi0 hi4
    obtain ⟨k, hk, _⟩ := hall _ hlt
    obtain ⟨_, L2, _, _, hL2, a2, b2, hr2, hq2, hw2⟩ := geo_tile e d c1 hc1 hall h31 _ k hk
    have hkl := kid_level id L i.toNat (by omega) (by omega) a b
    have hLL : L2 = L + 1 :=
      level_unique _ L2 (L + 1) (by omega) (by omega) a2 b2 hkl.1 hkl.2
    subst hLL
    exact ⟨k, hch, hk, hw2, hr2, hq2⟩
  obtain ⟨k0, c0, g0, w0, r0, q0⟩ := kid 0 (by decide) (by decide)
  obtain ⟨k1, c1', g1, w1, r1, q1⟩ := kid 1 (by decide) (by decide)
  obtain ⟨k2, c2, g2, w2, r2, q2⟩ := kid 2 (by decide) (by decide)
  obtain ⟨k3, c3, g3, w3, r3, q3⟩ := kid 3 (by decide) (by decide)
  have t0 : (0 : Int).toNat = 0 := rfl
  have t1 : (1 : Int).toNat = 1 := rfl
  have t2 : (2 : Int).toNat = 2 := rfl
  have t3 : (3 : Int).toNat = 3 := rfl
  rw [t0] at c0 g0 r0 q0
  rw [t1] at c1' g1 r1 q1
  rw [t2] at c2 g2 r2 q2
  rw [t3] at c3 g3 r3 q3
  rw [nwRowOf_kid _ _ _ _ (by decide)] at r0 r1 r2 r3
  rw [nwColOf_kid _ _ _ _ (by decide)] at q0 q1 q2 q3
  simp only [Nat.reduceEqDiff, or_self, or_false, or_true, false_or, true_or, if_true,
    if_false, OfNat.ofNat_ne_zero, OfNat.zero_ne_ofNat, Nat.add_zero] at r0 r1 r2 r3 q0 q1 q2 q3
  have hhalf : t.width (2 ^ e) / 2 = (2 ^ e) >>> (L + 1) := by
    rw [hw, hw2]
    exact Nat.mul_div_cancel_left _ (by decide)
  refine ⟨_, _, _, _, k0, k1, k2, k3, c0, g0, c1', g1, c2, g2, c3, g3, ?_⟩
  rw [hhalf, w0, w1, w2, w3, r0, r1, r2, r3, q0, q1, q2, q3, hr, hq, hw]
  refine ⟨hw2, hw0, rfl, rfl, rfl, rfl, rfl, rfl, rfl, rfl, rfl, rfl, rfl, rfl, ?_, ?_⟩
  · intro r q
    unfold Tile.covers
    rw [w0, w1, w2, w3, r0, r1, r2, r3, q0, q1, q2, q3, hr, hq, hw, hw2]
    exact (squares_arith _ _ _ r q hw0).1
  · intro r q
    unfold Tile.covers
    rw [w0, w1, w2, w3, r0, r1, r2, r3, q0, q1, q2, q3]
    exact (squares_arith _ _ _ r q hw0).2

/-- C29, on a cell of depth 2 and width 256: the root tile has the width 256, and
its four children have the width 128. -/
theorem init_squares_witness :
    ∃ c1, Tile._init 256 2 rawCell 0 0 0 0 0 = some c1 ∧
      ∀ (id : Nat) (t : Tile), c1.getTile id = some t →
        t.nwRow + t.width 256 ≤ 256 ∧ t.nwCol + t.width 256 ≤ 256 ∧
        (t._lod + 1 < c1.depth →
          ∃ (i0 i1 i2 i3 : Nat) (k0 k1 k2 k3 : Tile),
            Tile.child c1 t qtree.NW = some (some i0) ∧ c1.getTile i0 = some k0 ∧
            Tile.child c1 t qtree.NE = some (some i1) ∧ c1.getTile i1 = some k1 ∧
            Tile.child c1 t qtree.SE = some (some i2) ∧ c1.getTile i2 = some k2 ∧
            Tile.child c1 t qtree.SW = some (some i3) ∧ c1.getTile i3 = some k3 ∧
            t.width 256 = 2 * (t.width 256 / 2) ∧ 0 < t.width 256 / 2 ∧
            k0.width 256 = t.width 256 / 2 ∧ k1.width 256 = t.width 256 / 2 ∧
            k2.width 256 = t.width 256 / 2 ∧ k3.width 256 = t.width 256 / 2 ∧
            k0.nwRow = t.nwRow ∧ k0.nwCol = t.nwCol ∧
            k1.nwRow = t.nwRow ∧ k1.nwCol = t.nwCol + t.width 256 / 2 ∧
            k2.nwRow = t.nwRow + t.width 256 / 2 ∧ k2.nwCol = t.nwCol + t.width 256 / 2 ∧
            k3.nwRow = t.nwRow + t.width 256 / 2 ∧ k3.nwCol = t.nwCol ∧
            (∀ r q, t.covers 256 r q ↔
              (k0.covers 256 r q ∨ k1.covers 256 r q ∨ k2.covers 256 r q ∨ k3.covers 256 r q)) ∧
            (∀ r q, ¬ (k0.covers 256 r q ∧ k1.covers 256 r q) ∧
              ¬ (k0.covers 256 r q ∧ k2.covers 256 r q) ∧ ¬ (k0.covers 256 r q ∧ k3.covers 256 r q) ∧
              ¬ (k1.covers 256 r q ∧ k2.covers 256 r q) ∧ ¬ (k1.covers 256 r q ∧ k3.covers 256 r q) ∧
              ¬ (k2.covers 256 r q ∧ k3.covers 256 r q))) :=
  init_squares 256 8 2 rawCell
    ⟨rfl, by decide, by decide, rfl, List.replicate 5 (Tile.construct zeroTile), rfl, rfl⟩
    (by decide) (by decide) (by decide)

/-! ## The bounding boxes of the tiles: auxiliary facts -/

theorem wasActivated_snoc (ops : List CacheOp) (op : CacheOp) (h : Nat) :
    wasActivated (ops ++ [op]) h = (wasActivated ops h || decide (op = CacheOp.activate h)) := by
  simp [wasActivated, List.any_append]

theorem make_isLoaded (c : TextureCache) (tree : Nat) (level row col : Int) (h : Nat) :
    (c.make tree level row col).2.isLoaded h = c.isLoaded h := by
  cases hf : c._textureTbl.find? (fun e => Equal e.1 ⟨tree, level, row, col⟩) with
  | some got => rw [make_found c tree level row col got hf]
  | none =>
    rw [make_new c tree level row col hf]
    unfold TextureCache.isLoaded
    simp only
    rcases Nat.lt_trichotomy h c.heap.length with hlt | heq | hgt
    · rw [List.getElem?_append_left hlt]
    · subst heq
      simp [TileTexture.construct]
    · have h1 : (c.heap ++ [TileTexture.construct tree level row col true])[h]? = none := by
        apply List.getElem?_eq_none
        simp
        omega
      have h2 : c.heap[h]? = none := List.getElem?_eq_none (by omega)
      rw [h1, h2]

theorem cacheInv_step (env : LoadEnv) (ops : List CacheOp) (c c1 : TextureCache) (op : CacheOp)
    (hinv : CacheInv ops c) (hrun : op.run env c = some c1) : CacheInv (ops ++ [op]) c1 := by
  obtain ⟨hwf, hact⟩ := hinv
  cases op with
  | make tree level row col =>
    have e := Option.some.inj hrun
    subst e
    refine ⟨make_wf c hwf tree level row col, ?_⟩
    intro h
    rw [wasActivated_snoc, make_isLoaded]
    simpa using hact h
  | activate g =>
    obtain ⟨o, ho, hna, hload⟩ := activate_some env c c1 g hrun
    obtain ⟨c2, e2, hwf2, _, ⟨o1, ho1, _, hld1⟩, _, _, hothers⟩ :=
      activate_spec env c hwf g o ho hna hload
    have hrun2 : TileTexture.activate env c g = some c1 := hrun
    rw [e2] at hrun2
    have e3 := Option.some.inj hrun2
    subst e3
    refine ⟨hwf2, ?_⟩
    intro h
    rw [wasActivated_snoc]
    by_cases hg : h = g
    · subst hg
      have : c2.isLoaded h = true := (isLoaded_iff c2 h).mpr ⟨o1, ho1, hld1⟩
      simp [this]
    · have hne : ¬ (CacheOp.activate g = CacheOp.activate h) := by
        intro e
        injection e with e
        exact hg e.symm
      simp only [hne, decide_False, Bool.or_false]
      rw [hact h, ← wf_mem_iff c hwf h, ← wf_mem_iff c2 hwf2 h, (hothers h hg).1,
        (hothers h hg).2]
  | release g =>
    obtain ⟨o, ho, ha⟩ := release_some c c1 g hrun
    obtain ⟨c2, e2, hwf2, _, ⟨o1, ho1, _, _, hld1⟩, _, _, hothers⟩ :=
      release_spec c hwf g o ho ha
    have hrun2 : TileTexture.release c g = some c1 := hrun
    rw [e2] at hrun2
    have e3 := Option.some.inj hrun2
    subst e3
    refine ⟨hwf2, ?_⟩
    intro h
    rw [wasActivated_snoc]
    have hne : ¬ (CacheOp.release g = CacheOp.activate h) := by
      intro e
      cases e
    simp only [hne, decide_False, Bool.or_false]
    by_cases hg : h = g
    · subst hg
      have h1 : c2.isLoaded h = true := (isLoaded_iff c2 h).mpr ⟨o1, ho1, hld1⟩
      have hld : o._txt ≠ none := by
        intro e
        have := (hwf.unloaded h o ho e).1
        rw [ha] at this
        exact absurd this (by simp)
      have h0 : c.isLoaded h = true := (isLoaded_iff c h).mpr ⟨o, ho, hld⟩
      rw [hact h, h0, h1]
    · rw [hact h, ← wf_mem_iff c hwf h, ← wf_mem_iff c2 hwf2 h, (hothers h hg).1,
        (hothers h hg).2]

theorem cacheInv_run (env : LoadEnv) : ∀ (ops2 ops1 : List CacheOp) (c c1 : TextureCache),
    CacheInv ops1 c → runOps env ops2 c = some c1 → CacheInv (ops1 ++ ops2) c1 := by
  intro ops2
  induction ops2 with
  | nil =>
    intro ops1 c c1 hinv hrun
    have e := Option.some.inj hrun
    subst e
    simpa using hinv
  | cons op ops ih =>
    intro ops1 c c1 hinv hrun
    rw [runOps] at hrun
    cases hop : op.run env c with
    | none =>
      rw [hop] at hrun
      simp at hrun
    | some c2 =>
      rw [hop] at hrun
      have := ih (ops1 ++ [op]) c2 c1 (cacheInv_step env ops1 c c2 op hinv hop) hrun
      simpa using this

theorem cacheInv_construct (mipmap : Bool) : CacheInv [] (TextureCache.construct mipmap) := by
  refine ⟨construct_wf mipmap, ?_⟩
  intro h
  simp [wasActivated, TextureCache.isLoaded, TextureCache.construct]

/-! ## Index consistency of the cache: the property -/

/-- C30: in every state that is reached from a new cache by calls of `make`,
`activate` and `release` that come back, the handle at the position `i` of
`_active` has `_activeIdx = i`, the handle at the position `j` of `_inactive` has
`_activeIdx = j`, and a handle has `_activeIdx = -1` exactly when `activate` has
never been called on it.  So in such a state the assertions of `_makeActive` and
`_release` on the entry at the position `_activeIdx` do not fail: the entry of
`_inactive` (of `_active`) at the position `_activeIdx` of a handle with a texture
that is not active (that is active) is the handle itself; `release` on an active
handle comes back; and `activate` on a handle that is not active comes back
exactly when the handle holds a texture or its load step comes back, so that a
call of `activate` stops nowhere but in the load step. -/
theorem cache_index_consistent (env : LoadEnv) (mipmap : Bool) (ops : List CacheOp)
    (c : TextureCache) (hrun : runOps env ops (TextureCache.construct mipmap) = some c) :
    (∀ (i h : Nat), c._active[i]? = some h →
      ∃ o : TileTexture, c.heap[h]? = some o ∧ o._activeIdx = (i : Int)) ∧
    (∀ (j h : Nat), c._inactive[j]? = some h →
      ∃ o : TileTexture, c.heap[h]? = some o ∧ o._activeIdx = (j : Int)) ∧
    (∀ (h : Nat) (o : TileTexture), c.heap[h]? = some o →
      (o._activeIdx = -1 ↔ wasActivated ops h = false)) ∧
    (∀ (h : Nat) (o : TileTexture), c.heap[h]? = some o → o._active = false →
      (o._activeIdx ≥ 0 → vecAt c._inactive o._activeIdx = some h) ∧
      ((TileTexture.activate env c h).isSome = true ↔
        (o._txt = none → (o.loadTexture env).isSome = true))) ∧
    (∀ (h : Nat) (o : TileTexture), c.heap[h]? = some o → o._active = true →
      vecAt c._active o._activeIdx = some h ∧ (TileTexture.release c h).isSome = true) := by
  have hinv := cacheInv_run env ops [] (TextureCache.construct mipmap) c
    (cacheInv_construct mipmap) hrun
  simp only [List.nil_append] at hinv
  obtain ⟨hwf, hact⟩ := hinv
  have hidx : ∀ (h : Nat) (o : TileTexture), c.heap[h]? = some o → o._txt ≠ none →
      0 ≤ o._activeIdx := by
    intro h o ho hld
    by_contra hneg
    have hv : ∀ l : List Nat, vecAt l o._activeIdx = none := by
      intro l
      unfold vecAt
      rw [if_pos (by omega)]
    cases ha : o._active with
    | true =>
      have := hwf.objAct h o ho hld ha
      rw [hv] at this
      simp at this
    | false =>
      have := hwf.objInact h o ho hld ha
      rw [hv] at this
      simp at this
  refine ⟨?_, ?_, ?_, ?_, ?_⟩
  · intro i h hi
    obtain ⟨o, ho, _, hidx, _⟩ := hwf.act i h hi
    exact ⟨o, ho, hidx⟩
  · intro j h hj
    obtain ⟨o, ho, _, hidx, _⟩ := hwf.inact j h hj
    exact ⟨o, ho, hidx⟩
  · intro h o ho
    constructor
    · intro hm
      have hnone : o._txt = none := by
        by_contra hld
        have := hidx h o ho hld
        omega
      cases hw : wasActivated ops h with
      | false => rfl
      | true =>
        obtain ⟨o2, ho2, hld2⟩ := (isLoaded_iff c h).mp ((hact h).mp hw)
        rw [ho] at ho2
        have e := Option.some.inj ho2
        subst e
        exact absurd hnone hld2
    · intro hw
      have hnone : o._txt = none := by
        by_contra hld
        have := (hact h).mpr ((isLoaded_iff c h).mpr ⟨o, ho, hld⟩)
        rw [hw] at this
        exact absurd this (by simp)
      exact (hwf.unloaded h o ho hnone).2
  · intro h o ho hna
    constructor
    · intro hge
      have hld : o._txt ≠ none := by
        intro e
        have := (hwf.unloaded h o ho e).2
        omega
      exact hwf.objInact h o ho hld hna
    · exact activate_isSome_iff env c hwf h o ho hna
  · intro h o ho ha
    have hld : o._txt ≠ none := by
      intro e
      have := (hwf.unloaded h o ho e).1
      rw [ha] at this
      exact absurd this (by simp)
    constructor
    · exact hwf.objAct h o ho hld ha
    · obtain ⟨c1, e1, _⟩ := release_spec c hwf h o ho ha
      rw [e1]
      rfl

/-- C30, after `make` of two handles, `activate` of both and `release` of the
first. -/
theorem cache_index_consistent_witness :
    (∀ (i h : Nat), indexScenario._active[i]? = some h →
      ∃ o : TileTexture, indexScenario.heap[h]? = some o ∧ o._activeIdx = (i : Int)) ∧
    (∀ (j h : Nat), indexScenario._inactive[j]? = some h →
      ∃ o : TileTexture, indexScenario.heap[h]? = some o ∧ o._activeIdx = (j : Int)) ∧
    (∀ (h : Nat) (o : TileTexture), indexScenario.heap[h]? = some o →
      (o._activeIdx = -1 ↔ wasActivated indexOps h = false)) ∧
    (∀ (h : Nat) (o : TileTexture), indexScenario.heap[h]? = some o → o._active = false →
      (o._activeIdx ≥ 0 → vecAt indexScenario._inactive o._activeIdx = some h) ∧
      ((TileTexture.activate sampleEnv indexScenario h).isSome = true ↔
        (o._txt = none → (o.loadTexture sampleEnv).isSome = true))) ∧
    (∀ (h : Nat) (o : TileTexture), indexScenario.heap[h]? = some o → o._active = true →
      vecAt indexScenario._active o._activeIdx = some h ∧
      (TileTexture.release indexScenario h).isSome = true) :=
  cache_index_consistent sampleEnv false indexOps indexScenario (by decide)

end Terrain
